import Mathlib

/-!
# Verification of the gaspar-finance CDP core

A shallow embedding, in Lean 4, of the accounting/algorithmic core of the
gaspar-finance collateralized-debt-position protocol
(`casper/contracts/src/`): per-vault interest accrual (`interest.rs`),
the CSPR branch ledger with its rate-ordered doubly-linked vault list
(`branch_cspr.rs`), the liquidation engine's seizure/penalty math
(`liquidation_engine.rs`), and the stability pool's product-sum algorithm
(`stability_pool.rs`), together with the safe-mode gates of the stability
pool, liquidation engine and redemption engine.

Modelling conventions:
* `U256` quantities (collateral, debt, totals, prices, pool deposits, the
  product `P` and sums `S`) are `Nat` with the bound `2 ^ 256` made explicit:
  the `uint` crate's unchecked `U256` arithmetic panics on overflow,
  underflow and division by zero, and a panic aborts the contract call and
  rolls back all of its writes.  We model those operations with
  `umul` / `uadd` / `usub` / `udiv`, which return
  `Except CdpError Nat` and signal `CdpError.ArithmeticTrap` exactly where
  the Rust would panic; `checked_mul` / `checked_div` model the `Option`-
  returning `checked_*` methods used in `interest.rs`.
* `u64` / `u32` index-like quantities (vault ids, counters, rates, epochs,
  scales, timestamps) are plain `Nat`.  The only place this is visible is
  `next_vault_id.saturating_add(1)`, modelled as `+ 1`: the saturation
  point `2 ^ 64 - 1` cannot be reached by any execution shorter than
  `2 ^ 64` calls.  `u64::saturating_sub(1)` coincides with `Nat` subtraction
  and is modelled as such.
* Contract storage `Mapping`s are association lists with first-occurrence
  `get` / `set` (`alGet` / `alSet`); `Var`s are plain record fields whose
  initial values are those written by the contract's `init`.
* Each mutating entry point becomes a function
  `state → args → Except CdpError state`: an `.error` result models a
  revert, after which the caller observes the unchanged pre-state (the
  host rolls back every write of the failed call).  Caller-authorization
  checks (`require_router`, and the `TODO` authorization comments) concern
  the transaction caller, not the ledger state, and are outside the model.
* Cross-contract token transfers and mint/burn calls (the `TODO` blocks in
  the source) move funds only; they do not touch the ledger state modelled
  here.
-/

namespace Gaspar

/-- `2 ^ 256`: the size of the `U256` machine-integer domain. -/
def U256_LIMIT : Nat := 2 ^ 256

/-- interest.rs: seconds in a year (365 days). -/
def SECONDS_PER_YEAR : Nat := 31536000

/-- interest.rs / shared: basis-points scale (100% = 10000 bps). -/
def BPS_SCALE : Nat := 10000

/-- interest.rs: internal precision scale (1e18). -/
def PRECISION : Nat := 1000000000000000000

/-- branch_cspr.rs: minimum collateralization ratio in bps (110%). -/
def MCR_BPS : Nat := 11000

/-- branch_cspr.rs: minimum debt in whole stablecoin units. -/
def MIN_DEBT_WHOLE : Nat := 1

/-- branch_cspr.rs: price scale (prices are 18-decimal fixed point). -/
def PRICE_SCALE : Nat := 1000000000000000000

/-- branch_cspr.rs: CSPR collateral has 9 decimals. -/
def COLLATERAL_DECIMALS : Nat := 1000000000

/-- branch_cspr.rs: maximum interest rate in bps (40%). -/
def MAX_INTEREST_RATE_BPS : Nat := 4000

/-- liquidation_engine.rs / stability_pool.rs: precision scale (1e18). -/
def SCALE : Nat := 1000000000000000000

/-- liquidation_engine.rs: default liquidation penalty (10% = 1000 bps). -/
def LIQUIDATION_PENALTY_BPS : Nat := 1000

/-- stability_pool.rs: scale factor for the product/sum algorithm (1e9). -/
def SCALE_FACTOR : Nat := 1000000000

/-- stability_pool.rs: minimum deposit amount. -/
def MIN_DEPOSIT : Nat := 1000000

/-- `u32::MAX`, the value `calculate_icr` saturates to. -/
def U32_MAX : Nat := 4294967295

/-- errors.rs `CdpError`, restricted to the variants reachable in the code
modelled here, plus `ArithmeticTrap`, which stands for a Rust `U256`
arithmetic panic (overflow / underflow / division by zero): like an
explicit revert, a panic aborts the call and rolls back its writes. -/
inductive CdpError where
  | VaultNotFound
  | BelowMcr
  | BelowMinDebt
  | InsufficientCollateral
  | RepayExceedsDebt
  | SafeModeActive
  | NotLiquidatable
  | InterestRateOutOfBounds
  | InvalidConfig
  | UnsupportedCollateral
  | ArithmeticTrap
deriving DecidableEq, Repr

instance {ε α : Type} [DecidableEq ε] [DecidableEq α] : DecidableEq (Except ε α)
  | .ok a, .ok b =>
    if h : a = b then .isTrue (h ▸ rfl)
    else .isFalse (fun hc => h (Except.ok.inj hc))
  | .error a, .error b =>
    if h : a = b then .isTrue (h ▸ rfl)
    else .isFalse (fun hc => h (Except.error.inj hc))
  | .ok _, .error _ => .isFalse (fun hc => Except.noConfusion hc)
  | .error _, .ok _ => .isFalse (fun hc => Except.noConfusion hc)

/-- types.rs `CollateralId`. -/
inductive CollateralId where
  | Cspr
  | SCSPR
deriving DecidableEq, Repr

/-- `U256::checked_mul`. -/
def checked_mul (a b : Nat) : Option Nat :=
  if a * b < U256_LIMIT then some (a * b) else none

/-- `U256::checked_div` (`none` on division by zero). -/
def checked_div (a b : Nat) : Option Nat :=
  if b = 0 then none else some (a / b)

/-- Unchecked `U256` multiplication: panics (reverts) on overflow. -/
def umul (a b : Nat) : Except CdpError Nat :=
  if a * b < U256_LIMIT then .ok (a * b) else .error .ArithmeticTrap

/-- Unchecked `U256` addition: panics (reverts) on overflow. -/
def uadd (a b : Nat) : Except CdpError Nat :=
  if a + b < U256_LIMIT then .ok (a + b) else .error .ArithmeticTrap

/-- Unchecked `U256` subtraction: panics (reverts) on underflow. -/
def usub (a b : Nat) : Except CdpError Nat :=
  if b ≤ a then .ok (a - b) else .error .ArithmeticTrap

/-- Unchecked `U256` division: panics (reverts) on division by zero. -/
def udiv (a b : Nat) : Except CdpError Nat :=
  if b = 0 then .error .ArithmeticTrap else .ok (a / b)

/-! ## interest.rs -/

/-- interest.rs `AccrualResult`. -/
structure AccrualResult where
  new_debt : Nat
  interest_accrued : Nat
deriving DecidableEq, Repr

/-- interest.rs `accrue_interest` (lines 63–103).  The four-step
`checked_mul` / `checked_div` chain falls back to `U256::zero()` via
`unwrap_or`; the final `debt + interest` is an *unchecked* `U256` addition,
so the function traps (`none`) when that sum reaches `2 ^ 256`. -/
def accrue_interest (debt interest_rate_bps last_accrual_timestamp
    current_timestamp : Nat) : Option AccrualResult :=
  if current_timestamp ≤ last_accrual_timestamp then
    some ⟨debt, 0⟩
  else if debt = 0 || interest_rate_bps = 0 then
    some ⟨debt, 0⟩
  else
    let elapsed_seconds := current_timestamp - last_accrual_timestamp
    let interest :=
      ((((checked_mul debt interest_rate_bps).bind
          (fun v => checked_mul v elapsed_seconds)).bind
          (fun v => checked_div v BPS_SCALE)).bind
          (fun v => checked_div v SECONDS_PER_YEAR)).getD 0
    if debt + interest < U256_LIMIT then
      some ⟨debt + interest, interest⟩
    else
      none

/-! ### Claims C2 and C10: `accrue_interest` -/

/-- C2, counterexample.  The claim asserts that for *every* debt, rate and
`last ≤ now`, the interest accrued equals
`debt * rate_bps * (now - last) / (10000 * 31536000)`.  At
`debt = 2^256 - 1`, `rate = 2`, `last = 0`, `now = 1` the 256-bit product
overflows, the `checked_mul` chain falls back to zero and the call returns
`(debt, 0)`, while the claimed floor formula is non-zero. -/
theorem C2_counterexample :
    accrue_interest (U256_LIMIT - 1) 2 0 1 = some ⟨U256_LIMIT - 1, 0⟩ ∧
    (U256_LIMIT - 1) * 2 * (1 - 0) / (BPS_SCALE * SECONDS_PER_YEAR) ≠ 0 := by
  constructor
  · decide
  · decide

/-- C2 (amended): provided the 256-bit product `debt * rate_bps * elapsed`
does not overflow and neither does the final `debt + interest` addition,
`accrue_interest debt rate_bps last now` (with `last ≤ now`) returns
`new_debt = debt + interest` and `interest_accrued = interest` with
`interest = debt * rate_bps * (now - last) / (10000 * 31536000)` (simple,
non-compounding); and unconditionally, whenever `now ≤ last`, or
`debt = 0`, or `rate_bps = 0`, it returns `(debt, 0)` — in particular
`accrue_interest debt rate t t = (debt, 0)` for any `t`. -/
theorem C2_theorem :
    (∀ debt rate last now : Nat, last ≤ now →
      debt * rate * (now - last) < U256_LIMIT →
      debt + debt * rate * (now - last) / (BPS_SCALE * SECONDS_PER_YEAR) < U256_LIMIT →
      accrue_interest debt rate last now =
        some ⟨debt + debt * rate * (now - last) / (BPS_SCALE * SECONDS_PER_YEAR),
              debt * rate * (now - last) / (BPS_SCALE * SECONDS_PER_YEAR)⟩) ∧
    (∀ debt rate last now : Nat, (now ≤ last ∨ debt = 0 ∨ rate = 0) →
      accrue_interest debt rate last now = some ⟨debt, 0⟩) := by
  constructor
  · intro debt rate last now h1 h2 h3
    unfold accrue_interest
    by_cases hle : now ≤ last
    · have hz : now - last = 0 := Nat.sub_eq_zero_of_le hle
      simp [hle, hz]
    · rw [if_neg hle]
      by_cases hdz : debt = 0
      · simp [hdz]
      · by_cases hrz : rate = 0
        · simp [hrz]
        · have hbool : (debt = 0 || rate = 0) = false := by
            simp [hdz, hrz]
          rw [hbool]
          have helapsed : 0 < now - last := by omega
          have hdr : debt * rate < U256_LIMIT := by
            calc debt * rate ≤ debt * rate * (now - last) :=
                  Nat.le_mul_of_pos_right _ helapsed
              _ < U256_LIMIT := h2
          have hdd : debt * rate * (now - last) / 10000 / 31536000
              = debt * rate * (now - last) / (10000 * 31536000) :=
            Nat.div_div_eq_div_mul _ _ _
          have hcc : BPS_SCALE * SECONDS_PER_YEAR = 10000 * 31536000 := by
            norm_num [BPS_SCALE, SECONDS_PER_YEAR]
          rw [hcc] at h3 ⊢
          simp [checked_mul, checked_div, hdr, h2, hdd, h3,
            BPS_SCALE, SECONDS_PER_YEAR]
  · intro debt rate last now h
    unfold accrue_interest
    rcases h with h | h | h
    · simp [h]
    · by_cases hle : now ≤ last
      · simp [hle]
      · simp [hle, h]
    · by_cases hle : now ≤ last
      · simp [hle]
      · simp [hle, h]

/-- C2, witness for the amended theorem: the spec's own scenario — 800 gUSD
of debt at 5% (500 bps) for exactly one year accrues 40 gUSD of interest. -/
theorem C2_witness :
    accrue_interest (800 * PRECISION) 500 1000 (1000 + SECONDS_PER_YEAR) =
      some ⟨800 * PRECISION +
              800 * PRECISION * 500 * ((1000 + SECONDS_PER_YEAR) - 1000) /
                (BPS_SCALE * SECONDS_PER_YEAR),
            800 * PRECISION * 500 * ((1000 + SECONDS_PER_YEAR) - 1000) /
              (BPS_SCALE * SECONDS_PER_YEAR)⟩ ∧
    accrue_interest (800 * PRECISION) 500 SECONDS_PER_YEAR SECONDS_PER_YEAR =
      some ⟨800 * PRECISION, 0⟩ := by
  constructor
  · exact C2_theorem.1 (800 * PRECISION) 500 1000 (1000 + SECONDS_PER_YEAR)
      (by decide) (by decide) (by decide)
  · exact C2_theorem.2 (800 * PRECISION) 500 SECONDS_PER_YEAR SECONDS_PER_YEAR
      (Or.inl (by decide))

/-- C10, counterexample.  The claim asserts `accrue_interest` is total and
never traps.  At `debt = 2^256 - 1`, `rate = 1`, `last = 0`, `now = 1` the
256-bit product does *not* overflow, so a non-zero interest is computed,
and the final unchecked `debt + interest` addition overflows `U256` — a
panic (trap) that aborts the call, modelled by `none`. -/
theorem C10_counterexample :
    accrue_interest (U256_LIMIT - 1) 1 0 1 = none := by
  decide

/-- C10 (amended): whenever the 256-bit product
`debt * rate_bps * elapsed_seconds` overflows, the checked arithmetic falls
back to zero and the call silently returns `(debt, 0)` without trapping.
(The original totality claim fails: the final `debt + interest` addition is
unchecked and traps when `debt + interest ≥ 2^256`, which requires the
product *not* to overflow — see `C10_counterexample`.) -/
theorem C10_theorem (debt rate last now : Nat)
    (hd : debt < U256_LIMIT)
    (hover : U256_LIMIT ≤ debt * rate * (now - last)) :
    accrue_interest debt rate last now = some ⟨debt, 0⟩ := by
  have hlt : ¬ now ≤ last := by
    intro hle
    rw [Nat.sub_eq_zero_of_le hle, Nat.mul_zero] at hover
    exact absurd hover (by simp [U256_LIMIT])
  have hdz : debt ≠ 0 := by
    rintro rfl
    simp [U256_LIMIT] at hover
  have hrz : rate ≠ 0 := by
    rintro rfl
    simp [U256_LIMIT] at hover
  unfold accrue_interest
  rw [if_neg hlt]
  have hbool : (debt = 0 || rate = 0) = false := by simp [hdz, hrz]
  rw [hbool]
  simp only [Bool.false_eq_true, if_false]
  have hzero :
      ((((checked_mul debt rate).bind
          (fun v => checked_mul v (now - last))).bind
          (fun v => checked_div v BPS_SCALE)).bind
          (fun v => checked_div v SECONDS_PER_YEAR)).getD 0 = 0 := by
    by_cases hdr : debt * rate < U256_LIMIT
    · have : ¬ debt * rate * (now - last) < U256_LIMIT := by omega
      simp [checked_mul, hdr, this]
    · simp [checked_mul, hdr]
  rw [hzero, if_pos (by omega)]
  simp

/-- C10, witness: a concrete overflowing product (`debt = 2^255`,
40% rate, one year) silently yields zero interest. -/
theorem C10_witness :
    accrue_interest (2 ^ 255) 4000 0 SECONDS_PER_YEAR = some ⟨2 ^ 255, 0⟩ :=
  C10_theorem (2 ^ 255) 4000 0 SECONDS_PER_YEAR (by decide) (by decide)

/-! ## liquidation_engine.rs -/

/-- liquidation_engine.rs `LiquidationResult`. -/
structure LiquidationResult where
  vault_owner : Nat
  collateral_id : CollateralId
  debt_liquidated : Nat
  collateral_seized : Nat
  collateral_to_sp : Nat
  collateral_to_liquidator : Nat
  fully_liquidated : Bool
deriving DecidableEq, Repr

/-- liquidation_engine.rs `BatchLiquidationResult`. -/
structure BatchLiquidationResult where
  vaults_liquidated : Nat
  total_debt_liquidated : Nat
  total_collateral_seized : Nat
deriving DecidableEq, Repr

/-- The liquidation engine's configuration and safe-mode latch (the `Var`s
of the `LiquidationEngine` module that its computations read; the wiring
addresses and the cumulative statistics counters do not influence the
per-liquidation computation). -/
structure EngineState where
  liquidation_penalty_bps : Nat
  gas_compensation : Nat
  safe_mode_active : Bool
deriving DecidableEq, Repr

namespace LiquidationEngine

/-- liquidation_engine.rs `calculate_collateral_value`:
`collateral * price / SCALE`. -/
def calculate_collateral_value (collateral price : Nat) :
    Except CdpError Nat := do
  let v ← umul collateral price
  .ok (v / SCALE)

/-- liquidation_engine.rs `calculate_icr`: `collateral_value * 10000 / debt`,
saturating to `u32::MAX` (and `u32::MAX` for a zero debt). -/
def calculate_icr (collateral_value debt : Nat) : Except CdpError Nat :=
  if debt = 0 then .ok U32_MAX
  else do
    let s ← umul collateral_value BPS_SCALE
    let scaled := s / debt
    .ok (if U32_MAX < scaled then U32_MAX else scaled)

/-- liquidation_engine.rs `calculate_liquidation` (lines 554–607). -/
def calculate_liquidation (penalty_bps gas_compensation vault_owner : Nat)
    (collateral_id : CollateralId) (collateral debt price : Nat) :
    Except CdpError LiquidationResult := do
  let penalty_multiplier := BPS_SCALE + penalty_bps
  let cvn ← umul debt penalty_multiplier
  let collateral_value_needed := cvn / BPS_SCALE
  let cts ← umul collateral_value_needed SCALE
  let collateral_to_seize ← udiv cts price
  let actual_collateral_seized :=
    if collateral < collateral_to_seize then collateral else collateral_to_seize
  let debt_covered ←
    if collateral < collateral_to_seize then do
      -- Partial liquidation due to insufficient collateral.
      let a ← umul collateral price
      let b ← umul a BPS_SCALE
      .ok (b / SCALE / penalty_multiplier)
    else
      .ok debt
  let fully_liquidated := decide (collateral_to_seize ≤ collateral)
  let g ← umul gas_compensation SCALE
  let gas_comp_in_collateral ← udiv g price
  let collateral_to_liquidator :=
    if actual_collateral_seized < gas_comp_in_collateral then
      actual_collateral_seized / 100  -- 1% fallback
    else
      gas_comp_in_collateral
  let collateral_to_sp := actual_collateral_seized - collateral_to_liquidator
  .ok ⟨vault_owner, collateral_id, debt_covered, actual_collateral_seized,
       collateral_to_sp, collateral_to_liquidator, fully_liquidated⟩

/-- liquidation_engine.rs `liquidate` (lines 191–236), as a function of the
vault data and price that the contract fetches by cross-contract calls.
The cumulative statistics counters and `execute_liquidation` (which moves
funds and forwards the computed amounts to the branch and the pool) do not
change the returned `LiquidationResult`. -/
def liquidate (e : EngineState) (vault_owner : Nat)
    (collateral_id : CollateralId) (collateral debt price : Nat) :
    Except CdpError LiquidationResult :=
  if e.safe_mode_active then .error .SafeModeActive
  else if collateral = 0 ∧ debt = 0 then .error .VaultNotFound
  else do
    let collateral_value ← calculate_collateral_value collateral price
    let icr_bps ← calculate_icr collateral_value debt
    if MCR_BPS ≤ icr_bps then .error .NotLiquidatable
    else
      calculate_liquidation e.liquidation_penalty_bps e.gas_compensation
        vault_owner collateral_id collateral debt price

/-- liquidation_engine.rs `batch_liquidate` inner loop (lines 267–299),
over the `(owner, collateral, debt)` triples fetched from the branch. -/
def batch_loop (e : EngineState) (collateral_id : CollateralId) (price : Nat) :
    List (Nat × Nat × Nat) → Nat → Nat → Nat →
    Except CdpError (Nat × Nat × Nat)
  | [], n, td, tc => .ok (n, td, tc)
  | (owner, collateral, debt) :: rest, n, td, tc =>
    if collateral = 0 ∧ debt = 0 then
      -- Skip empty vaults.
      batch_loop e collateral_id price rest n td tc
    else do
      let collateral_value ← calculate_collateral_value collateral price
      let icr_bps ← calculate_icr collateral_value debt
      if MCR_BPS ≤ icr_bps then
        -- Skip healthy vaults.
        batch_loop e collateral_id price rest n td tc
      else do
        let result ← calculate_liquidation e.liquidation_penalty_bps
          e.gas_compensation owner collateral_id collateral debt price
        let td' ← uadd td result.debt_liquidated
        let tc' ← uadd tc result.collateral_seized
        batch_loop e collateral_id price rest (n + 1) td' tc'

/-- liquidation_engine.rs `batch_liquidate` (lines 251–316): safe-mode gate,
one price for the whole batch, then the per-vault loop. -/
def batch_liquidate (e : EngineState) (collateral_id : CollateralId)
    (vaults : List (Nat × Nat × Nat)) (max_vaults : Nat) (price : Nat) :
    Except CdpError BatchLiquidationResult :=
  if e.safe_mode_active then .error .SafeModeActive
  else do
    let (n, td, tc) ← batch_loop e collateral_id price
      (vaults.take max_vaults) 0 0 0
    .ok ⟨n, td, tc⟩

end LiquidationEngine

/-! ### Inversion helpers for the `Except`-valued arithmetic -/

theorem except_bind_ok {α β : Type} {x : Except CdpError α}
    {f : α → Except CdpError β} {b : β} (h : x >>= f = .ok b) :
    ∃ a, x = .ok a ∧ f a = .ok b := by
  cases x with
  | error e => simp [Bind.bind, Except.bind] at h
  | ok a => exact ⟨a, rfl, by simpa [Bind.bind, Except.bind] using h⟩

theorem umul_ok {a b v : Nat} (h : umul a b = .ok v) :
    v = a * b ∧ a * b < U256_LIMIT := by
  unfold umul at h
  split at h
  · exact ⟨(Except.ok.inj h).symm, by assumption⟩
  · cases h

theorem uadd_ok {a b v : Nat} (h : uadd a b = .ok v) :
    v = a + b ∧ a + b < U256_LIMIT := by
  unfold uadd at h
  split at h
  · exact ⟨(Except.ok.inj h).symm, by assumption⟩
  · cases h

theorem usub_ok {a b v : Nat} (h : usub a b = .ok v) :
    v = a - b ∧ b ≤ a := by
  unfold usub at h
  split at h
  · exact ⟨(Except.ok.inj h).symm, by assumption⟩
  · cases h

theorem udiv_ok {a b v : Nat} (h : udiv a b = .ok v) :
    v = a / b ∧ b ≠ 0 := by
  unfold udiv at h
  split at h
  · cases h
  · exact ⟨(Except.ok.inj h).symm, by assumption⟩

/-! ### Claim C3: liquidation seizure / penalty math -/

/-- Field-level characterization of `calculate_liquidation`. -/
theorem calculate_liquidation_ok {pen gas owner : Nat} {cid : CollateralId}
    {c d p : Nat} {r : LiquidationResult}
    (h : LiquidationEngine.calculate_liquidation pen gas owner cid c d p = .ok r) :
    p ≠ 0 ∧
    r.vault_owner = owner ∧
    r.collateral_id = cid ∧
    r.collateral_seized = min (d * (BPS_SCALE + pen) / BPS_SCALE * SCALE / p) c ∧
    r.fully_liquidated = decide (d * (BPS_SCALE + pen) / BPS_SCALE * SCALE / p ≤ c) ∧
    r.debt_liquidated = (if c < d * (BPS_SCALE + pen) / BPS_SCALE * SCALE / p
        then c * p * BPS_SCALE / SCALE / (BPS_SCALE + pen) else d) ∧
    r.collateral_to_liquidator = (if r.collateral_seized < gas * SCALE / p
        then r.collateral_seized / 100 else gas * SCALE / p) ∧
    r.collateral_to_sp = r.collateral_seized - r.collateral_to_liquidator := by
  simp only [LiquidationEngine.calculate_liquidation] at h
  obtain ⟨cvn, hcvn, h⟩ := except_bind_ok h
  obtain ⟨rfl, -⟩ := umul_ok hcvn
  obtain ⟨cts, hcts, h⟩ := except_bind_ok h
  obtain ⟨rfl, -⟩ := umul_ok hcts
  obtain ⟨toSeize, hseize, h⟩ := except_bind_ok h
  obtain ⟨rfl, hp⟩ := udiv_ok hseize
  by_cases hcap : c < d * (BPS_SCALE + pen) / BPS_SCALE * SCALE / p
  · rw [if_pos hcap] at h
    obtain ⟨a, ha, h⟩ := except_bind_ok h
    obtain ⟨rfl, -⟩ := umul_ok ha
    obtain ⟨b, hb, h⟩ := except_bind_ok h
    obtain ⟨rfl, -⟩ := umul_ok hb
    obtain ⟨y, hy, h⟩ := except_bind_ok h
    obtain ⟨g, hg, h⟩ := except_bind_ok h
    obtain ⟨rfl, -⟩ := umul_ok hg
    obtain ⟨gc, hgc, h⟩ := except_bind_ok h
    obtain ⟨rfl, -⟩ := udiv_ok hgc
    have hr := (Except.ok.inj h).symm
    have hyv := Except.ok.inj hy
    subst hr
    refine ⟨hp, rfl, rfl, ?_, rfl, ?_, by simp [hcap], by simp [hcap]⟩
    · simp only [if_pos hcap]
      omega
    · simp only [if_pos hcap]
      omega
  · rw [if_neg hcap] at h
    obtain ⟨y, hy, h⟩ := except_bind_ok h
    obtain ⟨g, hg, h⟩ := except_bind_ok h
    obtain ⟨rfl, -⟩ := umul_ok hg
    obtain ⟨gc, hgc, h⟩ := except_bind_ok h
    obtain ⟨rfl, -⟩ := udiv_ok hgc
    have hr := (Except.ok.inj h).symm
    have hyv := Except.ok.inj hy
    subst hr
    refine ⟨hp, rfl, rfl, ?_, rfl, ?_, by simp [hcap], by simp [hcap]⟩
    · simp only [if_neg hcap]
      omega
    · simp only [if_neg hcap]
      omega

/-- C3: for every liquidatable vault (ICR < 11000 bps) whose `liquidate`
call completes, the result satisfies: `collateral_needed =
debt * (10000 + penalty_bps) / 10000`, `collateral_to_seize` is that value
converted to collateral units at the price (`* SCALE / price`), capped at
the vault's collateral; when the cap binds the liquidation is partial
(`fully_liquidated = false`, vault not closed) and `debt_covered` is
recomputed backward as `collateral * price * 10000 / SCALE /
(10000 + penalty_bps)` instead of the nominal debt; the liquidator's slice
is the configured gas compensation converted to collateral, except when
that would exceed the seized amount, in which case it is 1% of the seized
collateral; and the remainder of the seized collateral goes to the
stability pool.  Success of `liquidate` also certifies ICR < MCR. -/
theorem C3_theorem (e : EngineState) (vault_owner : Nat) (cid : CollateralId)
    (collateral debt price : Nat) (r : LiquidationResult)
    (hok : LiquidationEngine.liquidate e vault_owner cid collateral debt price
      = .ok r) :
    (∃ cv icr, LiquidationEngine.calculate_collateral_value collateral price
        = .ok cv ∧
      LiquidationEngine.calculate_icr cv debt = .ok icr ∧ icr < MCR_BPS) ∧
    r.collateral_seized =
      min (debt * (BPS_SCALE + e.liquidation_penalty_bps) / BPS_SCALE
            * SCALE / price) collateral ∧
    (r.fully_liquidated = false ↔
      collateral < debt * (BPS_SCALE + e.liquidation_penalty_bps) / BPS_SCALE
                    * SCALE / price) ∧
    r.debt_liquidated =
      (if collateral <
          debt * (BPS_SCALE + e.liquidation_penalty_bps) / BPS_SCALE
            * SCALE / price
        then collateral * price * BPS_SCALE / SCALE
              / (BPS_SCALE + e.liquidation_penalty_bps)
        else debt) ∧
    r.collateral_to_liquidator =
      (if r.collateral_seized < e.gas_compensation * SCALE / price
        then r.collateral_seized / 100
        else e.gas_compensation * SCALE / price) ∧
    r.collateral_to_sp = r.collateral_seized - r.collateral_to_liquidator := by
  unfold LiquidationEngine.liquidate at hok
  by_cases hs : e.safe_mode_active
  · rw [if_pos hs] at hok; cases hok
  rw [if_neg hs] at hok
  by_cases hv : collateral = 0 ∧ debt = 0
  · rw [if_pos hv] at hok; cases hok
  rw [if_neg hv] at hok
  obtain ⟨cv, hcv, hok⟩ := except_bind_ok hok
  obtain ⟨icr, hicr, hok⟩ := except_bind_ok hok
  by_cases hmcr : MCR_BPS ≤ icr
  · rw [if_pos hmcr] at hok; cases hok
  rw [if_neg hmcr] at hok
  obtain ⟨-, -, -, h4, h5, h6, h7, h8⟩ := calculate_liquidation_ok hok
  refine ⟨⟨cv, icr, hcv, hicr, by omega⟩, h4, ?_, h6, h7, h8⟩
  rw [h5]
  constructor
  · intro hfalse
    by_contra hnot
    simp [Nat.le_of_not_lt hnot] at hfalse
  · intro hlt
    simp [Nat.not_le_of_lt hlt]

/-- C3, witness: penalty 1000 bps, gas compensation 200 gUSD, price 1.0,
collateral 1050 (18-dec), debt 1000 — ICR is 10500 < 11000, the nominal
seizure 1100 exceeds the collateral, so the cap binds: a partial
liquidation covering `1050 * 10000 / 11000` of debt, with the liquidator
receiving the 200-gUSD gas compensation in collateral and the rest going
to the stability pool. -/
theorem C3_witness :
    LiquidationEngine.liquidate ⟨1000, 200 * SCALE, false⟩ 7 CollateralId.Cspr
        (1050 * SCALE) (1000 * SCALE) SCALE =
      .ok ⟨7, CollateralId.Cspr, 954545454545454545454, 1050 * SCALE,
           850 * SCALE, 200 * SCALE, false⟩ ∧
    954545454545454545454 =
      1050 * SCALE * SCALE * BPS_SCALE / SCALE / (BPS_SCALE + 1000) := by
  have hr : LiquidationEngine.liquidate ⟨1000, 200 * SCALE, false⟩ 7
      CollateralId.Cspr (1050 * SCALE) (1000 * SCALE) SCALE =
      .ok ⟨7, CollateralId.Cspr, 954545454545454545454, 1050 * SCALE,
           850 * SCALE, 200 * SCALE, false⟩ := by decide
  refine ⟨hr, ?_⟩
  obtain ⟨-, -, -, h6, -, -⟩ := C3_theorem _ _ _ _ _ _ _ hr
  rw [if_pos (by decide)] at h6
  exact h6

/-! ## Association-list storage (contract `Mapping`s)

Odra `Mapping`s never delete keys; `get` returns `Option` and every read
site applies the Rust code's own `unwrap_or` default. -/

def alGet {κ α : Type} [DecidableEq κ] : List (κ × α) → κ → Option α
  | [], _ => none
  | (k', v') :: rest, k => if k' = k then some v' else alGet rest k

def alSet {κ α : Type} [DecidableEq κ] : List (κ × α) → κ → α → List (κ × α)
  | [], k, v => [(k, v)]
  | (k', v') :: rest, k, v =>
    if k' = k then (k, v) :: rest else (k', v') :: alSet rest k v

/-! ## stability_pool.rs -/

/-- stability_pool.rs `DepositSnapshot`. -/
structure DepositSnapshot where
  deposit : Nat
  p : Nat
  s_cspr : Nat
  s_scspr : Nat
  epoch : Nat
  scale : Nat
deriving DecidableEq, Repr

/-- `DepositSnapshot::default()`: all fields zero. -/
def defaultSnapshot : DepositSnapshot := ⟨0, 0, 0, 0, 0, 0⟩

/-- stability_pool.rs `CollateralGains`. -/
structure CollateralGains where
  cspr_gain : Nat
  scspr_gain : Nat
deriving DecidableEq, Repr

/-- stability_pool.rs `ProductSumState`. -/
structure ProductSumState where
  p : Nat
  s_cspr : Nat
  s_scspr : Nat
  epoch : Nat
  scale : Nat
deriving DecidableEq, Repr

/-- The `StabilityPool` module's storage (the address wiring `Var`s are
omitted: they only direct cross-contract calls). -/
structure PoolState where
  total_deposits : Nat
  total_cspr_collateral : Nat
  total_scspr_collateral : Nat
  total_debt_absorbed : Nat
  depositor_count : Nat
  ps_state : ProductSumState
  epoch_scale_sum_cspr : List ((Nat × Nat) × Nat)
  epoch_scale_sum_scspr : List ((Nat × Nat) × Nat)
  deposits : List (Nat × DepositSnapshot)
  safe_mode_active : Bool
deriving DecidableEq, Repr

namespace StabilityPool

/-- stability_pool.rs `init` (lines 131–165): empty pool, `P = SCALE`,
safe mode inactive. -/
def initPool : PoolState :=
  ⟨0, 0, 0, 0, 0, ⟨SCALE, 0, 0, 0, 0⟩, [], [], [], false⟩

/-- stability_pool.rs `get_compounded_deposit` (lines 346–383). -/
def get_compounded_deposit (s : PoolState) (depositor : Nat) :
    Except CdpError Nat :=
  let snapshot := (alGet s.deposits depositor).getD defaultSnapshot
  if snapshot.deposit = 0 then .ok 0
  else
    let state := s.ps_state
    if snapshot.p = 0 then .ok snapshot.deposit
    else if snapshot.epoch < state.epoch then
      -- Deposit was wiped out in a previous epoch.
      .ok 0
    else
      let scale_diff := state.scale - snapshot.scale  -- saturating_sub
      if scale_diff = 0 then do
        let v ← umul snapshot.deposit state.p
        .ok (v / snapshot.p)
      else if scale_diff = 1 then do
        let v ← umul snapshot.deposit state.p
        .ok (v / snapshot.p / SCALE_FACTOR)
      else
        -- More than 1 scale difference: effectively zero.
        .ok 0

/-- stability_pool.rs `calculate_gains` (lines 572–617). -/
def calculate_gains (s : PoolState)
    (deposit snapshot_s snapshot_p snapshot_epoch snapshot_scale
     current_s current_epoch current_scale : Nat)
    (collateral_id : CollateralId) : Except CdpError Nat :=
  if snapshot_p = 0 then .ok 0
  else if current_epoch ≠ snapshot_epoch then .ok 0
  else do
    let scale_diff := current_scale - snapshot_scale  -- saturating_sub
    let sum_diff ←
      if scale_diff = 0 then
        .ok (current_s - snapshot_s)  -- saturating_sub
      else if scale_diff = 1 then
        let sum_at_next :=
          match collateral_id with
          | .Cspr =>
            (alGet s.epoch_scale_sum_cspr (snapshot_epoch, snapshot_scale + 1)).getD 0
          | .SCSPR =>
            (alGet s.epoch_scale_sum_scspr (snapshot_epoch, snapshot_scale + 1)).getD 0
        uadd (sum_at_next / SCALE_FACTOR) (current_s - snapshot_s)
      else
        .ok 0
    let g ← umul deposit sum_diff
    .ok (g / snapshot_p)

/-- stability_pool.rs `get_depositor_gains` (lines 386–425). -/
def get_depositor_gains (s : PoolState) (depositor : Nat) :
    Except CdpError CollateralGains :=
  let snapshot := (alGet s.deposits depositor).getD defaultSnapshot
  if snapshot.deposit = 0 then .ok ⟨0, 0⟩
  else do
    let state := s.ps_state
    let cspr_gain ← calculate_gains s snapshot.deposit snapshot.s_cspr
      snapshot.p snapshot.epoch snapshot.scale
      state.s_cspr state.epoch state.scale .Cspr
    let scspr_gain ← calculate_gains s snapshot.deposit snapshot.s_scspr
      snapshot.p snapshot.epoch snapshot.scale
      state.s_scspr state.epoch state.scale .SCSPR
    .ok ⟨cspr_gain, scspr_gain⟩

/-- stability_pool.rs `store_snapshot` (lines 492–510). -/
def store_snapshot (s : PoolState) (depositor deposit : Nat) : PoolState :=
  let state := s.ps_state
  let snapshot : DepositSnapshot :=
    ⟨deposit, state.p, state.s_cspr, state.s_scspr, state.epoch, state.scale⟩
  { s with deposits := alSet s.deposits depositor snapshot }

/-- stability_pool.rs `deposit` (lines 177–213).  No safe-mode check:
deposits are always allowed.  The gains computed under the old snapshot
are paid out by token transfers and do not change the pool state. -/
def deposit (s : PoolState) (depositor amount : Nat) :
    Except CdpError PoolState :=
  if amount < MIN_DEPOSIT then .error .BelowMinDebt
  else do
    let existing_snapshot := (alGet s.deposits depositor).getD defaultSnapshot
    let existing_deposit ← get_compounded_deposit s depositor
    let _gains ← get_depositor_gains s depositor
    let new_deposit ← uadd existing_deposit amount
    let s1 :=
      if existing_snapshot.deposit = 0 ∧ new_deposit ≠ 0 then
        { s with depositor_count := s.depositor_count + 1 }
      else s
    let s2 := store_snapshot s1 depositor new_deposit
    let total ← uadd s2.total_deposits amount
    .ok { s2 with total_deposits := total }

/-- stability_pool.rs `withdraw` (lines 216–264): blocked in safe mode. -/
def withdraw (s : PoolState) (depositor amount : Nat) :
    Except CdpError PoolState :=
  if s.safe_mode_active then .error .SafeModeActive
  else do
    let compounded_deposit ← get_compounded_deposit s depositor
    if compounded_deposit < amount then .error .InsufficientCollateral
    else do
      let _gains ← get_depositor_gains s depositor
      let new_deposit := compounded_deposit - amount
      let existing_snapshot := (alGet s.deposits depositor).getD defaultSnapshot
      let s1 :=
        if existing_snapshot.deposit ≠ 0 ∧ new_deposit = 0 then
          { s with depositor_count := s.depositor_count - 1 }
        else s
      let s2 :=
        if new_deposit = 0 then
          { s1 with deposits := alSet s1.deposits depositor defaultSnapshot }
        else store_snapshot s1 depositor new_deposit
      let s3 :=
        if amount ≤ s2.total_deposits then
          { s2 with total_deposits := s2.total_deposits - amount }
        else { s2 with total_deposits := 0 }
      .ok s3

/-- stability_pool.rs `claim_gains` (lines 267–286): blocked in safe mode. -/
def claim_gains (s : PoolState) (depositor : Nat) : Except CdpError PoolState :=
  if s.safe_mode_active then .error .SafeModeActive
  else do
    let gains ← get_depositor_gains s depositor
    if gains.cspr_gain = 0 ∧ gains.scspr_gain = 0 then .ok s
    else do
      let compounded_deposit ← get_compounded_deposit s depositor
      .ok (if compounded_deposit ≠ 0
            then store_snapshot s depositor compounded_deposit else s)

/-- stability_pool.rs `update_product_sum`, product half (lines 550–566):
on full depletion advance the epoch and reset scale and `P`; otherwise
`P *= numerator / total`, rescaling by `1e9` when `P` drops below the
precision floor. -/
def update_product (state : ProductSumState) (numerator total_deposits : Nat) :
    Except CdpError ProductSumState :=
  if numerator = 0 then
    .ok { state with epoch := state.epoch + 1, scale := 0, p := SCALE }
  else do
    let np ← umul state.p numerator
    let new_p ← udiv np total_deposits
    if new_p < SCALE / SCALE_FACTOR then
      .ok { state with p := new_p * SCALE_FACTOR, scale := state.scale + 1 }
    else
      .ok { state with p := new_p }

/-- stability_pool.rs `update_product_sum` (lines 512–569): bump the
relevant sum by `collateral_gain * P / total` (recording it in the
epoch/scale table at the *pre-update* epoch and scale), then update `P`. -/
def update_product_sum (s : PoolState) (collateral_id : CollateralId)
    (debt_offset collateral_gain total_deposits : Nat) :
    Except CdpError PoolState := do
  let state := s.ps_state
  let numerator :=
    if debt_offset < total_deposits then total_deposits - debt_offset else 0
  let si ← umul collateral_gain state.p
  let sum_increment ← udiv si total_deposits
  match collateral_id with
  | .Cspr => do
    let ns ← uadd state.s_cspr sum_increment
    let state2 ← update_product { state with s_cspr := ns }
      numerator total_deposits
    .ok { s with
      epoch_scale_sum_cspr :=
        alSet s.epoch_scale_sum_cspr (state.epoch, state.scale) ns,
      ps_state := state2 }
  | .SCSPR => do
    let ns ← uadd state.s_scspr sum_increment
    let state2 ← update_product { state with s_scspr := ns }
      numerator total_deposits
    .ok { s with
      epoch_scale_sum_scspr :=
        alSet s.epoch_scale_sum_scspr (state.epoch, state.scale) ns,
      ps_state := state2 }

/-- stability_pool.rs `offset`, "update collateral holdings" block
(lines 324–334). -/
def add_collateral_holdings (s : PoolState) (collateral_id : CollateralId)
    (collateral_to_add : Nat) : Except CdpError PoolState :=
  match collateral_id with
  | .Cspr => do
    let nc ← uadd s.total_cspr_collateral collateral_to_add
    .ok { s with total_cspr_collateral := nc }
  | .SCSPR => do
    let nc ← uadd s.total_scspr_collateral collateral_to_add
    .ok { s with total_scspr_collateral := nc }

/-- stability_pool.rs `offset` (lines 292–341).  Returns the updated state
and the amount of debt actually offset. -/
def offset (s : PoolState) (collateral_id : CollateralId)
    (debt_to_offset collateral_to_add : Nat) :
    Except CdpError (PoolState × Nat) :=
  let total := s.total_deposits
  if total = 0 then .ok (s, 0)  -- no deposits to offset with
  else
    let actual_debt_offset :=
      if total < debt_to_offset then total else debt_to_offset
    if actual_debt_offset = 0 then .ok (s, 0)
    else do
      let s1 ← update_product_sum s collateral_id actual_debt_offset
        collateral_to_add total
      let s2 := { s1 with total_deposits := total - actual_debt_offset }
      let s3 ← add_collateral_holdings s2 collateral_id collateral_to_add
      let na ← uadd s3.total_debt_absorbed actual_debt_offset
      .ok ({ s3 with total_debt_absorbed := na }, actual_debt_offset)

end StabilityPool

/-! ## redemption_engine.rs (validation prefix) -/

/-- redemption_engine.rs: minimum redemption (1 gUSD). -/
def MIN_REDEMPTION : Nat := 1000000000000000000

/-- redemption_engine.rs `get_current_fee_bps` (lines 348–356):
`base_fee.min(max_fee)` — the fee model is intentionally static. -/
def get_current_fee_bps (base_fee_bps max_fee_bps : Nat) : Nat :=
  min base_fee_bps max_fee_bps

namespace RedemptionEngine

/-- The validation prefix of redemption_engine.rs `redeem`
(lines 213–238): safe-mode gate first, then the minimum-amount, fee
and price checks.  The vault walk that follows is reached only after
every one of these checks has passed, so the safe-mode behaviour of
`redeem` is fully determined by this prefix. -/
def redeem_checks (safe_mode_active : Bool)
    (base_fee_bps max_fee_bps_cfg : Nat)
    (csprusd_amount max_fee_bps price : Nat) : Except CdpError Unit :=
  if safe_mode_active then .error .SafeModeActive
  else if csprusd_amount < MIN_REDEMPTION then .error .BelowMinDebt
  else
    let current_fee_bps := get_current_fee_bps base_fee_bps max_fee_bps_cfg
    if max_fee_bps < current_fee_bps then .error .InvalidConfig
    else if price = 0 then .error .InvalidConfig
    else .ok ()

end RedemptionEngine

/-! ### Claim C4: the product-sum update in `offset` -/

/-- The per-collateral sum `S` selected by a `CollateralId`. -/
def psSumOf : CollateralId → ProductSumState → Nat
  | .Cspr, st => st.s_cspr
  | .SCSPR, st => st.s_scspr

/-- C4, counterexample.  The claim asserts that every `offset` call with
non-zero total deposits `T` bumps the per-collateral sum by
`collateral_to_add * P / T`.  With `debt_to_offset = 0` (and a non-zero
`collateral_to_add`), the code returns early without touching `S` at all,
while the claimed increment `5 * P / 1000` is non-zero. -/
theorem C4_counterexample :
    StabilityPool.offset
        ⟨1000, 0, 0, 0, 0, ⟨SCALE, 0, 0, 0, 0⟩, [], [], [], false⟩
        CollateralId.Cspr 0 5
      = .ok (⟨1000, 0, 0, 0, 0, ⟨SCALE, 0, 0, 0, 0⟩, [], [], [], false⟩, 0) ∧
    5 * SCALE / 1000 ≠ 0 := by
  exact ⟨by decide, by decide⟩

/-- Field-level characterization of `update_product`. -/
theorem update_product_ok {st : ProductSumState} {num T : Nat}
    {st2 : ProductSumState}
    (h : StabilityPool.update_product st num T = .ok st2) :
    st2.s_cspr = st.s_cspr ∧ st2.s_scspr = st.s_scspr ∧
    (num = 0 → st2.epoch = st.epoch + 1 ∧ st2.scale = 0 ∧ st2.p = SCALE) ∧
    (num ≠ 0 → st2.epoch = st.epoch ∧
      (if st.p * num / T < SCALE / SCALE_FACTOR
        then st2.p = st.p * num / T * SCALE_FACTOR ∧ st2.scale = st.scale + 1
        else st2.p = st.p * num / T ∧ st2.scale = st.scale)) := by
  unfold StabilityPool.update_product at h
  by_cases hz : num = 0
  · rw [if_pos hz] at h
    have := (Except.ok.inj h).symm
    subst this
    exact ⟨rfl, rfl, fun _ => ⟨rfl, rfl, rfl⟩, fun hnz => absurd hz hnz⟩
  · rw [if_neg hz] at h
    obtain ⟨np, hnp, h⟩ := except_bind_ok h
    obtain ⟨rfl, -⟩ := umul_ok hnp
    obtain ⟨np2, hnp2, h⟩ := except_bind_ok h
    obtain ⟨rfl, -⟩ := udiv_ok hnp2
    by_cases hscale : st.p * num / T < SCALE / SCALE_FACTOR
    · rw [if_pos hscale] at h
      have := (Except.ok.inj h).symm
      subst this
      exact ⟨rfl, rfl, fun hc => absurd hc hz,
        fun _ => ⟨rfl, by rw [if_pos hscale]; exact ⟨rfl, rfl⟩⟩⟩
    · rw [if_neg hscale] at h
      have := (Except.ok.inj h).symm
      subst this
      exact ⟨rfl, rfl, fun hc => absurd hc hz,
        fun _ => ⟨rfl, by rw [if_neg hscale]; exact ⟨rfl, rfl⟩⟩⟩

/-- Field-level characterization of `update_product_sum`. -/
theorem update_product_sum_ok {s : PoolState} {cid : CollateralId}
    {doff cg T : Nat} {s1 : PoolState}
    (h : StabilityPool.update_product_sum s cid doff cg T = .ok s1) :
    s1.total_deposits = s.total_deposits ∧
    s1.total_cspr_collateral = s.total_cspr_collateral ∧
    s1.total_scspr_collateral = s.total_scspr_collateral ∧
    s1.total_debt_absorbed = s.total_debt_absorbed ∧
    psSumOf cid s1.ps_state = psSumOf cid s.ps_state + cg * s.ps_state.p / T ∧
    ((if doff < T then T - doff else 0) = 0 →
      s1.ps_state.epoch = s.ps_state.epoch + 1 ∧
      s1.ps_state.scale = 0 ∧ s1.ps_state.p = SCALE) ∧
    ((if doff < T then T - doff else 0) ≠ 0 →
      s1.ps_state.epoch = s.ps_state.epoch ∧
      (let np := s.ps_state.p * (if doff < T then T - doff else 0) / T
       if np < SCALE / SCALE_FACTOR
         then s1.ps_state.p = np * SCALE_FACTOR ∧
              s1.ps_state.scale = s.ps_state.scale + 1
         else s1.ps_state.p = np ∧
              s1.ps_state.scale = s.ps_state.scale)) := by
  cases cid <;>
  · simp only [StabilityPool.update_product_sum] at h
    obtain ⟨si, hsi, h⟩ := except_bind_ok h
    obtain ⟨rfl, -⟩ := umul_ok hsi
    obtain ⟨inc, hinc, h⟩ := except_bind_ok h
    obtain ⟨rfl, hTnz⟩ := udiv_ok hinc
    obtain ⟨ns, hns, h⟩ := except_bind_ok h
    obtain ⟨rfl, -⟩ := uadd_ok hns
    obtain ⟨st2, hst2, h⟩ := except_bind_ok h
    have hr := (Except.ok.inj h).symm
    subst hr
    obtain ⟨g1, g2, g3, g4⟩ := update_product_ok hst2
    refine ⟨rfl, rfl, rfl, rfl, ?_, fun hz => g3 hz, fun hnz => g4 hnz⟩
    simp [psSumOf, g1, g2]

/-- C4 (amended): for every `offset(collateral_id, debt_to_offset,
collateral_to_add)` call that completes with non-zero total pool deposits
`T` *and a non-zero capped offset* (`debt_to_offset ≠ 0`): the offset
amount is capped at `T`; the per-collateral sum is increased by
`collateral_to_add * P / T`; then if `T - offset = 0` (full depletion) the
epoch is incremented, the scale reset to 0 and `P` reset to `1.0` scaled,
otherwise `P` becomes `P * (T - offset) / T`, multiplied by `1e9` with the
scale incremented if the new `P` falls below the `1e-9` precision floor;
and `total_deposits` decreases by exactly the capped offset amount.
(The original claim fails for `debt_to_offset = 0`: the call returns early
and the sum is not increased — see `C4_counterexample`.) -/
theorem C4_theorem (s : PoolState) (cid : CollateralId) (dto cta : Nat)
    (s' : PoolState) (ret : Nat)
    (hT : s.total_deposits ≠ 0) (hdto : dto ≠ 0)
    (hok : StabilityPool.offset s cid dto cta = .ok (s', ret)) :
    ret = min dto s.total_deposits ∧
    s'.total_deposits = s.total_deposits - ret ∧
    psSumOf cid s'.ps_state
      = psSumOf cid s.ps_state + cta * s.ps_state.p / s.total_deposits ∧
    (s.total_deposits - ret = 0 →
      s'.ps_state.epoch = s.ps_state.epoch + 1 ∧
      s'.ps_state.scale = 0 ∧ s'.ps_state.p = SCALE) ∧
    (s.total_deposits - ret ≠ 0 →
      s'.ps_state.epoch = s.ps_state.epoch ∧
      (let np := s.ps_state.p * (s.total_deposits - ret) / s.total_deposits
       if np < SCALE / SCALE_FACTOR
         then s'.ps_state.p = np * SCALE_FACTOR ∧
              s'.ps_state.scale = s.ps_state.scale + 1
         else s'.ps_state.p = np ∧
              s'.ps_state.scale = s.ps_state.scale)) := by
  unfold StabilityPool.offset at hok
  rw [if_neg hT] at hok
  have hcapeq : (if s.total_deposits < dto then s.total_deposits else dto)
      = min dto s.total_deposits := by
    rw [min_comm, min_def]
    split <;> split <;> omega
  rw [hcapeq] at hok
  have hcapnz : ¬ min dto s.total_deposits = 0 := by
    simp only [Nat.min_eq_zero_iff]
    omega
  rw [if_neg hcapnz] at hok
  obtain ⟨s1, hs1, hok⟩ := except_bind_ok hok
  obtain ⟨e1, e2, e3, e4, e5, e6, e7⟩ := update_product_sum_ok hs1
  obtain ⟨s3, hs3, hok⟩ := except_bind_ok hok
  obtain ⟨na, hna, hok⟩ := except_bind_ok hok
  obtain ⟨rfl, -⟩ := uadd_ok hna
  have hpair := Except.ok.inj hok
  have hs'1 : s' = { s3 with
      total_debt_absorbed := s3.total_debt_absorbed + min dto s.total_deposits } := by
    have := congrArg Prod.fst hpair
    simpa using this.symm
  have hret : ret = min dto s.total_deposits := by
    have := congrArg Prod.snd hpair
    simpa using this.symm
  have hs3fields : s3.total_deposits
        = s.total_deposits - min dto s.total_deposits ∧
      s3.ps_state = s1.ps_state := by
    unfold StabilityPool.add_collateral_holdings at hs3
    cases cid <;>
    · obtain ⟨nc, hnc, hs3⟩ := except_bind_ok hs3
      obtain ⟨rfl, -⟩ := uadd_ok hnc
      have := (Except.ok.inj hs3).symm
      subst this
      exact ⟨rfl, rfl⟩
  have hdmin : (if min dto s.total_deposits < s.total_deposits
      then s.total_deposits - min dto s.total_deposits else 0)
      = s.total_deposits - min dto s.total_deposits := by
    split <;> omega
  rw [hdmin] at e6 e7
  subst hret
  refine ⟨rfl, ?_, ?_, ?_, ?_⟩
  · rw [hs'1]
    exact hs3fields.1
  · rw [hs'1]
    show psSumOf cid s3.ps_state = _
    rw [hs3fields.2]
    exact e5
  · intro hz
    rw [hs'1]
    show s3.ps_state.epoch = _ ∧ s3.ps_state.scale = 0 ∧ s3.ps_state.p = SCALE
    rw [hs3fields.2]
    exact e6 hz
  · intro hnz
    rw [hs'1]
    show s3.ps_state.epoch = _ ∧ _
    rw [hs3fields.2]
    exact e7 hnz

/-- C4, witness: the spec's own scenario — a pool of 1000 total deposits
absorbing `offset(debt_to_offset := 100, collateral_to_add := 11)`:
the new `P` is `0.9` of the old, the CSPR sum gains `11 * P / 1000`,
and total deposits drop to 900. -/
theorem C4_witness :
    ∃ (s' : PoolState) (ret : Nat),
      StabilityPool.offset
          ⟨1000, 0, 0, 0, 0, ⟨SCALE, 0, 0, 0, 0⟩, [], [], [], false⟩
          CollateralId.Cspr 100 11 = .ok (s', ret) ∧
      ret = min 100 1000 ∧
      s'.total_deposits = 1000 - ret ∧
      psSumOf CollateralId.Cspr s'.ps_state = 0 + 11 * SCALE / 1000 := by
  have hok : StabilityPool.offset
      ⟨1000, 0, 0, 0, 0, ⟨SCALE, 0, 0, 0, 0⟩, [], [], [], false⟩
      CollateralId.Cspr 100 11 =
      .ok (⟨900, 11, 0, 100, 0,
            ⟨SCALE * 900 / 1000, 11 * SCALE / 1000, 0, 0, 0⟩,
            [((0, 0), 11 * SCALE / 1000)], [], [], false⟩, 100) := by
    decide
  have h := C4_theorem _ CollateralId.Cspr 100 11 _ _
    (by decide) (by decide) hok
  exact ⟨_, _, hok, h.1, h.2.1, h.2.2.1⟩

/-! ### Claim C8: safe-mode gates -/

/-- C8: while a component's safe-mode latch is active,
`StabilityPool.withdraw` and `StabilityPool.claim_gains` revert with
`SafeModeActive`, `LiquidationEngine.liquidate` and `batch_liquidate`
revert with `SafeModeActive`, and `RedemptionEngine.redeem` reverts with
`SafeModeActive` (its safe-mode gate is the first statement of the call);
`StabilityPool.deposit` performs no safe-mode check: its outcome is
completely independent of the latch, so deposits are never blocked by
safe mode. -/
theorem C8_theorem :
    (∀ (s : PoolState) (dep amt : Nat), s.safe_mode_active = true →
      StabilityPool.withdraw s dep amt = .error .SafeModeActive) ∧
    (∀ (s : PoolState) (dep : Nat), s.safe_mode_active = true →
      StabilityPool.claim_gains s dep = .error .SafeModeActive) ∧
    (∀ (e : EngineState) (owner : Nat) (cid : CollateralId) (c d p : Nat),
      e.safe_mode_active = true →
      LiquidationEngine.liquidate e owner cid c d p
        = .error .SafeModeActive) ∧
    (∀ (e : EngineState) (cid : CollateralId) (vs : List (Nat × Nat × Nat))
      (mv p : Nat), e.safe_mode_active = true →
      LiquidationEngine.batch_liquidate e cid vs mv p
        = .error .SafeModeActive) ∧
    (∀ (bf mf amt cap price : Nat),
      RedemptionEngine.redeem_checks true bf mf amt cap price
        = .error .SafeModeActive) ∧
    (∀ (s : PoolState) (dep amt : Nat) (b : Bool),
      StabilityPool.deposit { s with safe_mode_active := b } dep amt
        = (StabilityPool.deposit s dep amt).map
            (fun t => { t with safe_mode_active := b })) := by
  refine ⟨?_, ?_, ?_, ?_, ?_, ?_⟩
  · intro s dep amt h
    simp [StabilityPool.withdraw, h]
  · intro s dep h
    simp [StabilityPool.claim_gains, h]
  · intro e owner cid c d p h
    simp [LiquidationEngine.liquidate, h]
  · intro e cid vs mv p h
    simp [LiquidationEngine.batch_liquidate, h]
  · intro bf mf amt cap price
    simp [RedemptionEngine.redeem_checks]
  · intro s dep amt b
    unfold StabilityPool.deposit
    by_cases hmin : amt < MIN_DEPOSIT
    · rw [if_pos hmin, if_pos hmin]
      rfl
    · rw [if_neg hmin, if_neg hmin]
      cases hcd : StabilityPool.get_compounded_deposit s dep with
      | error e =>
        rw [show StabilityPool.get_compounded_deposit
              { s with safe_mode_active := b } dep = .error e from hcd]
        rfl
      | ok ed =>
        rw [show StabilityPool.get_compounded_deposit
              { s with safe_mode_active := b } dep = .ok ed from hcd]
        cases hg : StabilityPool.get_depositor_gains s dep with
        | error e =>
          rw [show StabilityPool.get_depositor_gains
                { s with safe_mode_active := b } dep = .error e from hg]
          rfl
        | ok gains =>
          rw [show StabilityPool.get_depositor_gains
                { s with safe_mode_active := b } dep = .ok gains from hg]
          simp only [Bind.bind, Except.bind]
          cases hadd : uadd ed amt with
          | error e => rfl
          | ok nd =>
            simp only [Bind.bind, Except.bind, StabilityPool.store_snapshot,
              Except.map]
            by_cases hcount :
                ((alGet s.deposits dep).getD defaultSnapshot).deposit = 0
                ∧ nd ≠ 0
            · repeat rw [if_pos hcount]
              dsimp only
              cases hadd2 : uadd s.total_deposits amt with
              | error e => rfl
              | ok tot => rfl
            · repeat rw [if_neg hcount]
              dsimp only
              cases hadd2 : uadd s.total_deposits amt with
              | error e => rfl
              | ok tot => rfl

/-- C8, witness: on a latched pool, `withdraw` and `claim_gains` revert
with `SafeModeActive`, `liquidate`, `batch_liquidate` and the redemption
checks revert with `SafeModeActive`, while `deposit` of the minimum amount
still succeeds. -/
theorem C8_witness :
    StabilityPool.withdraw
        { StabilityPool.initPool with safe_mode_active := true } 1 5
      = .error .SafeModeActive ∧
    StabilityPool.claim_gains
        { StabilityPool.initPool with safe_mode_active := true } 1
      = .error .SafeModeActive ∧
    LiquidationEngine.liquidate ⟨1000, 200 * SCALE, true⟩ 1
        CollateralId.Cspr (1050 * SCALE) (1000 * SCALE) SCALE
      = .error .SafeModeActive ∧
    LiquidationEngine.batch_liquidate ⟨1000, 200 * SCALE, true⟩
        CollateralId.Cspr [] 10 SCALE = .error .SafeModeActive ∧
    RedemptionEngine.redeem_checks true 50 500 (2 * SCALE) 500 SCALE
      = .error .SafeModeActive ∧
    StabilityPool.deposit
        { StabilityPool.initPool with safe_mode_active := true } 1 MIN_DEPOSIT
      = .ok { total_deposits := MIN_DEPOSIT, total_cspr_collateral := 0,
              total_scspr_collateral := 0, total_debt_absorbed := 0,
              depositor_count := 1, ps_state := ⟨SCALE, 0, 0, 0, 0⟩,
              epoch_scale_sum_cspr := [], epoch_scale_sum_scspr := [],
              deposits := [(1, ⟨MIN_DEPOSIT, SCALE, 0, 0, 0, 0⟩)],
              safe_mode_active := true } := by
  refine ⟨C8_theorem.1 _ 1 5 rfl, C8_theorem.2.1 _ 1 rfl,
    C8_theorem.2.2.1 _ 1 CollateralId.Cspr _ _ _ rfl,
    C8_theorem.2.2.2.1 _ CollateralId.Cspr [] 10 SCALE rfl,
    C8_theorem.2.2.2.2.1 50 500 (2 * SCALE) 500 SCALE, ?_⟩
  rw [C8_theorem.2.2.2.2.2 StabilityPool.initPool 1 MIN_DEPOSIT true]
  decide

/-! ### Claim C9: deposit / withdraw round trip -/

@[simp]
theorem alGet_alSet_self {κ α : Type} [DecidableEq κ]
    (m : List (κ × α)) (k : κ) (v : α) :
    alGet (alSet m k v) k = some v := by
  induction m with
  | nil => simp [alGet, alSet]
  | cons kv rest ih =>
    obtain ⟨k', v'⟩ := kv
    by_cases h : k' = k
    · simp [alSet, h, alGet]
    · simp [alSet, h, alGet, ih]

/-- C9, counterexample.  The claim quantifies over *any* depositor; for a
depositor with a pre-existing deposit of `2e12`, depositing `3e12` and
immediately withdrawing it leaves the compounded deposit at the prior
`2e12`, not `0`. -/
theorem C9_counterexample :
    ((StabilityPool.deposit
        ⟨2000000000000, 0, 0, 0, 1, ⟨SCALE, 0, 0, 0, 0⟩, [], [],
         [(1, ⟨2000000000000, SCALE, 0, 0, 0, 0⟩)], false⟩
        1 3000000000000).bind
      (fun s1 => (StabilityPool.withdraw s1 1 3000000000000).bind
        (fun s2 => StabilityPool.get_compounded_deposit s2 1)))
      = .ok 2000000000000 ∧ (2000000000000 : Nat) ≠ 0 := by
  exact ⟨by decide, by decide⟩

/-- C9 (amended): for a depositor whose *compounded deposit is zero
beforehand* (a fresh depositor), any accepted `deposit d` immediately
followed by a successful `withdraw d` with no intervening offset returns
`total_deposits` to its pre-deposit value and leaves the depositor's
snapshot with a compounded deposit of `0`.  (The original claim's "for
any depositor" fails when a prior deposit exists — see
`C9_counterexample`.) -/
theorem C9_theorem (s : PoolState) (depositor d : Nat) (s1 s2 : PoolState)
    (h0 : StabilityPool.get_compounded_deposit s depositor = .ok 0)
    (h1 : StabilityPool.deposit s depositor d = .ok s1)
    (h2 : StabilityPool.withdraw s1 depositor d = .ok s2) :
    s2.total_deposits = s.total_deposits ∧
    StabilityPool.get_compounded_deposit s2 depositor = .ok 0 := by
  unfold StabilityPool.deposit at h1
  by_cases hmin : d < MIN_DEPOSIT
  · rw [if_pos hmin] at h1; cases h1
  rw [if_neg hmin] at h1
  have hd0 : d ≠ 0 := by
    intro hd
    rw [hd] at hmin
    exact hmin (by decide)
  obtain ⟨ed, hed, h1⟩ := except_bind_ok h1
  rw [h0] at hed
  obtain rfl := Except.ok.inj hed
  obtain ⟨gains, hg, h1⟩ := except_bind_ok h1
  obtain ⟨nd, hnd, h1⟩ := except_bind_ok h1
  obtain ⟨hndv, hndlim⟩ := uadd_ok hnd
  rw [Nat.zero_add] at hndv
  rw [hndv] at h1
  obtain ⟨tot, htot, h1⟩ := except_bind_ok h1
  obtain ⟨htotv, htotlim⟩ := uadd_ok htot
  have hs1 := (Except.ok.inj h1).symm
  -- Field equations for the post-deposit state.
  have f1 : s1.total_deposits = tot := by rw [hs1]
  have f2 : s1.deposits = alSet s.deposits depositor
      ⟨d, s.ps_state.p, s.ps_state.s_cspr, s.ps_state.s_scspr,
       s.ps_state.epoch, s.ps_state.scale⟩ := by
    rw [hs1]
    show (StabilityPool.store_snapshot _ depositor d).deposits = _
    unfold StabilityPool.store_snapshot
    split <;> rfl
  have f3 : s1.ps_state = s.ps_state := by
    rw [hs1]
    show (StabilityPool.store_snapshot _ depositor d).ps_state = _
    unfold StabilityPool.store_snapshot
    split <;> rfl
  have htot2 : tot = s.total_deposits + d := by
    rw [htotv]
    congr 1
    show (StabilityPool.store_snapshot _ depositor d).total_deposits = _
    unfold StabilityPool.store_snapshot
    split <;> rfl
  -- Unpack the withdrawal.
  unfold StabilityPool.withdraw at h2
  split at h2
  · cases h2
  obtain ⟨cd, hcd, h2⟩ := except_bind_ok h2
  simp only [StabilityPool.get_compounded_deposit, f2, f3, alGet_alSet_self,
    Option.getD_some, hd0, if_false, Nat.lt_irrefl, Nat.sub_self] at hcd
  have hcdv : cd = d := by
    by_cases hp : s.ps_state.p = 0
    · rw [if_pos hp] at hcd
      exact (Except.ok.inj hcd).symm
    · rw [if_neg hp] at hcd
      obtain ⟨v, hv, hcd⟩ := except_bind_ok hcd
      obtain ⟨rfl, -⟩ := umul_ok hv
      have hq := (Except.ok.inj hcd).symm
      rw [hq, Nat.mul_div_cancel _ (Nat.pos_of_ne_zero hp)]
  rw [hcdv] at h2
  split at h2
  · cases h2
  obtain ⟨gains2, hg2, h2⟩ := except_bind_ok h2
  simp only [f1, f2, f3, htot2, alGet_alSet_self, Option.getD_some,
    Nat.sub_self] at h2
  rw [if_pos (show d ≠ 0 ∧ True from ⟨hd0, trivial⟩)] at h2
  rw [if_pos (trivial : True)] at h2
  dsimp only at h2
  rw [if_pos (Nat.le_add_left d s.total_deposits)] at h2
  have hs2 := (Except.ok.inj h2).symm
  constructor
  · rw [hs2]
    simp [Nat.add_sub_cancel]
  · rw [hs2]
    simp [StabilityPool.get_compounded_deposit, defaultSnapshot]

/-- C9, witness: a fresh depositor on a fresh pool depositing and
withdrawing the minimum amount. -/
theorem C9_witness :
    (⟨0, 0, 0, 0, 0, ⟨SCALE, 0, 0, 0, 0⟩, [], [],
      [(1, ⟨0, 0, 0, 0, 0, 0⟩)], false⟩ : PoolState).total_deposits
      = StabilityPool.initPool.total_deposits ∧
    StabilityPool.get_compounded_deposit
      (⟨0, 0, 0, 0, 0, ⟨SCALE, 0, 0, 0, 0⟩, [], [],
        [(1, ⟨0, 0, 0, 0, 0, 0⟩)], false⟩ : PoolState) 1 = .ok 0 :=
  C9_theorem StabilityPool.initPool 1 MIN_DEPOSIT
    ⟨MIN_DEPOSIT, 0, 0, 0, 1, ⟨SCALE, 0, 0, 0, 0⟩, [], [],
     [(1, ⟨MIN_DEPOSIT, SCALE, 0, 0, 0, 0⟩)], false⟩
    ⟨0, 0, 0, 0, 0, ⟨SCALE, 0, 0, 0, 0⟩, [], [],
     [(1, ⟨0, 0, 0, 0, 0, 0⟩)], false⟩
    (by decide) (by decide) (by decide)

/-! ## branch_cspr.rs -/

/-- types.rs `VaultKey` (`Address` modelled as `Nat`). -/
structure VaultKey where
  owner : Nat
  id : Nat
deriving DecidableEq, Repr

/-- types.rs `VaultData`.  The `collateral_id` field is the constant
`CollateralId::Cspr` everywhere in this branch and is omitted. -/
structure VaultData where
  owner : Nat
  collateral : Nat
  debt : Nat
  interest_rate_bps : Nat
  last_accrual_timestamp : Nat
deriving DecidableEq, Repr

/-- branch_cspr.rs `SortedVaultEntry`. -/
structure SortedVaultEntry where
  vault_key : VaultKey
  interest_rate_bps : Nat
  prev : Option VaultKey
  next : Option VaultKey
deriving DecidableEq, Repr

/-- types.rs `UserVaultIndex`. -/
structure UserVaultIndex where
  owner : Nat
  index : Nat
deriving DecidableEq, Repr

/-- `u64::MAX`, the sentinel used by `remove_vault_from_owner_list`. -/
def U64_MAX : Nat := 18446744073709551615

/-- The `BranchCspr` module's storage (the `registry`/`router` address
`Var`s only direct caller authorization and are omitted). -/
structure BranchState where
  vaults : List (VaultKey × VaultData)
  sorted_vaults : List (VaultKey × SortedVaultEntry)
  sorted_head : Option VaultKey
  sorted_tail : Option VaultKey
  total_collateral : Nat
  total_debt : Nat
  vault_count : Nat
  last_good_price : Nat
  next_vault_id : List (Nat × Nat)
  user_vault_count : List (Nat × Nat)
  user_vault_ids : List (UserVaultIndex × Nat)
  vault_indices : List (VaultKey × Nat)
deriving DecidableEq, Repr

/-- `Option α → Except CdpError α`: a Rust panic inside a helper
(`accrue_interest`'s trapping addition) aborts and rolls back the call. -/
def liftOpt {α : Type} : Option α → Except CdpError α
  | some a => .ok a
  | none => .error .ArithmeticTrap

namespace BranchCspr

/-- branch_cspr.rs `init` (lines 70–79). -/
def initBranch : BranchState :=
  ⟨[], [], none, none, 0, 0, 0, PRICE_SCALE, [], [], [], []⟩

/-- branch_cspr.rs `get_collateral_value` (lines 662–666):
`collateral * price / COLLATERAL_DECIMALS`. -/
def get_collateral_value (s : BranchState) (collateral : Nat) :
    Except CdpError Nat := do
  let v ← umul collateral s.last_good_price
  .ok (v / COLLATERAL_DECIMALS)

/-- branch_cspr.rs `calculate_icr` (lines 668–679):
`collateral_value * 10000 / debt`, saturating to `u32::MAX`. -/
def calculate_icr (collateral_value debt : Nat) : Except CdpError Nat :=
  if debt = 0 then .ok U32_MAX
  else do
    let x ← umul collateral_value 10000
    let scaled := x / debt
    .ok (if U32_MAX < scaled then U32_MAX else scaled)

/-- branch_cspr.rs `check_mcr` (lines 681–686). -/
def check_mcr (collateral_value debt : Nat) : Except CdpError Unit := do
  let icr ← calculate_icr collateral_value debt
  if icr < MCR_BPS then .error .BelowMcr else .ok ()

/-- branch_cspr.rs `insert_into_sorted_list`, scan loop (lines 738–773).
The Rust `while let` walks `next` links; its termination relies on the
list being acyclic, which the fuel argument (always instantiated with
strictly more than the chain length) makes explicit.  `none` means the
scan ran off the end (or hit a broken link, where Rust `break`s), so the
caller falls through to the tail insertion. -/
def insert_scan (sv : List (VaultKey × SortedVaultEntry)) (vault_key : VaultKey)
    (interest_rate_bps : Nat) (old_head : Option VaultKey) :
    Option VaultKey → Nat →
    Option (List (VaultKey × SortedVaultEntry) × Option VaultKey)
  | _, 0 => none
  | none, _ + 1 => none
  | some curr_key, fuel + 1 =>
    match alGet sv curr_key with
    | none => none
    | some curr_entry =>
      if interest_rate_bps ≤ curr_entry.interest_rate_bps then
        -- Insert before current.
        let sv1 := alSet sv vault_key
          ⟨vault_key, interest_rate_bps, curr_entry.prev, some curr_key⟩
        let sv2 := alSet sv1 curr_key ({ curr_entry with prev := some vault_key })
        match curr_entry.prev with
        | some prev_key =>
          (match alGet sv2 prev_key with
           | some prev_entry =>
             some (alSet sv2 prev_key ({ prev_entry with next := some vault_key }),
                   old_head)
           | none => some (sv2, old_head))
        | none =>
          -- We are the new head.
          some (sv2, some vault_key)
      else
        insert_scan sv vault_key interest_rate_bps old_head curr_entry.next fuel

/-- branch_cspr.rs `insert_into_sorted_list` (lines 720–790). -/
def insert_into_sorted_list (s : BranchState) (vault_key : VaultKey)
    (interest_rate_bps : Nat) : BranchState :=
  match s.sorted_head with
  | none =>
    -- List is empty.
    let entry : SortedVaultEntry := ⟨vault_key, interest_rate_bps, none, none⟩
    { s with sorted_vaults := alSet s.sorted_vaults vault_key entry,
             sorted_head := some vault_key, sorted_tail := some vault_key }
  | some head_key =>
    match insert_scan s.sorted_vaults vault_key interest_rate_bps
        (some head_key) (some head_key) (s.sorted_vaults.length + 1) with
    | some (sv, new_head) =>
      { s with sorted_vaults := sv, sorted_head := new_head }
    | none =>
      -- Insert at tail.
      match s.sorted_tail with
      | some tail_key =>
        (match alGet s.sorted_vaults tail_key with
         | some tail_entry =>
           let sv1 := alSet s.sorted_vaults vault_key
             ⟨vault_key, interest_rate_bps, some tail_key, none⟩
           let sv2 := alSet sv1 tail_key ({ tail_entry with next := some vault_key })
           { s with sorted_vaults := sv2, sorted_tail := some vault_key }
         | none => s)
      | none => s

/-- branch_cspr.rs `remove_from_sorted_list` (lines 792–828). -/
def remove_from_sorted_list (s : BranchState) (vault_key : VaultKey) :
    BranchState :=
  match alGet s.sorted_vaults vault_key with
  | none => s
  | some entry =>
    let s1 :=
      match entry.prev with
      | some prev_key =>
        (match alGet s.sorted_vaults prev_key with
         | some prev_entry =>
           let pv := alSet s.sorted_vaults prev_key
             ({ prev_entry with next := entry.next })
           { s with sorted_vaults := pv }
         | none => s)
      | none =>
        -- We were the head.
        { s with sorted_head := entry.next }
    let s2 :=
      match entry.next with
      | some next_key =>
        (match alGet s1.sorted_vaults next_key with
         | some next_entry =>
           let nv := alSet s1.sorted_vaults next_key
             ({ next_entry with prev := entry.prev })
           { s1 with sorted_vaults := nv }
         | none => s1)
      | none =>
        -- We were the tail.
        { s1 with sorted_tail := entry.prev }
    let cleared := alSet s2.sorted_vaults vault_key ⟨vault_key, 0, none, none⟩
    { s2 with sorted_vaults := cleared }

/-- branch_cspr.rs `remove_vault_from_owner_list` (lines 688–718):
swap-remove against the last slot of the owner's vault-id list. -/
def remove_vault_from_owner_list (s : BranchState) (vault_key : VaultKey) :
    BranchState :=
  let owner := vault_key.owner
  let count := (alGet s.user_vault_count owner).getD 0
  if count = 0 then s
  else
    let index := (alGet s.vault_indices vault_key).getD U64_MAX
    if index = U64_MAX ∨ count ≤ index then s
    else
      let last_index := count - 1
      let s1 :=
        if index ≠ last_index then
          match alGet s.user_vault_ids ⟨owner, last_index⟩ with
          | some last_id =>
            let ids := alSet s.user_vault_ids ⟨owner, index⟩ last_id
            let idx := alSet s.vault_indices ⟨owner, last_id⟩ index
            { s with user_vault_ids := ids, vault_indices := idx }
          | none => s
        else s
      let ids2 := alSet s1.user_vault_ids ⟨owner, last_index⟩ 0
      let idx2 := alSet s1.vault_indices vault_key U64_MAX
      let cnt2 := alSet s1.user_vault_count owner last_index
      { s1 with user_vault_ids := ids2, vault_indices := idx2,
                user_vault_count := cnt2 }

/-- branch_cspr.rs `adjust_vault` lines 195–199: fold accrued interest
into the branch total debt. -/
def add_accrued_interest (total_debt interest_accrued : Nat) :
    Except CdpError Nat :=
  if 0 < interest_accrued then uadd total_debt interest_accrued
  else .ok total_debt

/-- branch_cspr.rs `adjust_vault` lines 201–209: new collateral under the
`is_withdraw` flag. -/
def apply_collateral_delta (collateral collateral_delta : Nat)
    (collateral_is_withdraw : Bool) : Except CdpError Nat :=
  if collateral_is_withdraw then
    if collateral < collateral_delta then .error .InsufficientCollateral
    else .ok (collateral - collateral_delta)
  else uadd collateral collateral_delta

/-- branch_cspr.rs `adjust_vault` lines 211–219: new debt under the
`is_repay` flag. -/
def apply_debt_delta (debt debt_delta : Nat) (debt_is_repay : Bool) :
    Except CdpError Nat :=
  if debt_is_repay then
    if debt < debt_delta then .error .RepayExceedsDebt
    else .ok (debt - debt_delta)
  else uadd debt debt_delta

/-- branch_cspr.rs `adjust_vault` lines 228–234: a non-zero remaining debt
must meet the minimum. -/
def check_min_debt (new_debt : Nat) : Except CdpError Unit :=
  if new_debt ≠ 0 ∧ new_debt < MIN_DEBT_WHOLE * PRICE_SCALE then
    .error .BelowMinDebt
  else .ok ()

/-- branch_cspr.rs `adjust_vault` lines 240–254: branch totals under the
respective flag (an unchecked `U256` subtraction or addition). -/
def apply_totals_delta (current delta : Nat) (is_sub : Bool) :
    Except CdpError Nat :=
  if is_sub then usub current delta else uadd current delta

/-- branch_cspr.rs `close_vault_internal` (lines 333–362). -/
def close_vault_internal (s : BranchState) (vault_key : VaultKey)
    (vault : VaultData) : Except CdpError BranchState := do
  let tc ← usub s.total_collateral vault.collateral
  let td ← usub s.total_debt vault.debt
  -- `vault_count.saturating_sub(1)` coincides with `Nat` subtraction.
  let s1 := { s with total_collateral := tc, total_debt := td,
                     vault_count := s.vault_count - 1 }
  let s2 := remove_from_sorted_list s1 vault_key
  let empty_vault : VaultData := ⟨vault_key.owner, 0, 0, 0, 0⟩
  let s3 := { s2 with vaults := alSet s2.vaults vault_key empty_vault }
  .ok (remove_vault_from_owner_list s3 vault_key)

/-- branch_cspr.rs `open_vault` (lines 84–149).  Returns the new state and
the allocated vault id.  `next_id.saturating_add(1)` is modelled as
`next_id + 1` (see the header note). -/
def open_vault (s : BranchState)
    (owner collateral_amount debt_amount interest_rate_bps now : Nat) :
    Except CdpError (BranchState × Nat) :=
  if MAX_INTEREST_RATE_BPS < interest_rate_bps then
    .error .InterestRateOutOfBounds
  else if debt_amount < MIN_DEBT_WHOLE * PRICE_SCALE then
    .error .BelowMinDebt
  else do
    let collateral_value ← get_collateral_value s collateral_amount
    let _ ← check_mcr collateral_value debt_amount
    let next_id := (alGet s.next_vault_id owner).getD 1
    let vault_key : VaultKey := ⟨owner, next_id⟩
    let s0 := { s with
      next_vault_id := alSet s.next_vault_id owner (next_id + 1) }
    let vault : VaultData :=
      ⟨owner, collateral_amount, debt_amount, interest_rate_bps, now⟩
    let s1 := { s0 with vaults := alSet s0.vaults vault_key vault }
    let s2 := insert_into_sorted_list s1 vault_key interest_rate_bps
    let tc ← uadd s2.total_collateral collateral_amount
    let td ← uadd s2.total_debt debt_amount
    let s3 := { s2 with total_collateral := tc, total_debt := td,
                        vault_count := s2.vault_count + 1 }
    let user_count := (alGet s3.user_vault_count owner).getD 0
    let s4 := { s3 with
      user_vault_ids := alSet s3.user_vault_ids ⟨owner, user_count⟩ next_id,
      vault_indices := alSet s3.vault_indices vault_key user_count,
      user_vault_count := alSet s3.user_vault_count owner (user_count + 1) }
    .ok (s4, next_id)

/-- branch_cspr.rs `adjust_vault` (lines 152–267). -/
def adjust_vault (s : BranchState) (owner vault_id collateral_delta : Nat)
    (collateral_is_withdraw : Bool) (debt_delta : Nat) (debt_is_repay : Bool)
    (now : Nat) : Except CdpError BranchState :=
  let vault_key : VaultKey := ⟨owner, vault_id⟩
  match alGet s.vaults vault_key with
  | none => .error .VaultNotFound
  | some vault0 =>
    if vault0.collateral = 0 ∧ vault0.debt = 0 then .error .VaultNotFound
    else do
      let accrual ← liftOpt (accrue_interest vault0.debt
        vault0.interest_rate_bps vault0.last_accrual_timestamp now)
      let vault := { vault0 with debt := accrual.new_debt,
                                 last_accrual_timestamp := now }
      let td0 ← add_accrued_interest s.total_debt accrual.interest_accrued
      let new_collateral ← apply_collateral_delta vault.collateral
        collateral_delta collateral_is_withdraw
      let new_debt ← apply_debt_delta vault.debt debt_delta debt_is_repay
      let s0 := { s with total_debt := td0 }
      if new_collateral = 0 ∧ new_debt = 0 then
        -- Effectively closing the vault.
        close_vault_internal s0 vault_key vault
      else do
        let _ ← check_min_debt new_debt
        let collateral_value ← get_collateral_value s0 new_collateral
        let _ ← check_mcr collateral_value new_debt
        let collateral_diff ← apply_totals_delta s0.total_collateral
          collateral_delta collateral_is_withdraw
        let debt_diff ← apply_totals_delta s0.total_debt
          debt_delta debt_is_repay
        let vault2 := { vault with collateral := new_collateral,
                                   debt := new_debt,
                                   last_accrual_timestamp := now }
        .ok { s0 with total_collateral := collateral_diff,
                      total_debt := debt_diff,
                      vaults := alSet s0.vaults vault_key vault2 }

/-- branch_cspr.rs `adjust_interest_rate` (lines 270–311). -/
def adjust_interest_rate (s : BranchState)
    (owner vault_id interest_rate_bps now : Nat) :
    Except CdpError BranchState :=
  if MAX_INTEREST_RATE_BPS < interest_rate_bps then
    .error .InterestRateOutOfBounds
  else
    let vault_key : VaultKey := ⟨owner, vault_id⟩
    match alGet s.vaults vault_key with
    | none => .error .VaultNotFound
    | some vault0 =>
      if vault0.collateral = 0 ∧ vault0.debt = 0 then .error .VaultNotFound
      else do
        let accrual ← liftOpt (accrue_interest vault0.debt
          vault0.interest_rate_bps vault0.last_accrual_timestamp now)
        let vault := { vault0 with debt := accrual.new_debt,
                                   last_accrual_timestamp := now }
        let td ← add_accrued_interest s.total_debt accrual.interest_accrued
        let s0 := { s with total_debt := td }
        if vault.interest_rate_bps ≠ interest_rate_bps then
          let sa := remove_from_sorted_list s0 vault_key
          let vault1 := { vault with interest_rate_bps := interest_rate_bps }
          let sb := insert_into_sorted_list sa vault_key interest_rate_bps
          .ok { sb with vaults := alSet sb.vaults vault_key vault1 }
        else
          .ok { s0 with vaults := alSet s0.vaults vault_key vault }

/-- branch_cspr.rs `close_vault` (lines 314–330). -/
def close_vault (s : BranchState) (owner vault_id : Nat) :
    Except CdpError BranchState :=
  let vault_key : VaultKey := ⟨owner, vault_id⟩
  match alGet s.vaults vault_key with
  | none => .error .VaultNotFound
  | some vault =>
    if vault.collateral = 0 ∧ vault.debt = 0 then .error .VaultNotFound
    else close_vault_internal s vault_key vault

/-- branch_cspr.rs `seize_collateral` (lines 558–580). -/
def seize_collateral (s : BranchState) (owner vault_id amount : Nat) :
    Except CdpError BranchState :=
  let vault_key : VaultKey := ⟨owner, vault_id⟩
  match alGet s.vaults vault_key with
  | none => .error .VaultNotFound
  | some vault =>
    if vault.collateral = 0 ∧ vault.debt = 0 then .error .VaultNotFound
    else if vault.collateral < amount then .error .InsufficientCollateral
    else do
      let tc ← usub s.total_collateral amount
      let nv := alSet s.vaults vault_key
        ({ vault with collateral := vault.collateral - amount })
      .ok { s with total_collateral := tc, vaults := nv }

/-- branch_cspr.rs `reduce_debt` (lines 584–606). -/
def reduce_debt (s : BranchState) (owner vault_id amount : Nat) :
    Except CdpError BranchState :=
  let vault_key : VaultKey := ⟨owner, vault_id⟩
  match alGet s.vaults vault_key with
  | none => .error .VaultNotFound
  | some vault =>
    if vault.collateral = 0 ∧ vault.debt = 0 then .error .VaultNotFound
    else if vault.debt < amount then .error .RepayExceedsDebt
    else do
      let td ← usub s.total_debt amount
      let nv := alSet s.vaults vault_key
        ({ vault with debt := vault.debt - amount })
      .ok { s with total_debt := td, vaults := nv }

/-- branch_cspr.rs `reduce_collateral_for_redemption` (lines 509–554). -/
def reduce_collateral_for_redemption (s : BranchState)
    (owner vault_id collateral_amount debt_amount : Nat) :
    Except CdpError BranchState :=
  let vault_key : VaultKey := ⟨owner, vault_id⟩
  match alGet s.vaults vault_key with
  | none => .error .VaultNotFound
  | some vault0 =>
    if vault0.collateral = 0 ∧ vault0.debt = 0 then .error .VaultNotFound
    else if vault0.collateral < collateral_amount then
      .error .InsufficientCollateral
    else if vault0.debt < debt_amount then .error .RepayExceedsDebt
    else do
      let vault := { vault0 with
        collateral := vault0.collateral - collateral_amount,
        debt := vault0.debt - debt_amount }
      let tc ← usub s.total_collateral collateral_amount
      let td ← usub s.total_debt debt_amount
      let s1 := { s with total_collateral := tc, total_debt := td }
      let s2 :=
        if vault.collateral = 0 ∧ vault.debt = 0 then
          -- Vault should be closed.
          let sa := remove_from_sorted_list s1 vault_key
          let sb := { sa with vault_count := sa.vault_count - 1 }
          remove_vault_from_owner_list sb vault_key
        else s1
      .ok { s2 with vaults := alSet s2.vaults vault_key vault }

/-- branch_cspr.rs `close_vault_for_liquidation` (lines 610–645): its body
repeats `close_vault_internal`'s steps verbatim after the same
active-vault check. -/
def close_vault_for_liquidation (s : BranchState) (owner vault_id : Nat) :
    Except CdpError BranchState :=
  let vault_key : VaultKey := ⟨owner, vault_id⟩
  match alGet s.vaults vault_key with
  | none => .error .VaultNotFound
  | some vault =>
    if vault.collateral = 0 ∧ vault.debt = 0 then .error .VaultNotFound
    else close_vault_internal s vault_key vault

end BranchCspr

/-- The branch entry points of claim C1, with the block timestamp passed
explicitly (`env().get_block_time()`). -/
inductive Op where
  | openVaultOp (owner collateral_amount debt_amount interest_rate_bps
      now : Nat)
  | adjustVaultOp (owner vault_id collateral_delta : Nat)
      (collateral_is_withdraw : Bool) (debt_delta : Nat)
      (debt_is_repay : Bool) (now : Nat)
  | adjustRateOp (owner vault_id interest_rate_bps now : Nat)
  | closeVaultOp (owner vault_id : Nat)
  | seizeCollateralOp (owner vault_id amount : Nat)
  | reduceDebtOp (owner vault_id amount : Nat)
  | reduceForRedemptionOp (owner vault_id collateral_amount
      debt_amount : Nat)
  | closeForLiquidationOp (owner vault_id : Nat)
deriving DecidableEq, Repr

open BranchCspr in
def applyOp (s : BranchState) : Op → Except CdpError BranchState
  | .openVaultOp o c d r t => (open_vault s o c d r t).map Prod.fst
  | .adjustVaultOp o i cd cw dd dr t => adjust_vault s o i cd cw dd dr t
  | .adjustRateOp o i r t => adjust_interest_rate s o i r t
  | .closeVaultOp o i => close_vault s o i
  | .seizeCollateralOp o i a => seize_collateral s o i a
  | .reduceDebtOp o i a => reduce_debt s o i a
  | .reduceForRedemptionOp o i c d => reduce_collateral_for_redemption s o i c d
  | .closeForLiquidationOp o i => close_vault_for_liquidation s o i

/-- One call: a revert (`.error`) rolls back every write, leaving the
pre-state. -/
def step (s : BranchState) (op : Op) : BranchState :=
  match applyOp s op with
  | .ok s' => s'
  | .error _ => s

/-- A sequence of calls, each completing or reverting independently. -/
def run (s : BranchState) : List Op → BranchState
  | [] => s
  | op :: ops => run (step s op) ops

/-- A sequence of calls all of which complete without reverting. -/
def runE (s : BranchState) : List Op → Except CdpError BranchState
  | [] => .ok s
  | op :: ops => do
    let s' ← applyOp s op
    runE s' ops

/-! ### Association-list facts -/

theorem alGet_alSet {κ α : Type} [DecidableEq κ]
    (m : List (κ × α)) (k' k : κ) (v : α) :
    alGet (alSet m k' v) k = if k' = k then some v else alGet m k := by
  induction m with
  | nil => simp [alGet, alSet]
  | cons kv rest ih =>
    obtain ⟨k0, v0⟩ := kv
    by_cases h : k0 = k'
    · subst h
      by_cases h2 : k0 = k
      · subst h2; simp [alSet, alGet]
      · simp [alSet, alGet, h2]
    · by_cases h2 : k0 = k
      · subst h2
        simp [alSet, alGet, h, Ne.symm h]
      · simp [alSet, alGet, h, h2, ih]

/-- A vault is "active" (present in all indices) unless both balances are
zero. -/
def vault_active (v : VaultData) : Bool :=
  decide (¬ (v.collateral = 0 ∧ v.debt = 0))

/-- Sum of a per-vault quantity over a vault store. -/
def sumBy (f : VaultData → Nat) (m : List (VaultKey × VaultData)) : Nat :=
  (m.map (fun p => f p.2)).sum

def sumColl (m : List (VaultKey × VaultData)) : Nat :=
  sumBy (fun v => v.collateral) m

def sumDebt (m : List (VaultKey × VaultData)) : Nat :=
  sumBy (fun v => v.debt) m

def activeCount (m : List (VaultKey × VaultData)) : Nat :=
  sumBy (fun v => if vault_active v then 1 else 0) m

/-- The active (non-zeroed) vault records of a store. -/
def activeVaults (m : List (VaultKey × VaultData)) :
    List (VaultKey × VaultData) :=
  m.filter (fun p => vault_active p.2)

theorem sumBy_alSet_mem (f : VaultData → Nat) :
    ∀ (m : List (VaultKey × VaultData)) (k : VaultKey) (old v : VaultData),
    alGet m k = some old →
    sumBy f (alSet m k v) + f old = sumBy f m + f v := by
  intro m
  induction m with
  | nil => intro k old v h; simp [alGet] at h
  | cons kv rest ih =>
    intro k old v h
    obtain ⟨k0, v0⟩ := kv
    by_cases hk : k0 = k
    · rw [show alGet ((k0, v0) :: rest) k = some v0 by simp [alGet, hk]] at h
      obtain rfl := Option.some.inj h
      simp [alSet, hk, sumBy]
      omega
    · rw [show alGet ((k0, v0) :: rest) k = alGet rest k by
        simp [alGet, hk]] at h
      have := ih k old v h
      simp only [alSet, if_neg hk, sumBy, List.map_cons, List.sum_cons]
      simp only [sumBy] at this
      omega

theorem sumBy_alSet_new (f : VaultData → Nat) :
    ∀ (m : List (VaultKey × VaultData)) (k : VaultKey) (v : VaultData),
    alGet m k = none →
    sumBy f (alSet m k v) = sumBy f m + f v := by
  intro m
  induction m with
  | nil => intro k v _; simp [alSet, sumBy]
  | cons kv rest ih =>
    intro k v h
    obtain ⟨k0, v0⟩ := kv
    by_cases hk : k0 = k
    · rw [show alGet ((k0, v0) :: rest) k = some v0 by simp [alGet, hk]] at h
      cases h
    · rw [show alGet ((k0, v0) :: rest) k = alGet rest k by
        simp [alGet, hk]] at h
      have := ih k v h
      simp only [alSet, if_neg hk, sumBy, List.map_cons, List.sum_cons]
      simp only [sumBy] at this
      omega

theorem sumBy_mem_le (f : VaultData → Nat) :
    ∀ (m : List (VaultKey × VaultData)) (k : VaultKey) (v : VaultData),
    alGet m k = some v → f v ≤ sumBy f m := by
  intro m
  induction m with
  | nil => intro k v h; simp [alGet] at h
  | cons kv rest ih =>
    intro k v h
    obtain ⟨k0, v0⟩ := kv
    by_cases hk : k0 = k
    · rw [show alGet ((k0, v0) :: rest) k = some v0 by simp [alGet, hk]] at h
      obtain rfl := Option.some.inj h
      simp [sumBy]
      try omega
    · rw [show alGet ((k0, v0) :: rest) k = alGet rest k by
        simp [alGet, hk]] at h
      have := ih k v h
      simp only [sumBy, List.map_cons, List.sum_cons]
      simp only [sumBy] at this
      omega

theorem sumColl_active (m : List (VaultKey × VaultData)) :
    sumColl (activeVaults m) = sumColl m := by
  induction m with
  | nil => rfl
  | cons kv rest ih =>
    by_cases h : vault_active kv.2
    · simp [activeVaults, List.filter_cons, h, sumColl, sumBy] at ih ⊢
      omega
    · have hz : kv.2.collateral = 0 := by
        simp [vault_active] at h
        exact h.1
      simp [activeVaults, List.filter_cons, h, sumColl, sumBy, hz] at ih ⊢
      omega

theorem sumDebt_active (m : List (VaultKey × VaultData)) :
    sumDebt (activeVaults m) = sumDebt m := by
  induction m with
  | nil => rfl
  | cons kv rest ih =>
    by_cases h : vault_active kv.2
    · simp [activeVaults, List.filter_cons, h, sumDebt, sumBy] at ih ⊢
      omega
    · have hz : kv.2.debt = 0 := by
        simp [vault_active] at h
        exact h.2
      simp [activeVaults, List.filter_cons, h, sumDebt, sumBy, hz] at ih ⊢
      omega

theorem activeCount_length (m : List (VaultKey × VaultData)) :
    activeCount m = (activeVaults m).length := by
  induction m with
  | nil => rfl
  | cons kv rest ih =>
    by_cases h : vault_active kv.2 <;>
      simp [activeVaults, List.filter_cons, h, activeCount, sumBy] at ih ⊢ <;>
      try omega

/-! ### Frame lemmas: the sorted-list and owner-list helpers do not touch
the ledger fields -/

theorem insert_frame (s : BranchState) (k : VaultKey) (r : Nat) :
    (BranchCspr.insert_into_sorted_list s k r).vaults = s.vaults ∧
    (BranchCspr.insert_into_sorted_list s k r).total_collateral
      = s.total_collateral ∧
    (BranchCspr.insert_into_sorted_list s k r).total_debt = s.total_debt ∧
    (BranchCspr.insert_into_sorted_list s k r).vault_count = s.vault_count ∧
    (BranchCspr.insert_into_sorted_list s k r).last_good_price
      = s.last_good_price ∧
    (BranchCspr.insert_into_sorted_list s k r).next_vault_id
      = s.next_vault_id ∧
    (BranchCspr.insert_into_sorted_list s k r).user_vault_count
      = s.user_vault_count ∧
    (BranchCspr.insert_into_sorted_list s k r).user_vault_ids
      = s.user_vault_ids ∧
    (BranchCspr.insert_into_sorted_list s k r).vault_indices
      = s.vault_indices := by
  unfold BranchCspr.insert_into_sorted_list
  repeat' split
  all_goals try dsimp only
  all_goals refine ⟨?_, ?_, ?_, ?_, ?_, ?_, ?_, ?_, ?_⟩ <;> rfl

theorem remove_frame (s : BranchState) (k : VaultKey) :
    (BranchCspr.remove_from_sorted_list s k).vaults = s.vaults ∧
    (BranchCspr.remove_from_sorted_list s k).total_collateral
      = s.total_collateral ∧
    (BranchCspr.remove_from_sorted_list s k).total_debt = s.total_debt ∧
    (BranchCspr.remove_from_sorted_list s k).vault_count = s.vault_count ∧
    (BranchCspr.remove_from_sorted_list s k).last_good_price
      = s.last_good_price ∧
    (BranchCspr.remove_from_sorted_list s k).next_vault_id
      = s.next_vault_id ∧
    (BranchCspr.remove_from_sorted_list s k).user_vault_count
      = s.user_vault_count ∧
    (BranchCspr.remove_from_sorted_list s k).user_vault_ids
      = s.user_vault_ids ∧
    (BranchCspr.remove_from_sorted_list s k).vault_indices
      = s.vault_indices := by
  unfold BranchCspr.remove_from_sorted_list
  repeat' split
  all_goals try dsimp only
  all_goals repeat' split
  all_goals refine ⟨?_, ?_, ?_, ?_, ?_, ?_, ?_, ?_, ?_⟩ <;> rfl

theorem owner_list_frame (s : BranchState) (k : VaultKey) :
    (BranchCspr.remove_vault_from_owner_list s k).vaults = s.vaults ∧
    (BranchCspr.remove_vault_from_owner_list s k).total_collateral
      = s.total_collateral ∧
    (BranchCspr.remove_vault_from_owner_list s k).total_debt
      = s.total_debt ∧
    (BranchCspr.remove_vault_from_owner_list s k).vault_count
      = s.vault_count ∧
    (BranchCspr.remove_vault_from_owner_list s k).last_good_price
      = s.last_good_price ∧
    (BranchCspr.remove_vault_from_owner_list s k).next_vault_id
      = s.next_vault_id ∧
    (BranchCspr.remove_vault_from_owner_list s k).sorted_vaults
      = s.sorted_vaults ∧
    (BranchCspr.remove_vault_from_owner_list s k).sorted_head
      = s.sorted_head ∧
    (BranchCspr.remove_vault_from_owner_list s k).sorted_tail
      = s.sorted_tail := by
  unfold BranchCspr.remove_vault_from_owner_list
  all_goals try dsimp only
  all_goals repeat' split
  all_goals refine ⟨?_, ?_, ?_, ?_, ?_, ?_, ?_, ?_, ?_⟩ <;> rfl

/-! ### The branch-totals invariant -/

/-- The totals-and-freshness invariant: branch totals match the per-vault
sums, and every stored vault key's id is below the owner's next id. -/
structure TotInv (s : BranchState) : Prop where
  coll_eq : s.total_collateral = sumColl s.vaults
  debt_eq : s.total_debt = sumDebt s.vaults
  fresh : ∀ (owner id : Nat) (v : VaultData),
    alGet s.vaults ⟨owner, id⟩ = some v →
    id < (alGet s.next_vault_id owner).getD 1

/-- The vault-count invariant (the part of C1 the code violates). -/
def CountInv (s : BranchState) : Prop :=
  s.vault_count = activeCount s.vaults

theorem totInv_init : TotInv BranchCspr.initBranch := by
  refine ⟨rfl, rfl, ?_⟩
  intro owner id v h
  simp [BranchCspr.initBranch, alGet] at h

theorem countInv_init : CountInv BranchCspr.initBranch := rfl

/-- `accrue_interest` always returns `new_debt = debt + interest`. -/
theorem accrue_spec {d r l n : Nat} {acc : AccrualResult}
    (h : accrue_interest d r l n = some acc) :
    acc.new_debt = d + acc.interest_accrued := by
  unfold accrue_interest at h
  split at h
  · obtain rfl := Option.some.inj h
    simp
  split at h
  · obtain rfl := Option.some.inj h
    simp
  dsimp only at h
  split at h
  · obtain rfl := Option.some.inj h
    rfl
  · cases h

theorem liftOpt_ok {α : Type} {x : Option α} {a : α}
    (h : liftOpt x = .ok a) : x = some a := by
  cases x with
  | none => cases h
  | some b => obtain rfl := Except.ok.inj h; rfl

theorem add_accrued_ok {t i v : Nat}
    (h : BranchCspr.add_accrued_interest t i = .ok v) : v = t + i := by
  unfold BranchCspr.add_accrued_interest at h
  split at h
  · exact (uadd_ok h).1
  · obtain rfl := (Except.ok.inj h).symm
    omega

theorem acd_ok {c δ v : Nat} {b : Bool}
    (h : BranchCspr.apply_collateral_delta c δ b = .ok v) :
    (b = true ∧ δ ≤ c ∧ v = c - δ) ∨ (b = false ∧ v = c + δ) := by
  unfold BranchCspr.apply_collateral_delta at h
  cases b with
  | true =>
    rw [if_pos rfl] at h
    split at h
    · cases h
    · exact Or.inl ⟨rfl, by omega, (Except.ok.inj h).symm⟩
  | false =>
    rw [if_neg (by simp)] at h
    exact Or.inr ⟨rfl, (uadd_ok h).1⟩

theorem adb_ok {d δ v : Nat} {b : Bool}
    (h : BranchCspr.apply_debt_delta d δ b = .ok v) :
    (b = true ∧ δ ≤ d ∧ v = d - δ) ∨ (b = false ∧ v = d + δ) := by
  unfold BranchCspr.apply_debt_delta at h
  cases b with
  | true =>
    rw [if_pos rfl] at h
    split at h
    · cases h
    · exact Or.inl ⟨rfl, by omega, (Except.ok.inj h).symm⟩
  | false =>
    rw [if_neg (by simp)] at h
    exact Or.inr ⟨rfl, (uadd_ok h).1⟩

theorem atd_ok {c δ v : Nat} {b : Bool}
    (h : BranchCspr.apply_totals_delta c δ b = .ok v) :
    (b = true ∧ δ ≤ c ∧ v = c - δ) ∨ (b = false ∧ v = c + δ) := by
  unfold BranchCspr.apply_totals_delta at h
  cases b with
  | true =>
    rw [if_pos rfl] at h
    obtain ⟨h1, h2⟩ := usub_ok h
    exact Or.inl ⟨rfl, h2, h1⟩
  | false =>
    rw [if_neg (by simp)] at h
    exact Or.inr ⟨rfl, (uadd_ok h).1⟩

/-- The vault at `k` exists and has not been zeroed out. -/
def activeAt (s : BranchState) (k : VaultKey) : Bool :=
  match alGet s.vaults k with
  | some v => vault_active v
  | none => false

/-- A call is "clean" when it is not a `seize_collateral` or `reduce_debt`
call that zeroes out both balances of a vault while leaving it open (the
scenario under which the code stops decrementing `vault_count`). -/
def cleanOp (s : BranchState) : Op → Bool
  | .seizeCollateralOp o i a =>
    match applyOp s (.seizeCollateralOp o i a) with
    | .ok s' => activeAt s' ⟨o, i⟩
    | .error _ => true
  | .reduceDebtOp o i a =>
    match applyOp s (.reduceDebtOp o i a) with
    | .ok s' => activeAt s' ⟨o, i⟩
    | .error _ => true
  | _ => true

def cleanTrace (s : BranchState) : List Op → Bool
  | [] => true
  | op :: ops => cleanOp s op && cleanTrace (step s op) ops

/-- Updating one existing vault record transfers the totals invariant when
the totals move by the same amount as the record. -/
theorem totInv_update {s s' : BranchState}
    (hfresh : ∀ owner id w, alGet s.vaults ⟨owner, id⟩ = some w →
      id < (alGet s.next_vault_id owner).getD 1)
    {k : VaultKey} {old v : VaultData}
    (hget : alGet s.vaults k = some old)
    (hv : s'.vaults = alSet s.vaults k v)
    (hc : s'.total_collateral + old.collateral
        = sumColl s.vaults + v.collateral)
    (hd : s'.total_debt + old.debt = sumDebt s.vaults + v.debt)
    (hn : s'.next_vault_id = s.next_vault_id) :
    TotInv s' := by
  have hsc := sumBy_alSet_mem (fun w => w.collateral) s.vaults k old v hget
  have hsd := sumBy_alSet_mem (fun w => w.debt) s.vaults k old v hget
  refine ⟨?_, ?_, ?_⟩
  · rw [hv]
    have h1 : sumColl (alSet s.vaults k v) + old.collateral
        = sumColl s.vaults + v.collateral := hsc
    omega
  · rw [hv]
    have h1 : sumDebt (alSet s.vaults k v) + old.debt
        = sumDebt s.vaults + v.debt := hsd
    omega
  · intro owner id w hw
    rw [hv, alGet_alSet] at hw
    rw [hn]
    by_cases hk : k = ⟨owner, id⟩
    · rw [if_pos hk] at hw
      exact hfresh owner id old (hk ▸ hget)
    · rw [if_neg hk] at hw
      exact hfresh owner id w hw

/-- Updating one existing vault record transfers the count invariant when
`vault_count` moves by the same amount as the activity indicator. -/
theorem countInv_update {s s' : BranchState}
    {k : VaultKey} {old v : VaultData}
    (hget : alGet s.vaults k = some old)
    (hv : s'.vaults = alSet s.vaults k v)
    (hcnt : s'.vault_count + (if vault_active old then 1 else 0)
        = s.vault_count + (if vault_active v then 1 else 0))
    (hC : CountInv s) : CountInv s' := by
  have hs := sumBy_alSet_mem (fun w => if vault_active w then 1 else 0)
    s.vaults k old v hget
  have hC' : s.vault_count = activeCount s.vaults := hC
  show s'.vault_count = activeCount s'.vaults
  rw [hv]
  have h1 : activeCount (alSet s.vaults k v)
      + (if vault_active old then 1 else 0)
      = activeCount s.vaults + (if vault_active v then 1 else 0) := hs
  omega

/-- Field characterization of a successful `close_vault_internal`. -/
theorem close_vault_internal_ok {s : BranchState} {k : VaultKey}
    {v : VaultData} {s' : BranchState}
    (h : BranchCspr.close_vault_internal s k v = .ok s') :
    v.collateral ≤ s.total_collateral ∧ v.debt ≤ s.total_debt ∧
    s'.vaults = alSet s.vaults k ⟨k.owner, 0, 0, 0, 0⟩ ∧
    s'.total_collateral = s.total_collateral - v.collateral ∧
    s'.total_debt = s.total_debt - v.debt ∧
    s'.vault_count = s.vault_count - 1 ∧
    s'.next_vault_id = s.next_vault_id := by
  unfold BranchCspr.close_vault_internal at h
  obtain ⟨tc, htc, h⟩ := except_bind_ok h
  obtain ⟨td, htd, h⟩ := except_bind_ok h
  obtain ⟨htc1, htc2⟩ := usub_ok htc
  obtain ⟨htd1, htd2⟩ := usub_ok htd
  have hs' := (Except.ok.inj h).symm
  subst hs'
  refine ⟨htc2, htd2, ?_, ?_, ?_, ?_, ?_⟩ <;>
    simp only [remove_frame, owner_list_frame] <;>
    first
      | rfl
      | exact htc1
      | exact htd1

/-- An inactive sentinel record never counts as active. -/
theorem vault_active_zero (o : Nat) :
    vault_active ⟨o, 0, 0, 0, 0⟩ = false := rfl

/-- `close_vault_internal` preserves the totals invariant (in the
generalized form needed for the accrued-interest call sites) and steps the
count invariant down together with the closed vault. -/
theorem close_vault_internal_inv {s : BranchState} {k : VaultKey}
    {vstored v : VaultData} {s' : BranchState}
    (hget : alGet s.vaults k = some vstored)
    (hfresh : ∀ owner id w, alGet s.vaults ⟨owner, id⟩ = some w →
      id < (alGet s.next_vault_id owner).getD 1)
    (hc : s.total_collateral + vstored.collateral
        = sumColl s.vaults + v.collateral)
    (hd : s.total_debt + vstored.debt = sumDebt s.vaults + v.debt)
    (h : BranchCspr.close_vault_internal s k v = .ok s') :
    TotInv s' ∧
    (CountInv s → vault_active vstored = true → CountInv s') := by
  obtain ⟨hc1, hd1, hv, htc, htd, hcnt, hnx⟩ := close_vault_internal_ok h
  constructor
  · refine totInv_update hfresh hget hv ?_ ?_ hnx
    · rw [htc]
      have hz : (⟨k.owner, 0, 0, 0, 0⟩ : VaultData).collateral = 0 := rfl
      rw [hz]
      omega
    · rw [htd]
      have hz : (⟨k.owner, 0, 0, 0, 0⟩ : VaultData).debt = 0 := rfl
      rw [hz]
      omega
  · intro hC hact
    have hge := sumBy_mem_le (fun w => if vault_active w then 1 else 0)
      s.vaults k vstored hget
    have hge2 : (if vault_active vstored then 1 else 0)
        ≤ activeCount s.vaults := hge
    rw [hact] at hge2
    simp at hge2
    have hC' : s.vault_count = activeCount s.vaults := hC
    refine countInv_update hget hv ?_ hC
    rw [hact, hcnt, vault_active_zero]
    have hz1 : (if (true = true) then 1 else 0) = 1 := by simp
    have hz0 : (if (false = true) then 1 else 0) = 0 := by simp
    rw [hz1, hz0]
    omega

/-- `close_vault` preserves both invariants. -/
theorem close_vault_inv {s s' : BranchState} {o i : Nat}
    (hI : TotInv s) (h : BranchCspr.close_vault s o i = .ok s') :
    TotInv s' ∧ (CountInv s → CountInv s') := by
  unfold BranchCspr.close_vault at h
  dsimp only at h
  cases hget : alGet s.vaults ⟨o, i⟩ with
  | none => rw [hget] at h; cases h
  | some vault =>
    rw [hget] at h
    dsimp only at h
    by_cases hact : vault.collateral = 0 ∧ vault.debt = 0
    · rw [if_pos hact] at h; cases h
    · rw [if_neg hact] at h
      have hactb : vault_active vault = true := by
        simp [vault_active]
        omega
      have := close_vault_internal_inv hget hI.fresh
        (by rw [hI.coll_eq]) (by rw [hI.debt_eq]) h
      exact ⟨this.1, fun hC => this.2 hC hactb⟩

/-- `close_vault_for_liquidation` preserves both invariants. -/
theorem close_liq_inv {s s' : BranchState} {o i : Nat}
    (hI : TotInv s)
    (h : BranchCspr.close_vault_for_liquidation s o i = .ok s') :
    TotInv s' ∧ (CountInv s → CountInv s') := by
  unfold BranchCspr.close_vault_for_liquidation at h
  dsimp only at h
  cases hget : alGet s.vaults ⟨o, i⟩ with
  | none => rw [hget] at h; cases h
  | some vault =>
    rw [hget] at h
    dsimp only at h
    by_cases hact : vault.collateral = 0 ∧ vault.debt = 0
    · rw [if_pos hact] at h; cases h
    · rw [if_neg hact] at h
      have hactb : vault_active vault = true := by
        simp [vault_active]
        omega
      have := close_vault_internal_inv hget hI.fresh
        (by rw [hI.coll_eq]) (by rw [hI.debt_eq]) h
      exact ⟨this.1, fun hC => this.2 hC hactb⟩

/-- `seize_collateral` preserves the totals invariant, and the count
invariant whenever the vault it touches stays active. -/
theorem seize_inv {s s' : BranchState} {o i a : Nat}
    (hI : TotInv s) (h : BranchCspr.seize_collateral s o i a = .ok s') :
    TotInv s' ∧
    (CountInv s → activeAt s' ⟨o, i⟩ = true → CountInv s') := by
  unfold BranchCspr.seize_collateral at h
  dsimp only at h
  cases hget : alGet s.vaults ⟨o, i⟩ with
  | none => rw [hget] at h; cases h
  | some vault =>
    rw [hget] at h
    dsimp only at h
    by_cases hact : vault.collateral = 0 ∧ vault.debt = 0
    · rw [if_pos hact] at h; cases h
    · rw [if_neg hact] at h
      by_cases hlt : vault.collateral < a
      · rw [if_pos hlt] at h; cases h
      · rw [if_neg hlt] at h
        obtain ⟨tc, htc, h⟩ := except_bind_ok h
        obtain ⟨htc1, htc2⟩ := usub_ok htc
        have hs' := (Except.ok.inj h).symm
        subst hs'
        have hcle : vault.collateral ≤ sumColl s.vaults :=
          sumBy_mem_le (fun w => w.collateral) s.vaults ⟨o, i⟩ vault hget
        constructor
        · refine totInv_update hI.fresh hget rfl ?_ ?_ rfl
          · show tc + vault.collateral
              = sumColl s.vaults + (vault.collateral - a)
            rw [hI.coll_eq] at htc1 htc2
            omega
          · show s.total_debt + vault.debt
              = sumDebt s.vaults + vault.debt
            rw [hI.debt_eq]
        · intro hC hactA
          have hactb : vault_active vault = true := by
            simp [vault_active]
            omega
          have hnew := hactA
          unfold activeAt at hnew
          simp only [alGet_alSet_self] at hnew
          refine countInv_update hget rfl ?_ hC
          rw [hactb, hnew]

/-- `reduce_debt` preserves the totals invariant, and the count invariant
whenever the vault it touches stays active. -/
theorem reduce_debt_inv {s s' : BranchState} {o i a : Nat}
    (hI : TotInv s) (h : BranchCspr.reduce_debt s o i a = .ok s') :
    TotInv s' ∧
    (CountInv s → activeAt s' ⟨o, i⟩ = true → CountInv s') := by
  unfold BranchCspr.reduce_debt at h
  dsimp only at h
  cases hget : alGet s.vaults ⟨o, i⟩ with
  | none => rw [hget] at h; cases h
  | some vault =>
    rw [hget] at h
    dsimp only at h
    by_cases hact : vault.collateral = 0 ∧ vault.debt = 0
    · rw [if_pos hact] at h; cases h
    · rw [if_neg hact] at h
      by_cases hlt : vault.debt < a
      · rw [if_pos hlt] at h; cases h
      · rw [if_neg hlt] at h
        obtain ⟨td, htd, h⟩ := except_bind_ok h
        obtain ⟨htd1, htd2⟩ := usub_ok htd
        have hs' := (Except.ok.inj h).symm
        subst hs'
        have hdle : vault.debt ≤ sumDebt s.vaults :=
          sumBy_mem_le (fun w => w.debt) s.vaults ⟨o, i⟩ vault hget
        constructor
        · refine totInv_update hI.fresh hget rfl ?_ ?_ rfl
          · show s.total_collateral + vault.collateral
              = sumColl s.vaults + vault.collateral
            rw [hI.coll_eq]
          · show td + vault.debt = sumDebt s.vaults + (vault.debt - a)
            rw [hI.debt_eq] at htd1 htd2
            omega
        · intro hC hactA
          have hactb : vault_active vault = true := by
            simp [vault_active]
            omega
          have hnew := hactA
          unfold activeAt at hnew
          simp only [alGet_alSet_self] at hnew
          refine countInv_update hget rfl ?_ hC
          rw [hactb, hnew]

theorem sumColl_alSet_new {m : List (VaultKey × VaultData)} {k : VaultKey}
    (v : VaultData) (h : alGet m k = none) :
    sumColl (alSet m k v) = sumColl m + v.collateral :=
  sumBy_alSet_new _ m k v h

theorem sumDebt_alSet_new {m : List (VaultKey × VaultData)} {k : VaultKey}
    (v : VaultData) (h : alGet m k = none) :
    sumDebt (alSet m k v) = sumDebt m + v.debt :=
  sumBy_alSet_new _ m k v h

theorem activeCount_alSet_new {m : List (VaultKey × VaultData)}
    {k : VaultKey} (v : VaultData) (h : alGet m k = none) :
    activeCount (alSet m k v)
      = activeCount m + (if vault_active v then 1 else 0) :=
  sumBy_alSet_new _ m k v h

/-- `open_vault` preserves both invariants. -/
theorem open_vault_inv {s : BranchState} {o c d r t : Nat}
    {p : BranchState × Nat}
    (hI : TotInv s) (h : BranchCspr.open_vault s o c d r t = .ok p) :
    TotInv p.1 ∧ (CountInv s → CountInv p.1) := by
  unfold BranchCspr.open_vault at h
  by_cases h1 : MAX_INTEREST_RATE_BPS < r
  · rw [if_pos h1] at h; cases h
  rw [if_neg h1] at h
  by_cases h2 : d < MIN_DEBT_WHOLE * PRICE_SCALE
  · rw [if_pos h2] at h; cases h
  rw [if_neg h2] at h
  obtain ⟨cv, hcv, h⟩ := except_bind_ok h
  obtain ⟨u, hu, h⟩ := except_bind_ok h
  dsimp only at h
  obtain ⟨tc, htc, h⟩ := except_bind_ok h
  obtain ⟨td, htd, h⟩ := except_bind_ok h
  simp only [insert_frame] at htc htd
  obtain ⟨htc1, htc2⟩ := uadd_ok htc
  obtain ⟨htd1, htd2⟩ := uadd_ok htd
  have hp := (Except.ok.inj h).symm
  subst hp
  have hnone : alGet s.vaults ⟨o, (alGet s.next_vault_id o).getD 1⟩
      = none := by
    cases hg : alGet s.vaults ⟨o, (alGet s.next_vault_id o).getD 1⟩ with
    | none => rfl
    | some w => exact absurd (hI.fresh o _ w hg) (lt_irrefl _)
  have hvact : vault_active ⟨o, c, d, r, t⟩ = true := by
    simp only [MIN_DEBT_WHOLE, PRICE_SCALE] at h2
    simp [vault_active]
    omega
  refine ⟨⟨?_, ?_, ?_⟩, ?_⟩
  · simp only [insert_frame]
    rw [sumColl_alSet_new _ hnone]
    show tc = sumColl s.vaults + c
    rw [hI.coll_eq] at htc1
    exact htc1
  · simp only [insert_frame]
    rw [sumDebt_alSet_new _ hnone]
    show td = sumDebt s.vaults + d
    rw [hI.debt_eq] at htd1
    exact htd1
  · intro owner id w hw
    simp only [insert_frame] at hw
    rw [alGet_alSet] at hw
    simp only [insert_frame]
    rw [alGet_alSet]
    by_cases hk : (⟨o, (alGet s.next_vault_id o).getD 1⟩ : VaultKey)
        = ⟨owner, id⟩
    · rw [if_pos hk] at hw
      have h1 := congrArg VaultKey.owner hk
      have h2 := congrArg VaultKey.id hk
      dsimp only at h1 h2
      rw [if_pos h1]
      simp [alGet_alSet_self]
      omega
    · rw [if_neg hk] at hw
      have hfr := hI.fresh owner id w hw
      by_cases ho : o = owner
      · rw [if_pos ho]
        subst ho
        simp [alGet_alSet_self]
        omega
      · rw [if_neg ho]
        exact hfr
  · intro hC
    show _ = activeCount _
    simp only [insert_frame]
    rw [activeCount_alSet_new _ hnone, hvact]
    have hC' : s.vault_count = activeCount s.vaults := hC
    simp
    omega

/-- `adjust_vault` preserves both invariants. -/
theorem adjust_vault_inv {s s' : BranchState} {o i cd : Nat} {cw : Bool}
    {dd : Nat} {dr : Bool} {t : Nat}
    (hI : TotInv s)
    (h : BranchCspr.adjust_vault s o i cd cw dd dr t = .ok s') :
    TotInv s' ∧ (CountInv s → CountInv s') := by
  unfold BranchCspr.adjust_vault at h
  try dsimp only at h
  cases hget : alGet s.vaults ⟨o, i⟩ with
  | none => rw [hget] at h; cases h
  | some vault0 =>
    rw [hget] at h
    dsimp only at h
    by_cases hact : vault0.collateral = 0 ∧ vault0.debt = 0
    · rw [if_pos hact] at h; cases h
    rw [if_neg hact] at h
    have hactb : vault_active vault0 = true := by
      simp [vault_active]
      omega
    obtain ⟨acc, hacc, h⟩ := except_bind_ok h
    have haccS := accrue_spec (liftOpt_ok hacc)
    try dsimp only at h
    obtain ⟨td0, htd0, h⟩ := except_bind_ok h
    have htd0e := add_accrued_ok htd0
    obtain ⟨nc, hnc, h⟩ := except_bind_ok h
    obtain ⟨nd, hnd, h⟩ := except_bind_ok h
    have hnc' : BranchCspr.apply_collateral_delta vault0.collateral cd cw
        = .ok nc := hnc
    have hnd' : BranchCspr.apply_debt_delta acc.new_debt dd dr
        = .ok nd := hnd
    try dsimp only at h
    by_cases hclose : nc = 0 ∧ nd = 0
    · rw [if_pos hclose] at h
      have res : TotInv s' ∧
          (CountInv { s with total_debt := td0 } →
            vault_active vault0 = true → CountInv s') := by
        refine close_vault_internal_inv ?_ ?_ ?_ ?_ h
        · exact hget
        · exact hI.fresh
        · show s.total_collateral + vault0.collateral
            = sumColl s.vaults + vault0.collateral
          rw [hI.coll_eq]
        · show td0 + vault0.debt = sumDebt s.vaults + acc.new_debt
          rw [hI.debt_eq] at htd0e
          omega
      exact ⟨res.1, fun hC => res.2 hC hactb⟩
    · rw [if_neg hclose] at h
      obtain ⟨u1, hu1, h⟩ := except_bind_ok h
      obtain ⟨cv, hcv, h⟩ := except_bind_ok h
      obtain ⟨u2, hu2, h⟩ := except_bind_ok h
      obtain ⟨cdiff, hcd, h⟩ := except_bind_ok h
      obtain ⟨ddiff, hdd, h⟩ := except_bind_ok h
      have hcd' : BranchCspr.apply_totals_delta s.total_collateral cd cw
          = .ok cdiff := hcd
      have hdd' : BranchCspr.apply_totals_delta td0 dd dr
          = .ok ddiff := hdd
      have hs' := (Except.ok.inj h).symm
      subst hs'
      have hA := acd_ok hnc'
      have hB := atd_ok hcd'
      have hD := adb_ok hnd'
      have hE := atd_ok hdd'
      have hact2 : vault_active ⟨vault0.owner, nc, nd,
          vault0.interest_rate_bps, t⟩ = true := by
        simp [vault_active]
        omega
      constructor
      · refine totInv_update hI.fresh hget rfl ?_ ?_ rfl
        · show cdiff + vault0.collateral = sumColl s.vaults + nc
          rw [hI.coll_eq] at hB
          rcases hA with ⟨hb1, hA1, hA2⟩ | ⟨hb1, hA1⟩ <;>
            rcases hB with ⟨hb2, hB1, hB2⟩ | ⟨hb2, hB1⟩ <;>
            first
              | omega
              | (rw [hb1] at hb2; cases hb2)
        · show ddiff + vault0.debt = sumDebt s.vaults + nd
          rw [hI.debt_eq] at htd0e
          rcases hD with ⟨hb1, hD1, hD2⟩ | ⟨hb1, hD1⟩ <;>
            rcases hE with ⟨hb2, hE1, hE2⟩ | ⟨hb2, hE1⟩ <;>
            first
              | omega
              | (rw [hb1] at hb2; cases hb2)
      · intro hC
        refine countInv_update hget rfl ?_ hC
        rw [hactb, hact2]

/-- `adjust_interest_rate` preserves both invariants. -/
theorem adjust_rate_inv {s s' : BranchState} {o i r t : Nat}
    (hI : TotInv s)
    (h : BranchCspr.adjust_interest_rate s o i r t = .ok s') :
    TotInv s' ∧ (CountInv s → CountInv s') := by
  unfold BranchCspr.adjust_interest_rate at h
  by_cases h1 : MAX_INTEREST_RATE_BPS < r
  · rw [if_pos h1] at h; cases h
  rw [if_neg h1] at h
  try dsimp only at h
  cases hget : alGet s.vaults ⟨o, i⟩ with
  | none => rw [hget] at h; cases h
  | some vault0 =>
    rw [hget] at h
    try dsimp only at h
    by_cases hact : vault0.collateral = 0 ∧ vault0.debt = 0
    · rw [if_pos hact] at h; cases h
    rw [if_neg hact] at h
    have hactb : vault_active vault0 = true := by
      simp [vault_active]
      omega
    obtain ⟨acc, hacc, h⟩ := except_bind_ok h
    have haccS := accrue_spec (liftOpt_ok hacc)
    try dsimp only at h
    obtain ⟨td0, htd0, h⟩ := except_bind_ok h
    have htd0e := add_accrued_ok htd0
    try dsimp only at h
    by_cases hne : vault0.interest_rate_bps ≠ r
    · rw [if_pos hne] at h
      have hs' := (Except.ok.inj h).symm
      have hv : s'.vaults = alSet s.vaults ⟨o, i⟩
          ⟨vault0.owner, vault0.collateral, acc.new_debt, r, t⟩ := by
        rw [hs']
        simp only [insert_frame, remove_frame]
      have htcs : s'.total_collateral = s.total_collateral := by
        rw [hs']
        simp only [insert_frame, remove_frame]
      have htds : s'.total_debt = td0 := by
        rw [hs']
        simp only [insert_frame, remove_frame]
      have hcns : s'.vault_count = s.vault_count := by
        rw [hs']
        simp only [insert_frame, remove_frame]
      have hnxs : s'.next_vault_id = s.next_vault_id := by
        rw [hs']
        simp only [insert_frame, remove_frame]
      have hact2 : vault_active ⟨vault0.owner, vault0.collateral,
          acc.new_debt, r, t⟩ = true := by
        simp [vault_active]
        omega
      constructor
      · refine totInv_update hI.fresh hget hv ?_ ?_ hnxs
        · rw [htcs]
          show s.total_collateral + vault0.collateral
            = sumColl s.vaults + vault0.collateral
          rw [hI.coll_eq]
        · rw [htds]
          show td0 + vault0.debt = sumDebt s.vaults + acc.new_debt
          rw [hI.debt_eq] at htd0e
          omega
      · intro hC
        refine countInv_update hget hv ?_ hC
        rw [hcns, hactb, hact2]
    · rw [if_neg hne] at h
      have hs' := (Except.ok.inj h).symm
      have hv : s'.vaults = alSet s.vaults ⟨o, i⟩
          ⟨vault0.owner, vault0.collateral, acc.new_debt,
            vault0.interest_rate_bps, t⟩ := by
        rw [hs']
      have htcs : s'.total_collateral = s.total_collateral := by
        rw [hs']
      have htds : s'.total_debt = td0 := by
        rw [hs']
      have hcns : s'.vault_count = s.vault_count := by
        rw [hs']
      have hnxs : s'.next_vault_id = s.next_vault_id := by
        rw [hs']
      have hact2 : vault_active ⟨vault0.owner, vault0.collateral,
          acc.new_debt, vault0.interest_rate_bps, t⟩ = true := by
        simp [vault_active]
        omega
      constructor
      · refine totInv_update hI.fresh hget hv ?_ ?_ hnxs
        · rw [htcs]
          show s.total_collateral + vault0.collateral
            = sumColl s.vaults + vault0.collateral
          rw [hI.coll_eq]
        · rw [htds]
          show td0 + vault0.debt = sumDebt s.vaults + acc.new_debt
          rw [hI.debt_eq] at htd0e
          omega
      · intro hC
        refine countInv_update hget hv ?_ hC
        rw [hcns, hactb, hact2]

/-- `reduce_collateral_for_redemption` preserves both invariants. -/
theorem reduce_redemption_inv {s s' : BranchState} {o i ca da : Nat}
    (hI : TotInv s)
    (h : BranchCspr.reduce_collateral_for_redemption s o i ca da
      = .ok s') :
    TotInv s' ∧ (CountInv s → CountInv s') := by
  unfold BranchCspr.reduce_collateral_for_redemption at h
  try dsimp only at h
  cases hget : alGet s.vaults ⟨o, i⟩ with
  | none => rw [hget] at h; cases h
  | some vault0 =>
    rw [hget] at h
    try dsimp only at h
    by_cases hact : vault0.collateral = 0 ∧ vault0.debt = 0
    · rw [if_pos hact] at h; cases h
    rw [if_neg hact] at h
    by_cases hlt1 : vault0.collateral < ca
    · rw [if_pos hlt1] at h; cases h
    rw [if_neg hlt1] at h
    by_cases hlt2 : vault0.debt < da
    · rw [if_pos hlt2] at h; cases h
    rw [if_neg hlt2] at h
    have hactb : vault_active vault0 = true := by
      simp [vault_active]
      omega
    obtain ⟨tc, htc, h⟩ := except_bind_ok h
    obtain ⟨td, htd, h⟩ := except_bind_ok h
    obtain ⟨htc1, htc2⟩ := usub_ok htc
    obtain ⟨htd1, htd2⟩ := usub_ok htd
    try dsimp only at h
    have hs' := (Except.ok.inj h).symm
    by_cases hz : vault0.collateral - ca = 0 ∧ vault0.debt - da = 0
    · rw [if_pos hz] at hs'
      have hv : s'.vaults = alSet s.vaults ⟨o, i⟩
          ⟨vault0.owner, vault0.collateral - ca, vault0.debt - da,
            vault0.interest_rate_bps, vault0.last_accrual_timestamp⟩ := by
        rw [hs']
        simp only [remove_frame, owner_list_frame]
      have htcs : s'.total_collateral = tc := by
        rw [hs']
        simp only [remove_frame, owner_list_frame]
      have htds : s'.total_debt = td := by
        rw [hs']
        simp only [remove_frame, owner_list_frame]
      have hcns : s'.vault_count = s.vault_count - 1 := by
        rw [hs']
        simp only [remove_frame, owner_list_frame]
      have hnxs : s'.next_vault_id = s.next_vault_id := by
        rw [hs']
        simp only [remove_frame, owner_list_frame]
      have hactz : vault_active ⟨vault0.owner, vault0.collateral - ca,
          vault0.debt - da, vault0.interest_rate_bps,
          vault0.last_accrual_timestamp⟩ = false := by
        simp [vault_active]
        omega
      constructor
      · refine totInv_update hI.fresh hget hv ?_ ?_ hnxs
        · rw [htcs]
          show tc + vault0.collateral
            = sumColl s.vaults + (vault0.collateral - ca)
          rw [hI.coll_eq] at htc1 htc2
          omega
        · rw [htds]
          show td + vault0.debt
            = sumDebt s.vaults + (vault0.debt - da)
          rw [hI.debt_eq] at htd1 htd2
          omega
      · intro hC
        have hge := sumBy_mem_le (fun w => if vault_active w then 1 else 0)
          s.vaults ⟨o, i⟩ vault0 hget
        have hge2 : (if vault_active vault0 then 1 else 0)
            ≤ activeCount s.vaults := hge
        rw [hactb] at hge2
        simp at hge2
        have hC' : s.vault_count = activeCount s.vaults := hC
        refine countInv_update hget hv ?_ hC
        rw [hcns, hactb, hactz]
        have hz1 : (if (true = true) then 1 else 0) = 1 := by simp
        have hz0 : (if (false = true) then 1 else 0) = 0 := by simp
        rw [hz1, hz0]
        omega
    · rw [if_neg hz] at hs'
      have hv : s'.vaults = alSet s.vaults ⟨o, i⟩
          ⟨vault0.owner, vault0.collateral - ca, vault0.debt - da,
            vault0.interest_rate_bps, vault0.last_accrual_timestamp⟩ := by
        rw [hs']
      have htcs : s'.total_collateral = tc := by
        rw [hs']
      have htds : s'.total_debt = td := by
        rw [hs']
      have hcns : s'.vault_count = s.vault_count := by
        rw [hs']
      have hnxs : s'.next_vault_id = s.next_vault_id := by
        rw [hs']
      have hactz : vault_active ⟨vault0.owner, vault0.collateral - ca,
          vault0.debt - da, vault0.interest_rate_bps,
          vault0.last_accrual_timestamp⟩ = true := by
        simp [vault_active]
        omega
      constructor
      · refine totInv_update hI.fresh hget hv ?_ ?_ hnxs
        · rw [htcs]
          show tc + vault0.collateral
            = sumColl s.vaults + (vault0.collateral - ca)
          rw [hI.coll_eq] at htc1 htc2
          omega
        · rw [htds]
          show td + vault0.debt
            = sumDebt s.vaults + (vault0.debt - da)
          rw [hI.debt_eq] at htd1 htd2
          omega
      · intro hC
        refine countInv_update hget hv ?_ hC
        rw [hcns, hactb, hactz]

/-- Any single entry-point call preserves the totals invariant. -/
theorem step_totInv (s : BranchState) (op : Op) (hI : TotInv s) :
    TotInv (step s op) := by
  unfold step
  cases hap : applyOp s op with
  | error e => exact hI
  | ok s2 =>
    cases op with
    | openVaultOp o c d r t =>
      dsimp only [applyOp] at hap
      cases hov : BranchCspr.open_vault s o c d r t with
      | error e => rw [hov] at hap; cases hap
      | ok p =>
        rw [hov] at hap
        have h2 : Except.ok (ε := CdpError) p.1 = .ok s2 := hap
        obtain rfl := Except.ok.inj h2
        exact (open_vault_inv hI hov).1
    | adjustVaultOp o i cd cw dd dr t => exact (adjust_vault_inv hI hap).1
    | adjustRateOp o i r t => exact (adjust_rate_inv hI hap).1
    | closeVaultOp o i => exact (close_vault_inv hI hap).1
    | seizeCollateralOp o i a => exact (seize_inv hI hap).1
    | reduceDebtOp o i a => exact (reduce_debt_inv hI hap).1
    | reduceForRedemptionOp o i c d =>
      exact (reduce_redemption_inv hI hap).1
    | closeForLiquidationOp o i => exact (close_liq_inv hI hap).1

/-- Any single clean call preserves the count invariant. -/
theorem step_countInv (s : BranchState) (op : Op) (hI : TotInv s)
    (hC : CountInv s) (hcl : cleanOp s op = true) :
    CountInv (step s op) := by
  unfold step
  cases hap : applyOp s op with
  | error e => exact hC
  | ok s2 =>
    cases op with
    | openVaultOp o c d r t =>
      dsimp only [applyOp] at hap
      cases hov : BranchCspr.open_vault s o c d r t with
      | error e => rw [hov] at hap; cases hap
      | ok p =>
        rw [hov] at hap
        have h2 : Except.ok (ε := CdpError) p.1 = .ok s2 := hap
        obtain rfl := Except.ok.inj h2
        exact (open_vault_inv hI hov).2 hC
    | adjustVaultOp o i cd cw dd dr t =>
      exact (adjust_vault_inv hI hap).2 hC
    | adjustRateOp o i r t => exact (adjust_rate_inv hI hap).2 hC
    | closeVaultOp o i => exact (close_vault_inv hI hap).2 hC
    | seizeCollateralOp o i a =>
      dsimp only [cleanOp] at hcl
      rw [hap] at hcl
      exact (seize_inv hI hap).2 hC hcl
    | reduceDebtOp o i a =>
      dsimp only [cleanOp] at hcl
      rw [hap] at hcl
      exact (reduce_debt_inv hI hap).2 hC hcl
    | reduceForRedemptionOp o i c d =>
      exact (reduce_redemption_inv hI hap).2 hC
    | closeForLiquidationOp o i => exact (close_liq_inv hI hap).2 hC

theorem run_totInv (ops : List Op) (s : BranchState) (hI : TotInv s) :
    TotInv (run s ops) := by
  induction ops generalizing s with
  | nil => exact hI
  | cons op ops ih => exact ih _ (step_totInv s op hI)

theorem run_countInv (ops : List Op) (s : BranchState) (hI : TotInv s)
    (hC : CountInv s) (hcl : cleanTrace s ops = true) :
    CountInv (run s ops) := by
  induction ops generalizing s with
  | nil => exact hC
  | cons op ops ih =>
    unfold cleanTrace at hcl
    rw [Bool.and_eq_true] at hcl
    exact ih _ (step_totInv s op hI) (step_countInv s op hI hC hcl.1)
      hcl.2

/-! ### Validation-lemma toolkit for the branch entry points -/

theorem bind_ok_eval {α β : Type} {x : Except CdpError α} {a : α}
    (h : x = .ok a) (f : α → Except CdpError β) : (x >>= f) = f a := by
  rw [h]
  rfl

theorem bind_err_eval {α β : Type} {x : Except CdpError α} {e : CdpError}
    (h : x = .error e) (f : α → Except CdpError β) :
    (x >>= f) = .error e := by
  rw [h]
  rfl

theorem uadd_eval {a b : Nat} (h : a + b < U256_LIMIT) :
    uadd a b = .ok (a + b) := by
  unfold uadd
  rw [if_pos h]

theorem add_accrued_eval {t i : Nat} (h : t + i < U256_LIMIT) :
    BranchCspr.add_accrued_interest t i = .ok (t + i) := by
  unfold BranchCspr.add_accrued_interest
  split
  · exact uadd_eval h
  · have hz : t + i = t := by omega
    rw [hz]

theorem acd_err {c δ : Nat} (h : c < δ) :
    BranchCspr.apply_collateral_delta c δ true
      = .error .InsufficientCollateral := by
  unfold BranchCspr.apply_collateral_delta
  rw [if_pos rfl, if_pos h]

theorem acd_eval_false {c δ : Nat} (h : c + δ < U256_LIMIT) :
    BranchCspr.apply_collateral_delta c δ false = .ok (c + δ) := by
  unfold BranchCspr.apply_collateral_delta
  rw [if_neg (by simp)]
  exact uadd_eval h

theorem adb_err {d δ : Nat} (h : d < δ) :
    BranchCspr.apply_debt_delta d δ true = .error .RepayExceedsDebt := by
  unfold BranchCspr.apply_debt_delta
  rw [if_pos rfl, if_pos h]

theorem check_min_debt_ok {nd : Nat} {u : Unit}
    (h : BranchCspr.check_min_debt nd = .ok u) :
    nd = 0 ∨ MIN_DEBT_WHOLE * PRICE_SCALE ≤ nd := by
  unfold BranchCspr.check_min_debt at h
  split at h
  · cases h
  · next hcond =>
    rw [not_and_or] at hcond
    rcases hcond with h1 | h2
    · left
      omega
    · right
      omega

theorem check_mcr_ok {cv d : Nat} {u : Unit}
    (h : BranchCspr.check_mcr cv d = .ok u) :
    ∃ icr, BranchCspr.calculate_icr cv d = .ok icr ∧ MCR_BPS ≤ icr := by
  unfold BranchCspr.check_mcr at h
  obtain ⟨icr, hicr, h⟩ := except_bind_ok h
  refine ⟨icr, hicr, ?_⟩
  split at h
  · cases h
  · omega

/-- C1 counterexample: on a fresh branch, seizing a vault's full
collateral and then repaying its full debt via `reduce_debt` leaves the
vault zeroed but still counted: `vault_count = 1` while no vault is
active, so `vault_count` does not equal the number of active vaults. -/
theorem C1_counterexample :
    (runE BranchCspr.initBranch
        [.openVaultOp 1 (2 * 10 ^ 9) PRICE_SCALE 500 0,
         .seizeCollateralOp 1 1 (2 * 10 ^ 9),
         .reduceDebtOp 1 1 PRICE_SCALE]).map
        (fun s => (s.vault_count, activeCount s.vaults))
      = .ok (1, 0) ∧ (1 : Nat) ≠ 0 := by
  constructor
  · decide
  · decide

/-- C1 (amended): after any sequence of branch calls, each completing or
reverting atomically, `total_collateral` and `total_debt` equal the sums
of collateral and debt over the active (non-zeroed) vaults.  The
vault-count part of the claim holds only under the additional proviso
that no successful `seize_collateral` or `reduce_debt` call zeroes out
both balances of a vault (`cleanTrace`): such a call leaves the vault
inactive without decrementing `vault_count`, as C1_counterexample
shows. -/
theorem C1_theorem (ops : List Op) :
    (run BranchCspr.initBranch ops).total_collateral
        = sumColl (activeVaults (run BranchCspr.initBranch ops).vaults) ∧
    (run BranchCspr.initBranch ops).total_debt
        = sumDebt (activeVaults (run BranchCspr.initBranch ops).vaults) ∧
    (cleanTrace BranchCspr.initBranch ops = true →
      (run BranchCspr.initBranch ops).vault_count
        = (activeVaults (run BranchCspr.initBranch ops).vaults).length) := by
  have hI := run_totInv ops BranchCspr.initBranch totInv_init
  refine ⟨?_, ?_, ?_⟩
  · rw [hI.coll_eq, sumColl_active]
  · rw [hI.debt_eq, sumDebt_active]
  · intro hcl
    have hC := run_countInv ops BranchCspr.initBranch totInv_init
      countInv_init hcl
    rw [← activeCount_length]
    exact hC

/-- C1 witness: a concrete clean trace (open a vault, repay half of its
debt) on which the amended theorem's count conclusion holds. -/
theorem C1_witness :
    cleanTrace BranchCspr.initBranch
        [.openVaultOp 1 (2 * 10 ^ 9) PRICE_SCALE 500 0,
         .reduceDebtOp 1 1 (PRICE_SCALE / 2)] = true ∧
    (run BranchCspr.initBranch
        [.openVaultOp 1 (2 * 10 ^ 9) PRICE_SCALE 500 0,
         .reduceDebtOp 1 1 (PRICE_SCALE / 2)]).vault_count
      = (activeVaults (run BranchCspr.initBranch
          [.openVaultOp 1 (2 * 10 ^ 9) PRICE_SCALE 500 0,
           .reduceDebtOp 1 1 (PRICE_SCALE / 2)]).vaults).length :=
  ⟨by decide,
    (C1_theorem
      [.openVaultOp 1 (2 * 10 ^ 9) PRICE_SCALE 500 0,
       .reduceDebtOp 1 1 (PRICE_SCALE / 2)]).2.2 (by decide)⟩

/-- C5: the branch entry points enforce their validation rules.
(1) `open_vault` rejects an interest rate above 4000 bps with
`InterestRateOutOfBounds`; (2) a successful `open_vault` implies the rate
bound, the minimum debt, and an ICR of at least `MCR_BPS` computed from
the cached price; (3) a successful `adjust_vault` call accrued interest
on the stored vault and either closed it (both balances zero) or
enforced the minimum-debt and MCR checks on the post-accrual amounts and
stored exactly the adjusted record; (4) a withdrawal exceeding the
vault's collateral fails with `InsufficientCollateral`; (5) a repayment
exceeding the post-accrual debt fails with `RepayExceedsDebt`; (6) any
failing call commits no partial mutation (the step leaves the state
unchanged). -/
theorem C5_theorem :
    (∀ s o c d r t, MAX_INTEREST_RATE_BPS < r →
      BranchCspr.open_vault s o c d r t
        = .error .InterestRateOutOfBounds) ∧
    (∀ s o c d r t p, BranchCspr.open_vault s o c d r t = .ok p →
      r ≤ MAX_INTEREST_RATE_BPS ∧ MIN_DEBT_WHOLE * PRICE_SCALE ≤ d ∧
      ∃ cv icr, BranchCspr.get_collateral_value s c = .ok cv ∧
        BranchCspr.calculate_icr cv d = .ok icr ∧ MCR_BPS ≤ icr) ∧
    (∀ s o i cd cw dd dr t s',
      BranchCspr.adjust_vault s o i cd cw dd dr t = .ok s' →
      ∃ v0 acc nc nd,
        alGet s.vaults ⟨o, i⟩ = some v0 ∧
        ¬(v0.collateral = 0 ∧ v0.debt = 0) ∧
        accrue_interest v0.debt v0.interest_rate_bps
          v0.last_accrual_timestamp t = some acc ∧
        BranchCspr.apply_collateral_delta v0.collateral cd cw = .ok nc ∧
        BranchCspr.apply_debt_delta acc.new_debt dd dr = .ok nd ∧
        ((nc = 0 ∧ nd = 0) ∨
          ((nd = 0 ∨ MIN_DEBT_WHOLE * PRICE_SCALE ≤ nd) ∧
            ∃ cv icr, BranchCspr.get_collateral_value s nc = .ok cv ∧
              BranchCspr.calculate_icr cv nd = .ok icr ∧
              MCR_BPS ≤ icr ∧
              alGet s'.vaults ⟨o, i⟩
                = some ⟨v0.owner, nc, nd, v0.interest_rate_bps, t⟩))) ∧
    (∀ s o i cd dd dr t v0 acc,
      alGet s.vaults ⟨o, i⟩ = some v0 →
      ¬(v0.collateral = 0 ∧ v0.debt = 0) →
      accrue_interest v0.debt v0.interest_rate_bps
        v0.last_accrual_timestamp t = some acc →
      s.total_debt + acc.interest_accrued < U256_LIMIT →
      v0.collateral < cd →
      BranchCspr.adjust_vault s o i cd true dd dr t
        = .error .InsufficientCollateral) ∧
    (∀ s o i cd dd t v0 acc,
      alGet s.vaults ⟨o, i⟩ = some v0 →
      ¬(v0.collateral = 0 ∧ v0.debt = 0) →
      accrue_interest v0.debt v0.interest_rate_bps
        v0.last_accrual_timestamp t = some acc →
      s.total_debt + acc.interest_accrued < U256_LIMIT →
      v0.collateral + cd < U256_LIMIT →
      acc.new_debt < dd →
      BranchCspr.adjust_vault s o i cd false dd true t
        = .error .RepayExceedsDebt) ∧
    (∀ s op e, applyOp s op = .error e → step s op = s) := by
  refine ⟨?_, ?_, ?_, ?_, ?_, ?_⟩
  · intro s o c d r t h
    unfold BranchCspr.open_vault
    rw [if_pos h]
  · intro s o c d r t p h
    unfold BranchCspr.open_vault at h
    by_cases h1 : MAX_INTEREST_RATE_BPS < r
    · rw [if_pos h1] at h; cases h
    rw [if_neg h1] at h
    by_cases h2 : d < MIN_DEBT_WHOLE * PRICE_SCALE
    · rw [if_pos h2] at h; cases h
    rw [if_neg h2] at h
    obtain ⟨cv, hcv, h⟩ := except_bind_ok h
    obtain ⟨u, hu, h⟩ := except_bind_ok h
    obtain ⟨icr, hicr, hge⟩ := check_mcr_ok hu
    exact ⟨by omega, by omega, cv, icr, hcv, hicr, hge⟩
  · intro s o i cd cw dd dr t s' h
    unfold BranchCspr.adjust_vault at h
    try dsimp only at h
    cases hget : alGet s.vaults ⟨o, i⟩ with
    | none => rw [hget] at h; cases h
    | some vault0 =>
      rw [hget] at h
      try dsimp only at h
      by_cases hact : vault0.collateral = 0 ∧ vault0.debt = 0
      · rw [if_pos hact] at h; cases h
      rw [if_neg hact] at h
      obtain ⟨acc, hacc, h⟩ := except_bind_ok h
      try dsimp only at h
      obtain ⟨td0, htd0, h⟩ := except_bind_ok h
      obtain ⟨nc, hnc, h⟩ := except_bind_ok h
      obtain ⟨nd, hnd, h⟩ := except_bind_ok h
      have hnc' : BranchCspr.apply_collateral_delta vault0.collateral cd
          cw = .ok nc := hnc
      have hnd' : BranchCspr.apply_debt_delta acc.new_debt dd dr
          = .ok nd := hnd
      try dsimp only at h
      refine ⟨vault0, acc, nc, nd, rfl, hact, liftOpt_ok hacc, hnc',
        hnd', ?_⟩
      by_cases hclose : nc = 0 ∧ nd = 0
      · exact Or.inl hclose
      · rw [if_neg hclose] at h
        obtain ⟨u1, hu1, h⟩ := except_bind_ok h
        obtain ⟨cv, hcv, h⟩ := except_bind_ok h
        obtain ⟨u2, hu2, h⟩ := except_bind_ok h
        obtain ⟨cdiff, hcd, h⟩ := except_bind_ok h
        obtain ⟨ddiff, hdd, h⟩ := except_bind_ok h
        have hs' := (Except.ok.inj h).symm
        have hcv' : BranchCspr.get_collateral_value s nc = .ok cv := hcv
        obtain ⟨icr, hicr, hge⟩ := check_mcr_ok hu2
        refine Or.inr ⟨check_min_debt_ok hu1, cv, icr, hcv', hicr,
          hge, ?_⟩
        rw [hs']
        simp [alGet_alSet_self]
  · intro s o i cd dd dr t v0 acc hget hact hacc hbound hcd
    unfold BranchCspr.adjust_vault
    try dsimp only
    rw [hget]
    try dsimp only
    rw [if_neg hact]
    rw [bind_ok_eval (show liftOpt (accrue_interest v0.debt
        v0.interest_rate_bps v0.last_accrual_timestamp t) = .ok acc by
          rw [hacc]; rfl) _]
    try dsimp only
    rw [bind_ok_eval (add_accrued_eval hbound) _]
    try dsimp only
    rw [bind_err_eval (acd_err hcd) _]
  · intro s o i cd dd t v0 acc hget hact hacc hbound hbound2 hdd
    unfold BranchCspr.adjust_vault
    try dsimp only
    rw [hget]
    try dsimp only
    rw [if_neg hact]
    rw [bind_ok_eval (show liftOpt (accrue_interest v0.debt
        v0.interest_rate_bps v0.last_accrual_timestamp t) = .ok acc by
          rw [hacc]; rfl) _]
    try dsimp only
    rw [bind_ok_eval (add_accrued_eval hbound) _]
    try dsimp only
    rw [bind_ok_eval (acd_eval_false hbound2) _]
    try dsimp only
    rw [bind_err_eval (adb_err hdd) _]
  · intro s op e h
    unfold step
    rw [h]

/-- C5 witness: on a fresh branch, opening a vault at 4001 bps is
rejected, and withdrawing more collateral than the vault holds is
rejected with `InsufficientCollateral`. -/
theorem C5_witness :
    BranchCspr.open_vault BranchCspr.initBranch 1 (2 * 10 ^ 9)
        PRICE_SCALE 4001 0 = .error .InterestRateOutOfBounds ∧
    BranchCspr.adjust_vault (run BranchCspr.initBranch
        [.openVaultOp 1 (2 * 10 ^ 9) PRICE_SCALE 500 0]) 1 1
        (3 * 10 ^ 9) true 0 false 0
      = .error .InsufficientCollateral := by
  constructor
  · exact C5_theorem.1 _ 1 (2 * 10 ^ 9) PRICE_SCALE 4001 0 (by decide)
  · exact C5_theorem.2.2.2.1 _ 1 1 (3 * 10 ^ 9) 0 false 0
      ⟨1, 2 * 10 ^ 9, PRICE_SCALE, 500, 0⟩ ⟨PRICE_SCALE, 0⟩
      (by decide) (by decide) (by decide) (by decide) (by decide)

/-! ### The sorted doubly-linked list as a key sequence

`walk` traverses the `prev`/`next` links of `sorted_vaults` along a given
key sequence, checking at each node that the cursor points at the node
and that the node's `prev` link points back at the previous node.  It
returns the final `(prev, cursor)` pair.  A well-formed list from
`sorted_head` to `sorted_tail` is a sequence `L` with
`walk sv none sorted_head L = some (sorted_tail, none)`: the head starts
the sequence, every link is mutually consistent, and the traversal falls
off the end exactly at `sorted_tail`. -/

def rateOf (sv : List (VaultKey × SortedVaultEntry)) (k : VaultKey) :
    Nat :=
  match alGet sv k with
  | some e => e.interest_rate_bps
  | none => 0

def walk (sv : List (VaultKey × SortedVaultEntry)) :
    Option VaultKey → Option VaultKey → List VaultKey →
    Option (Option VaultKey × Option VaultKey)
  | pv, cur, [] => some (pv, cur)
  | pv, cur, k :: rest =>
    if cur = some k then
      match alGet sv k with
      | some e => if e.prev = pv then walk sv (some k) e.next rest
                  else none
      | none => none
    else none

/-- The predecessor after traversing `M` starting with predecessor
`pv`. -/
def prevOf (pv : Option VaultKey) (M : List VaultKey) : Option VaultKey :=
  match M.getLast? with
  | some k => some k
  | none => pv

/-- The links of `s.sorted_vaults` trace exactly the key sequence `L`
from `sorted_head` to `sorted_tail`. -/
def chainList (s : BranchState) (L : List VaultKey) : Prop :=
  walk s.sorted_vaults none s.sorted_head L = some (s.sorted_tail, none)

/-- The full sorted-list invariant of claim C6: some key sequence `L`
traces the links head-to-tail, has no duplicates, is ascending in the
stored interest rates, contains every active vault, and mentions only
keys with vault records. -/
def SortedInv (s : BranchState) : Prop :=
  ∃ L : List VaultKey,
    chainList s L ∧ L.Nodup ∧
    List.Chain' (fun a b => a ≤ b) (L.map (rateOf s.sorted_vaults)) ∧
    (∀ k, activeAt s k = true → k ∈ L) ∧
    (∀ k, k ∈ L → (alGet s.vaults k).isSome)

theorem prevOf_cons (pv : Option VaultKey) (k : VaultKey)
    (M : List VaultKey) : prevOf pv (k :: M) = prevOf (some k) M := by
  unfold prevOf
  cases hM : M.getLast? with
  | none =>
    have : M = [] := by
      cases M with
      | nil => rfl
      | cons a l => simp [List.getLast?_cons_cons] at hM
    subst this
    simp
  | some j =>
    have : (k :: M).getLast? = some j := by
      cases M with
      | nil => simp at hM
      | cons a l => rw [List.getLast?_cons_cons]; exact hM
    rw [this]

theorem walk_cons (sv : List (VaultKey × SortedVaultEntry))
    (pv cur : Option VaultKey) (k : VaultKey) (M : List VaultKey) :
    walk sv pv cur (k :: M)
      = if cur = some k then
          match alGet sv k with
          | some e => if e.prev = pv then walk sv (some k) e.next M
                      else none
          | none => none
        else none := rfl

theorem walk_append (sv : List (VaultKey × SortedVaultEntry))
    (B : List VaultKey) :
    ∀ (A : List VaultKey) (pv cur : Option VaultKey),
    walk sv pv cur (A ++ B)
      = match walk sv pv cur A with
        | some (p, c) => walk sv p c B
        | none => none := by
  intro A
  induction A with
  | nil => intro pv cur; rfl
  | cons k A ih =>
    intro pv cur
    show walk sv pv cur (k :: (A ++ B)) = _
    rw [walk_cons, walk_cons]
    by_cases hc : cur = some k
    · rw [if_pos hc, if_pos hc]
      cases he : alGet sv k with
      | none => rfl
      | some e =>
        dsimp only
        by_cases hp : e.prev = pv
        · rw [if_pos hp, if_pos hp]
          exact ih (some k) e.next
        · rw [if_neg hp, if_neg hp]
    · rw [if_neg hc, if_neg hc]

theorem walk_congr {sv1 sv2 : List (VaultKey × SortedVaultEntry)} :
    ∀ (M : List VaultKey) (pv cur : Option VaultKey),
    (∀ k, k ∈ M → alGet sv1 k = alGet sv2 k) →
    walk sv1 pv cur M = walk sv2 pv cur M := by
  intro M
  induction M with
  | nil => intro pv cur _; rfl
  | cons k M ih =>
    intro pv cur hall
    rw [walk_cons, walk_cons]
    by_cases hc : cur = some k
    · rw [if_pos hc, if_pos hc]
      rw [hall k (by simp)]
      cases he : alGet sv2 k with
      | none => rfl
      | some e =>
        dsimp only
        by_cases hp : e.prev = pv
        · rw [if_pos hp, if_pos hp]
          exact ih (some k) e.next (fun j hj => hall j (by simp [hj]))
        · rw [if_neg hp, if_neg hp]
    · rw [if_neg hc, if_neg hc]

theorem walk_last {sv : List (VaultKey × SortedVaultEntry)} :
    ∀ (M : List VaultKey) (pv cur p c : Option VaultKey),
    walk sv pv cur M = some (p, c) → p = prevOf pv M := by
  intro M
  induction M with
  | nil =>
    intro pv cur p c h
    have h2 : some (pv, cur) = some (p, c) := h
    injection h2 with h3
    injection h3 with h4 h5
    rw [← h4]
    rfl
  | cons k M ih =>
    intro pv cur p c h
    rw [walk_cons] at h
    by_cases hc : cur = some k
    · rw [if_pos hc] at h
      cases he : alGet sv k with
      | none => rw [he] at h; cases h
      | some e =>
        rw [he] at h
        dsimp only at h
        by_cases hp : e.prev = pv
        · rw [if_pos hp] at h
          rw [prevOf_cons]
          exact ih (some k) e.next p c h
        · rw [if_neg hp] at h; cases h
    · rw [if_neg hc] at h; cases h

theorem walk_mem {sv : List (VaultKey × SortedVaultEntry)} :
    ∀ (M : List VaultKey) (pv cur p c : Option VaultKey),
    walk sv pv cur M = some (p, c) →
    ∀ k, k ∈ M → (alGet sv k).isSome := by
  intro M
  induction M with
  | nil => intro pv cur p c _ k hk; cases hk
  | cons k0 M ih =>
    intro pv cur p c h k hk
    rw [walk_cons] at h
    by_cases hc : cur = some k0
    · rw [if_pos hc] at h
      cases he : alGet sv k0 with
      | none => rw [he] at h; cases h
      | some e =>
        rw [he] at h
        dsimp only at h
        by_cases hp : e.prev = pv
        · rw [if_pos hp] at h
          rcases List.mem_cons.mp hk with rfl | hk2
          · rw [he]; rfl
          · exact ih (some k0) e.next p c h k hk2
        · rw [if_neg hp] at h; cases h
    · rw [if_neg hc] at h; cases h

theorem walk_head {sv : List (VaultKey × SortedVaultEntry)}
    {M : List VaultKey} {k : VaultKey} {pv cur p c : Option VaultKey}
    (h : walk sv pv cur (k :: M) = some (p, c)) : cur = some k := by
  unfold walk at h
  split at h
  · assumption
  · cases h

/-- The scan loop of `insert_into_sorted_list`: walking a chain whose
prefix `M1` is strictly below the new rate and whose next node `j`
reaches it, the scan stops at `j` and splices the new key right before
it, updating the head exactly when `j` was the head. -/
theorem insert_scan_spec (sv : List (VaultKey × SortedVaultEntry))
    (x : VaultKey) (r : Nat) (oh : Option VaultKey) :
    ∀ (M1 : List VaultKey) (j : VaultKey) (M2 : List VaultKey)
      (pv cur p : Option VaultKey) (fuel : Nat),
    walk sv pv cur (M1 ++ j :: M2) = some (p, none) →
    (M1 ++ j :: M2).length < fuel →
    (∀ i, i ∈ M1 → rateOf sv i < r) →
    r ≤ rateOf sv j →
    x ∉ M1 ++ j :: M2 →
    (M1 ++ j :: M2).Nodup →
    (∀ k0, pv = some k0 → k0 ≠ x ∧ k0 ≠ j ∧ (alGet sv k0).isSome) →
    ∃ ej, alGet sv j = some ej ∧ ej.prev = prevOf pv M1 ∧
      ((ej.prev = none ∧
        BranchCspr.insert_scan sv x r oh cur fuel
          = some (alSet (alSet sv x ⟨x, r, none, some j⟩) j
              { ej with prev := some x }, some x)) ∨
       (∃ pk pe, ej.prev = some pk ∧ pk ≠ x ∧ pk ≠ j ∧
          alGet sv pk = some pe ∧
          BranchCspr.insert_scan sv x r oh cur fuel
            = some (alSet (alSet (alSet sv x ⟨x, r, some pk, some j⟩) j
                { ej with prev := some x }) pk
                { pe with next := some x }, oh))) := by
  intro M1
  induction M1 with
  | nil =>
    intro j M2 pv cur p fuel hw hfuel hlt hge hx hnd hpv
    rw [List.nil_append] at hw
    have hcur := walk_head hw
    subst hcur
    rw [walk_cons, if_pos rfl] at hw
    cases hej : alGet sv j with
    | none => rw [hej] at hw; cases hw
    | some ej =>
      rw [hej] at hw
      dsimp only at hw
      by_cases hp : ej.prev = pv
      · rw [if_pos hp] at hw
        have hge2 : r ≤ ej.interest_rate_bps := by
          have hr : rateOf sv j = ej.interest_rate_bps := by
            unfold rateOf
            rw [hej]
          rw [hr] at hge
          exact hge
        refine ⟨ej, rfl, by rw [hp]; rfl, ?_⟩
        cases fuel with
        | zero => omega
        | succ f =>
          cases hprev : ej.prev with
          | none =>
            refine Or.inl ⟨rfl, ?_⟩
            unfold BranchCspr.insert_scan
            rw [hej]
            dsimp only
            rw [if_pos hge2, hprev]
          | some pk =>
            have hpv2 : pv = some pk := by rw [← hp, hprev]
            obtain ⟨hne1, hne2, hsome⟩ := hpv pk hpv2
            cases hpe : alGet sv pk with
            | none => rw [hpe] at hsome; cases hsome
            | some pe =>
              refine Or.inr ⟨pk, pe, rfl, hne1, hne2, hpe, ?_⟩
              unfold BranchCspr.insert_scan
              rw [hej]
              dsimp only
              rw [if_pos hge2, hprev]
              dsimp only
              have hlook : alGet (alSet (alSet sv x
                  ⟨x, r, some pk, some j⟩) j { ej with prev := some x })
                  pk = some pe := by
                rw [alGet_alSet, if_neg (Ne.symm hne2), alGet_alSet,
                  if_neg (Ne.symm hne1)]
                exact hpe
              rw [hlook]
      · rw [if_neg hp] at hw; cases hw
  | cons k M1 ih =>
    intro j M2 pv cur p fuel hw hfuel hlt hge hx hnd hpv
    have hcur := walk_head hw
    subst hcur
    rw [List.cons_append] at hw hx hnd hfuel
    rw [walk_cons, if_pos rfl] at hw
    cases hek : alGet sv k with
    | none => rw [hek] at hw; cases hw
    | some ek =>
      rw [hek] at hw
      dsimp only at hw
      by_cases hp : ek.prev = pv
      · rw [if_pos hp] at hw
        have hltk : rateOf sv k < r := hlt k (by simp)
        have hratek : rateOf sv k = ek.interest_rate_bps := by
          unfold rateOf
          rw [hek]
        cases fuel with
        | zero => omega
        | succ f =>
          have hxt : x ∉ M1 ++ j :: M2 := by
            intro hm
            exact hx (List.mem_cons_of_mem k hm)
          have hndt := (List.nodup_cons.mp hnd).2
          have hknotin := (List.nodup_cons.mp hnd).1
          have hpv2 : ∀ k0, (some k : Option VaultKey) = some k0 →
              k0 ≠ x ∧ k0 ≠ j ∧ (alGet sv k0).isSome := by
            intro k0 hk0
            obtain rfl := Option.some.inj hk0
            refine ⟨?_, ?_, ?_⟩
            · intro hkx
              apply hx
              rw [hkx]
              exact List.mem_cons_self x _
            · intro hkj
              apply hknotin
              rw [hkj]
              exact List.mem_append_right M1 (List.mem_cons_self j M2)
            · rw [hek]; rfl
          have hfuel2 : (M1 ++ j :: M2).length < f := by
            rw [List.length_cons] at hfuel
            omega
          have hres := ih j M2 (some k) ek.next p f hw hfuel2
            (fun i hi => hlt i (List.mem_cons_of_mem k hi)) hge hxt
            hndt hpv2
          obtain ⟨ej, hej, hejprev, hcase⟩ := hres
          refine ⟨ej, hej, ?_, ?_⟩
          · rw [prevOf_cons]
            exact hejprev
          · have hstep : BranchCspr.insert_scan sv x r oh (some k)
                (f + 1) = BranchCspr.insert_scan sv x r oh ek.next f := by
              conv_lhs => unfold BranchCspr.insert_scan
              rw [hek]
              dsimp only
              rw [if_neg (by rw [← hratek]; omega)]
            rw [hstep]
            exact hcase
      · rw [if_neg hp] at hw; cases hw

/-- The scan returns `none` (and the caller appends at the tail) when
every chained rate is strictly below the new rate. -/
theorem insert_scan_none (sv : List (VaultKey × SortedVaultEntry))
    (x : VaultKey) (r : Nat) (oh : Option VaultKey) :
    ∀ (M : List VaultKey) (pv cur p : Option VaultKey) (fuel : Nat),
    walk sv pv cur M = some (p, none) →
    (∀ i, i ∈ M → rateOf sv i < r) →
    BranchCspr.insert_scan sv x r oh cur fuel = none := by
  intro M
  induction M with
  | nil =>
    intro pv cur p fuel hw _
    have h2 : some (pv, cur) = some (p, none) := hw
    injection h2 with h3
    injection h3 with h4 h5
    rw [h5]
    cases fuel <;> rfl
  | cons k M ih =>
    intro pv cur p fuel hw hall
    have hcur := walk_head hw
    subst hcur
    rw [walk_cons, if_pos rfl] at hw
    cases hek : alGet sv k with
    | none => rw [hek] at hw; cases hw
    | some ek =>
      rw [hek] at hw
      dsimp only at hw
      by_cases hp : ek.prev = pv
      · rw [if_pos hp] at hw
        have hratek : rateOf sv k = ek.interest_rate_bps := by
          unfold rateOf
          rw [hek]
        have hltk : rateOf sv k < r := hall k (List.mem_cons_self k M)
        cases fuel with
        | zero => rfl
        | succ f =>
          have htail := ih (some k) ek.next p f hw
            (fun i hi => hall i (List.mem_cons_of_mem k hi))
          conv_lhs => unfold BranchCspr.insert_scan
          rw [hek]
          dsimp only
          rw [if_neg (by rw [← hratek]; omega)]
          exact htail
      · rw [if_neg hp] at hw; cases hw

theorem alGet_isSome_mem {κ α : Type} [DecidableEq κ] :
    ∀ (m : List (κ × α)) (k : κ), (alGet m k).isSome → k ∈ m.map Prod.fst := by
  intro m
  induction m with
  | nil => intro k h; simp [alGet] at h
  | cons kv rest ih =>
    intro k h
    by_cases hk : kv.1 = k
    · rw [List.map_cons, hk]
      exact List.mem_cons_self k _
    · have : alGet rest k = alGet (kv :: rest) k := by
        obtain ⟨k0, v0⟩ := kv
        simp [alGet] at hk ⊢
        rw [if_neg hk]
      rw [← this] at h
      exact List.mem_cons_of_mem _ (ih k h)

/-- A duplicate-free list of keys that all resolve in `sv` is no longer
than `sv`. -/
theorem nodup_keys_length {sv : List (VaultKey × SortedVaultEntry)}
    (L : List VaultKey) (hnd : L.Nodup)
    (hmem : ∀ k, k ∈ L → (alGet sv k).isSome) :
    L.length ≤ sv.length := by
  have hsub : L ⊆ sv.map Prod.fst := by
    intro k hk
    exact alGet_isSome_mem sv k (hmem k hk)
  have := (List.subperm_of_subset hnd hsub).length_le
  rw [List.length_map] at this
  exact this

theorem chainList_nil {s : BranchState} (hc : chainList s []) :
    s.sorted_head = none ∧ s.sorted_tail = none := by
  unfold chainList at hc
  have h2 : some ((none : Option VaultKey), s.sorted_head)
      = some (s.sorted_tail, none) := hc
  injection h2 with h3
  injection h3 with h4 h5
  exact ⟨h5, h4.symm⟩

theorem mem_takeWhile_rate (sv : List (VaultKey × SortedVaultEntry))
    (r : Nat) :
    ∀ (L : List VaultKey) (i : VaultKey),
    i ∈ L.takeWhile (fun j => decide (rateOf sv j < r)) →
    rateOf sv i < r := by
  intro L
  induction L with
  | nil => intro i hi; cases hi
  | cons a L ih =>
    intro i hi
    rw [List.takeWhile_cons] at hi
    by_cases ha : rateOf sv a < r
    · rw [if_pos (decide_eq_true ha)] at hi
      rcases List.mem_cons.mp hi with rfl | h2
      · exact ha
      · exact ih i h2
    · rw [if_neg (by simp [ha])] at hi
      cases hi

/-- `insert_into_sorted_list` splices the new key exactly before the
first chained entry whose rate is `≥ r` (appending at the tail when
there is none), so the chain key sequence becomes
`takeWhile (rate < r) ++ new :: dropWhile (rate < r)`, and it assigns
rate `r` to the new entry while leaving every other entry's rate
unchanged. -/
theorem insert_spec (s : BranchState) (x : VaultKey) (r : Nat)
    (L : List VaultKey) (hc : chainList s L) (hnd : L.Nodup)
    (hx : x ∉ L) :
    chainList (BranchCspr.insert_into_sorted_list s x r)
      (L.takeWhile (fun j => decide (rateOf s.sorted_vaults j < r))
        ++ x ::
       L.dropWhile (fun j => decide (rateOf s.sorted_vaults j < r))) ∧
    rateOf (BranchCspr.insert_into_sorted_list s x r).sorted_vaults x
      = r ∧
    (∀ k, k ≠ x →
      rateOf (BranchCspr.insert_into_sorted_list s x r).sorted_vaults k
        = rateOf s.sorted_vaults k) := by
  have hmem : ∀ k, k ∈ L → (alGet s.sorted_vaults k).isSome :=
    walk_mem L none s.sorted_head s.sorted_tail none hc
  have hlenL : L.length ≤ s.sorted_vaults.length :=
    nodup_keys_length L hnd hmem
  have hsplit := List.takeWhile_append_dropWhile
    (fun j => decide (rateOf s.sorted_vaults j < r)) L
  cases hD : L.dropWhile (fun j => decide (rateOf s.sorted_vaults j < r))
    with
  | nil =>
    rw [hD, List.append_nil] at hsplit
    -- every chained rate is strictly below r: append at the tail
    have hall : ∀ i, i ∈ L → rateOf s.sorted_vaults i < r := by
      intro i hi
      rw [← hsplit] at hi
      exact mem_takeWhile_rate s.sorted_vaults r L i hi
    cases hL : L with
    | nil =>
      subst hL
      obtain ⟨hh, ht⟩ := chainList_nil hc
      have hins : BranchCspr.insert_into_sorted_list s x r
          = { s with sorted_vaults := (alSet s.sorted_vaults x ⟨x, r, none, none⟩), sorted_head := some x, sorted_tail := some x } := by
        unfold BranchCspr.insert_into_sorted_list
        rw [hh]
      rw [hins]
      simp only [List.takeWhile_nil]
      refine ⟨?_, ?_, ?_⟩
      · show walk _ none (some x) [x] = some (some x, none)
        rw [walk_cons, if_pos rfl, alGet_alSet_self]
        dsimp only
        rw [if_pos rfl]
        rfl
      · show rateOf (alSet s.sorted_vaults x ⟨x, r, none, none⟩) x = r
        unfold rateOf
        rw [alGet_alSet_self]
      · intro k hk
        show rateOf (alSet s.sorted_vaults x ⟨x, r, none, none⟩) k = _
        unfold rateOf
        rw [alGet_alSet, if_neg (Ne.symm hk)]
    | cons h L0 =>
      rw [← hL]
      have hhead : s.sorted_head = some h :=
        walk_head (show walk s.sorted_vaults none s.sorted_head
          (h :: L0) = some (s.sorted_tail, none) from hL ▸ hc)
      have hcw : walk s.sorted_vaults none (some h) L
          = some (s.sorted_tail, none) := by
        rw [← hhead]
        exact hc
      have hscan := insert_scan_none s.sorted_vaults x r (some h) L none
        (some h) s.sorted_tail (s.sorted_vaults.length + 1) hcw hall
      -- the tail is the last element of L
      have htl : s.sorted_tail = prevOf none L :=
        walk_last L none s.sorted_head s.sorted_tail none hc
      cases hgl : L.getLast? with
      | none =>
        rw [hL] at hgl
        simp at hgl
      | some tk =>
        have htk : s.sorted_tail = some tk := by
          rw [htl]
          unfold prevOf
          rw [hgl]
        obtain ⟨L0', hL0'⟩ := List.getLast?_eq_some_iff.mp hgl
        -- the last entry: resolve it and its exit cursor
        have hcw2 := hcw
        rw [hL0', walk_append] at hcw2
        cases hw0 : walk s.sorted_vaults none (some h) L0' with
        | none => rw [hw0] at hcw2; cases hcw2
        | some pc =>
          obtain ⟨p0, c0⟩ := pc
          rw [hw0] at hcw2
          dsimp only at hcw2
          have hc0 := walk_head hcw2
          subst hc0
          rw [walk_cons, if_pos rfl] at hcw2
          cases hetk : alGet s.sorted_vaults tk with
          | none => rw [hetk] at hcw2; cases hcw2
          | some etk =>
            rw [hetk] at hcw2
            dsimp only at hcw2
            by_cases hp0 : etk.prev = p0
            · rw [if_pos hp0] at hcw2
              have h2 : some ((some tk : Option VaultKey), etk.next)
                  = some (s.sorted_tail, none) := hcw2
              injection h2 with h3
              injection h3 with h4 h5
              -- h5 : etk.next = none
              have hins : BranchCspr.insert_into_sorted_list s x r
                  = { s with sorted_vaults := (alSet (alSet s.sorted_vaults x ⟨x, r, some tk, none⟩) tk ({ etk with next := some x })), sorted_tail := some x } := by
                unfold BranchCspr.insert_into_sorted_list
                rw [hhead]
                dsimp only
                rw [hscan]
                dsimp only
                rw [htk]
                dsimp only
                rw [hetk]
              have hxtk : x ≠ tk := by
                intro he
                apply hx
                rw [he, hL0']
                exact List.mem_append_right L0' (List.mem_cons_self tk [])
              have hndL' : tk ∉ L0' := by
                rw [hL0'] at hnd
                have := List.disjoint_of_nodup_append hnd
                intro hmem2
                exact this hmem2 (List.mem_cons_self tk [])
              rw [hsplit, hins]
              refine ⟨?_, ?_, ?_⟩
              · show walk _ none s.sorted_head (L ++ [x])
                  = some (some x, none)
                rw [hL0', List.append_assoc]
                rw [walk_append]
                have hw0' : walk (alSet (alSet s.sorted_vaults x
                    ⟨x, r, some tk, none⟩) tk
                    { etk with next := some x }) none s.sorted_head L0'
                    = some (p0, some tk) := by
                  rw [walk_congr L0' none s.sorted_head ?_, hhead]
                  · exact hw0
                  · intro k hk
                    have hkx : k ≠ x := by
                      intro he
                      apply hx
                      rw [← he, hL0']
                      exact List.mem_append_left _ hk
                    have hktk : k ≠ tk := by
                      intro he
                      exact hndL' (he ▸ hk)
                    rw [alGet_alSet, if_neg (Ne.symm hktk),
                      alGet_alSet, if_neg (Ne.symm hkx)]
                rw [hw0']
                dsimp only
                rw [show (([tk] ++ [x]) : List VaultKey) = tk :: [x]
                  from rfl]
                rw [walk_cons, if_pos rfl]
                rw [show alGet (alSet (alSet s.sorted_vaults x
                    ⟨x, r, some tk, none⟩) tk
                    { etk with next := some x }) tk
                  = some { etk with next := some x } from
                  alGet_alSet_self ..]
                dsimp only
                rw [if_pos hp0]
                rw [walk_cons, if_pos rfl]
                rw [show alGet (alSet (alSet s.sorted_vaults x
                    ⟨x, r, some tk, none⟩) tk
                    { etk with next := some x }) x
                  = some ⟨x, r, some tk, none⟩ from by
                  rw [alGet_alSet, if_neg (Ne.symm hxtk), alGet_alSet_self]]
                dsimp only
                rw [if_pos rfl]
                rfl
              · unfold rateOf
                rw [alGet_alSet, if_neg (Ne.symm hxtk), alGet_alSet_self]
              · intro k hk
                unfold rateOf
                by_cases hktk : k = tk
                · subst hktk
                  rw [alGet_alSet_self, hetk]
                · rw [alGet_alSet, if_neg (Ne.symm hktk), alGet_alSet,
                    if_neg (Ne.symm hk)]
            · rw [if_neg hp0] at hcw2; cases hcw2
  | cons j D0 =>
    rw [hD] at hsplit
    have hallA : ∀ i, i ∈ L.takeWhile
        (fun j => decide (rateOf s.sorted_vaults j < r)) →
        rateOf s.sorted_vaults i < r :=
      mem_takeWhile_rate s.sorted_vaults r L
    have hrj : r ≤ rateOf s.sorted_vaults j := by
      have hh := List.head?_dropWhile_not
        (fun j => decide (rateOf s.sorted_vaults j < r)) L
      rw [hD] at hh
      simp only [List.head?_cons] at hh
      have := of_decide_eq_false hh
      omega
    have hjL : j ∈ L := by
      rw [← hsplit]
      exact List.mem_append_right _ (List.mem_cons_self j D0)
    have hxj : x ≠ j := fun he => hx (he ▸ hjL)
    have hD0L : ∀ k, k ∈ D0 → k ∈ L := by
      intro k hk
      rw [← hsplit]
      exact List.mem_append_right _ (List.mem_cons_of_mem j hk)
    have hAL : ∀ k, k ∈ L.takeWhile
        (fun j => decide (rateOf s.sorted_vaults j < r)) → k ∈ L := by
      intro k hk
      rw [← hsplit]
      exact List.mem_append_left _ hk
    obtain ⟨h, L0, hL⟩ : ∃ h L0, L = h :: L0 := by
      cases hLc : L with
      | nil => rw [hLc] at hsplit; simp at hsplit
      | cons a b => exact ⟨a, b, rfl⟩
    have hhead : s.sorted_head = some h :=
      walk_head (show walk s.sorted_vaults none s.sorted_head (h :: L0)
        = some (s.sorted_tail, none) from hL ▸ hc)
    have hcw : walk s.sorted_vaults none (some h)
        (L.takeWhile (fun j => decide (rateOf s.sorted_vaults j < r))
          ++ j :: D0) = some (s.sorted_tail, none) := by
      rw [hsplit, ← hhead]
      exact hc
    have hfuel : (L.takeWhile
        (fun j => decide (rateOf s.sorted_vaults j < r))
          ++ j :: D0).length < s.sorted_vaults.length + 1 := by
      rw [hsplit]
      omega
    have hxA : x ∉ L.takeWhile
        (fun j => decide (rateOf s.sorted_vaults j < r)) ++ j :: D0 := by
      rw [hsplit]
      exact hx
    have hndA : (L.takeWhile
        (fun j => decide (rateOf s.sorted_vaults j < r))
          ++ j :: D0).Nodup := by
      rw [hsplit]
      exact hnd
    have hspec := insert_scan_spec s.sorted_vaults x r (some h) _ j D0
      none (some h) s.sorted_tail (s.sorted_vaults.length + 1)
      hcw hfuel hallA hrj hxA hndA
      (fun k0 h0 => Option.noConfusion h0)
    obtain ⟨ej, hej, hejprev, hcase⟩ := hspec
    have hdisj := List.disjoint_of_nodup_append hndA
    have hjD0 : j ∉ D0 := by
      have := List.Nodup.of_append_right hndA
      exact (List.nodup_cons.mp this).1
    have hcwA := hcw
    rw [walk_append] at hcwA
    cases hwA : walk s.sorted_vaults none (some h)
        (L.takeWhile (fun j => decide (rateOf s.sorted_vaults j < r)))
      with
    | none => rw [hwA] at hcwA; cases hcwA
    | some pcA =>
      obtain ⟨pA, cA⟩ := pcA
      rw [hwA] at hcwA
      dsimp only at hcwA
      have hcA := walk_head hcwA
      subst hcA
      rw [walk_cons, if_pos rfl, hej] at hcwA
      dsimp only at hcwA
      by_cases hpj : ej.prev = pA
      · rw [if_pos hpj] at hcwA
        rcases hcase with ⟨hprevnone, hscaneq⟩ |
          ⟨pk, pe, hprevpk, hpkx, hpkj, hpe, hscaneq⟩
        · -- the new entry becomes the head
          have hAnil : L.takeWhile
              (fun j => decide (rateOf s.sorted_vaults j < r)) = [] := by
            cases hAc : L.takeWhile
                (fun j => decide (rateOf s.sorted_vaults j < r)) with
            | nil => rfl
            | cons a A0 =>
              rw [hprevnone] at hejprev
              unfold prevOf at hejprev
              rw [hAc] at hejprev
              cases hgl2 : (a :: A0).getLast? with
              | none => simp at hgl2
              | some g => rw [hgl2] at hejprev; cases hejprev
          have hins : BranchCspr.insert_into_sorted_list s x r
              = { s with sorted_vaults := (alSet (alSet s.sorted_vaults x ⟨x, r, none, some j⟩) j ({ ej with prev := some x })), sorted_head := some x } := by
            unfold BranchCspr.insert_into_sorted_list
            rw [hhead]
            dsimp only
            rw [hscaneq]
          rw [hins, hAnil]
          refine ⟨?_, ?_, ?_⟩
          · show walk _ none (some x) ([] ++ x :: j :: D0)
              = some (s.sorted_tail, none)
            rw [List.nil_append]
            rw [walk_cons, if_pos rfl, alGet_alSet,
              if_neg (Ne.symm hxj), alGet_alSet_self]
            dsimp only
            rw [if_pos rfl]
            rw [walk_cons, if_pos rfl, alGet_alSet_self]
            dsimp only
            rw [if_pos rfl]
            refine (walk_congr D0 (some j) ej.next ?_).trans hcwA
            intro k hk
            have hkj : k ≠ j := fun he => hjD0 (he ▸ hk)
            have hkx : k ≠ x := fun he => hx (he ▸ hD0L k hk)
            rw [alGet_alSet, if_neg (Ne.symm hkj), alGet_alSet,
              if_neg (Ne.symm hkx)]
          · unfold rateOf
            rw [alGet_alSet, if_neg (Ne.symm hxj), alGet_alSet_self]
          · intro k hk
            unfold rateOf
            by_cases hkj : k = j
            · subst hkj
              rw [alGet_alSet_self, hej]
            · rw [alGet_alSet, if_neg (Ne.symm hkj), alGet_alSet,
                if_neg (Ne.symm hk)]
        · -- the new entry is spliced after pk, the head is unchanged
          have hglA : (L.takeWhile
              (fun j => decide (rateOf s.sorted_vaults j < r))).getLast?
              = some pk := by
            have h1 : (some pk : Option VaultKey) = prevOf none
                (L.takeWhile
                  (fun j => decide (rateOf s.sorted_vaults j < r))) := by
              rw [← hprevpk, hejprev]
            unfold prevOf at h1
            cases hglA2 : (L.takeWhile
                (fun j => decide (rateOf s.sorted_vaults j < r))).getLast?
              with
            | none => rw [hglA2] at h1; cases h1
            | some g => rw [hglA2] at h1; exact h1.symm
          obtain ⟨A0, hA0⟩ := List.getLast?_eq_some_iff.mp hglA
          have hpkA : pk ∈ L.takeWhile
              (fun j => decide (rateOf s.sorted_vaults j < r)) := by
            rw [hA0]
            exact List.mem_append_right _ (List.mem_cons_self pk [])
          have hpkA0 : pk ∉ A0 := by
            have hndTW := List.Nodup.of_append_left hndA
            rw [hA0] at hndTW
            have := List.disjoint_of_nodup_append hndTW
            intro hm
            exact this hm (List.mem_cons_self pk [])
          have hwA2 := hwA
          rw [hA0, walk_append] at hwA2
          cases hw00 : walk s.sorted_vaults none (some h) A0 with
          | none => rw [hw00] at hwA2; cases hwA2
          | some pc0 =>
            obtain ⟨p00, c00⟩ := pc0
            rw [hw00] at hwA2
            dsimp only at hwA2
            have hc00 := walk_head hwA2
            subst hc00
            rw [walk_cons, if_pos rfl, hpe] at hwA2
            dsimp only at hwA2
            by_cases hppk : pe.prev = p00
            · rw [if_pos hppk] at hwA2
              have h2 : some ((some pk : Option VaultKey), pe.next)
                  = some (pA, some j) := hwA2
              injection h2 with h3
              injection h3 with h4 h5
              have hins : BranchCspr.insert_into_sorted_list s x r
                  = { s with sorted_vaults := (alSet (alSet (alSet s.sorted_vaults x ⟨x, r, some pk, some j⟩) j ({ ej with prev := some x })) pk ({ pe with next := some x })), sorted_head := some h } := by
                unfold BranchCspr.insert_into_sorted_list
                rw [hhead]
                dsimp only
                rw [hscaneq]
              rw [hins, hA0]
              refine ⟨?_, ?_, ?_⟩
              · show walk _ none (some h)
                  ((A0 ++ [pk]) ++ x :: j :: D0)
                  = some (s.sorted_tail, none)
                rw [List.append_assoc, walk_append]
                have hw00' : walk (alSet (alSet (alSet s.sorted_vaults x
                    ⟨x, r, some pk, some j⟩) j ({ ej with prev := some x }))
                    pk ({ pe with next := some x })) none (some h) A0
                    = some (p00, some pk) := by
                  refine (walk_congr A0 none (some h) ?_).trans hw00
                  intro k hk
                  have hkA : k ∈ L.takeWhile
                      (fun j => decide (rateOf s.sorted_vaults j < r)) := by
                    rw [hA0]
                    exact List.mem_append_left _ hk
                  have hkpk : k ≠ pk := fun he => hpkA0 (he ▸ hk)
                  have hkj : k ≠ j := fun he =>
                    hdisj (he ▸ hkA) (List.mem_cons_self j D0)
                  have hkx : k ≠ x := fun he => hx (he ▸ hAL k hkA)
                  rw [alGet_alSet, if_neg (Ne.symm hkpk), alGet_alSet,
                    if_neg (Ne.symm hkj), alGet_alSet,
                    if_neg (Ne.symm hkx)]
                rw [hw00']
                dsimp only
                rw [show (([pk] ++ x :: j :: D0) : List VaultKey)
                  = pk :: x :: j :: D0 from rfl]
                rw [walk_cons, if_pos rfl, alGet_alSet_self]
                dsimp only
                rw [if_pos hppk]
                rw [walk_cons, if_pos rfl, alGet_alSet,
                  if_neg hpkx, alGet_alSet, if_neg (Ne.symm hxj),
                  alGet_alSet_self]
                dsimp only
                rw [if_pos rfl]
                rw [walk_cons, if_pos rfl, alGet_alSet,
                  if_neg hpkj, alGet_alSet_self]
                dsimp only
                rw [if_pos rfl]
                refine (walk_congr D0 (some j) ej.next ?_).trans hcwA
                intro k hk
                have hkj : k ≠ j := fun he => hjD0 (he ▸ hk)
                have hkx : k ≠ x := fun he => hx (he ▸ hD0L k hk)
                have hkpk : k ≠ pk := by
                  intro he
                  exact hdisj (he ▸ hpkA) (List.mem_cons_of_mem j hk)
                rw [alGet_alSet, if_neg (Ne.symm hkpk), alGet_alSet,
                  if_neg (Ne.symm hkj), alGet_alSet,
                  if_neg (Ne.symm hkx)]
              · unfold rateOf
                rw [alGet_alSet, if_neg hpkx, alGet_alSet,
                  if_neg (Ne.symm hxj), alGet_alSet_self]
              · intro k hk
                unfold rateOf
                by_cases hkpk : k = pk
                · subst hkpk
                  rw [alGet_alSet_self, hpe]
                · by_cases hkj : k = j
                  · subst hkj
                    rw [alGet_alSet, if_neg (Ne.symm hkpk),
                      alGet_alSet_self, hej]
                  · rw [alGet_alSet, if_neg (Ne.symm hkpk), alGet_alSet,
                      if_neg (Ne.symm hkj), alGet_alSet,
                      if_neg (Ne.symm hk)]
            · rw [if_neg hppk] at hwA2; cases hwA2
      · rw [if_neg hpj] at hcwA; cases hcwA

/-- `remove_from_sorted_list` unlinks exactly the removed key from the
chain sequence and leaves every other entry's rate unchanged. -/
theorem remove_spec (s : BranchState) (k : VaultKey)
    (A B : List VaultKey)
    (hc : chainList s (A ++ k :: B)) (hnd : (A ++ k :: B).Nodup) :
    chainList (BranchCspr.remove_from_sorted_list s k) (A ++ B) ∧
    (∀ i, i ≠ k →
      rateOf (BranchCspr.remove_from_sorted_list s k).sorted_vaults i
        = rateOf s.sorted_vaults i) := by
  have hcw : walk s.sorted_vaults none s.sorted_head (A ++ k :: B)
      = some (s.sorted_tail, none) := hc
  have hkA : k ∉ A := by
    intro hm
    exact List.disjoint_of_nodup_append hnd hm (List.mem_cons_self k B)
  have hkB : k ∉ B :=
    (List.nodup_cons.mp (List.Nodup.of_append_right hnd)).1
  have hBL : ∀ i, i ∈ B → i ∈ A ++ k :: B := fun i hi =>
    List.mem_append_right A (List.mem_cons_of_mem k hi)
  have hAL : ∀ i, i ∈ A → i ∈ A ++ k :: B := fun i hi =>
    List.mem_append_left _ hi
  rw [walk_append] at hcw
  cases hwA : walk s.sorted_vaults none s.sorted_head A with
  | none => rw [hwA] at hcw; cases hcw
  | some pcA =>
    obtain ⟨pA, cA⟩ := pcA
    rw [hwA] at hcw
    dsimp only at hcw
    have hcA := walk_head hcw
    subst hcA
    rw [walk_cons, if_pos rfl] at hcw
    cases hek : alGet s.sorted_vaults k with
    | none => rw [hek] at hcw; cases hcw
    | some ek =>
      rw [hek] at hcw
      dsimp only at hcw
      by_cases hpk0 : ek.prev = pA
      case neg => rw [if_neg hpk0] at hcw; cases hcw
      case pos =>
      rw [if_pos hpk0] at hcw
      have hpA : pA = prevOf none A :=
        walk_last A none s.sorted_head pA (some k) hwA
      cases hB : B with
      | nil =>
        -- k is the tail
        subst hB
        have h2 : some ((some k : Option VaultKey), ek.next)
            = some (s.sorted_tail, none) := hcw
        injection h2 with h3
        injection h3 with h4 h5
        cases hAc : A with
        | nil =>
          -- k is also the head: the list becomes empty
          subst hAc
          have hh : s.sorted_head = some k := walk_head (by
            rw [List.nil_append] at hc
            exact hc)
          have hpnone : ek.prev = none := by
            rw [hpk0, hpA]
            rfl
          have hins : BranchCspr.remove_from_sorted_list s k
              = { s with sorted_vaults := (alSet s.sorted_vaults k ⟨k, 0, none, none⟩), sorted_head := none, sorted_tail := none } := by
            unfold BranchCspr.remove_from_sorted_list
            rw [hek]
            dsimp only
            rw [hpnone]
            dsimp only
            rw [h5]
          rw [hins]
          refine ⟨?_, ?_⟩
          · show walk _ none none ([] ++ []) = some (none, none)
            rfl
          · intro i hi
            unfold rateOf
            rw [alGet_alSet, if_neg (Ne.symm hi)]
        | cons a A1 =>
          -- a proper predecessor pk becomes the tail
          cases hgl : (a :: A1).getLast? with
          | none => simp at hgl
          | some pk =>
            obtain ⟨A0, hA0⟩ := List.getLast?_eq_some_iff.mp hgl
            have hpsome : ek.prev = some pk := by
              rw [hpk0, hpA, hAc]
              unfold prevOf
              rw [hgl]
            rw [hAc] at hwA hkA hAL
            rw [hA0] at hwA
            have hpkA : pk ∈ a :: A1 := by
              rw [hA0]
              exact List.mem_append_right _ (List.mem_cons_self pk [])
            have hpkk : pk ≠ k := fun he => hkA (he ▸ hpkA)
            have hpkA0 : pk ∉ A0 := by
              have hndA : (a :: A1).Nodup := by
                rw [← hAc]
                exact List.Nodup.of_append_left hnd
              rw [hA0] at hndA
              intro hm
              exact List.disjoint_of_nodup_append hndA hm
                (List.mem_cons_self pk [])
            rw [walk_append] at hwA
            cases hw00 : walk s.sorted_vaults none s.sorted_head A0 with
            | none => rw [hw00] at hwA; cases hwA
            | some pc0 =>
              obtain ⟨p00, c00⟩ := pc0
              rw [hw00] at hwA
              dsimp only at hwA
              have hc00 := walk_head hwA
              subst hc00
              rw [walk_cons, if_pos rfl] at hwA
              cases hpe : alGet s.sorted_vaults pk with
              | none => rw [hpe] at hwA; cases hwA
              | some pe =>
                rw [hpe] at hwA
                dsimp only at hwA
                by_cases hppk : pe.prev = p00
                case neg => rw [if_neg hppk] at hwA; cases hwA
                case pos =>
                rw [if_pos hppk] at hwA
                have h6 : some ((some pk : Option VaultKey), pe.next)
                    = some (pA, some k) := hwA
                injection h6 with h7
                injection h7 with h8 h9
                have hins : BranchCspr.remove_from_sorted_list s k
                    = { s with sorted_vaults := (alSet (alSet s.sorted_vaults pk ({ pe with next := none })) k ⟨k, 0, none, none⟩), sorted_tail := some pk } := by
                  unfold BranchCspr.remove_from_sorted_list
                  rw [hek]
                  dsimp only
                  rw [hpsome]
                  dsimp only
                  rw [hpe]
                  dsimp only
                  rw [h5]
                rw [hins, hA0]
                refine ⟨?_, ?_⟩
                · show walk _ none s.sorted_head ((A0 ++ [pk]) ++ [])
                    = some (some pk, none)
                  rw [List.append_nil, walk_append]
                  have hw00' : walk (alSet (alSet s.sorted_vaults pk
                      ({ pe with next := none })) k ⟨k, 0, none, none⟩)
                      none s.sorted_head A0 = some (p00, some pk) := by
                    refine (walk_congr A0 none s.sorted_head ?_).trans
                      hw00
                    intro i hi
                    have hiA : i ∈ a :: A1 := by
                      rw [hA0]
                      exact List.mem_append_left _ hi
                    have hik : i ≠ k := fun he => hkA (he ▸ hiA)
                    have hipk : i ≠ pk := fun he => hpkA0 (he ▸ hi)
                    rw [alGet_alSet, if_neg (Ne.symm hik), alGet_alSet,
                      if_neg (Ne.symm hipk)]
                  rw [hw00']
                  dsimp only
                  rw [walk_cons, if_pos rfl, alGet_alSet,
                    if_neg (Ne.symm hpkk), alGet_alSet_self]
                  dsimp only
                  rw [if_pos hppk]
                  rfl
                · intro i hi
                  unfold rateOf
                  by_cases hipk : i = pk
                  · subst hipk
                    rw [alGet_alSet, if_neg (Ne.symm hi),
                      alGet_alSet_self, hpe]
                  · rw [alGet_alSet, if_neg (Ne.symm hi), alGet_alSet,
                      if_neg (Ne.symm hipk)]
      | cons b B' =>
        -- k has a successor b
        subst hB
        have hcB : ek.next = some b := walk_head hcw
        rw [hcB, walk_cons, if_pos rfl] at hcw
        cases heb : alGet s.sorted_vaults b with
        | none => rw [heb] at hcw; cases hcw
        | some eb =>
          rw [heb] at hcw
          dsimp only at hcw
          by_cases hpb : eb.prev = some k
          case neg => rw [if_neg hpb] at hcw; cases hcw
          case pos =>
          rw [if_pos hpb] at hcw
          have hbk : b ≠ k := fun he => hkB (by
            rw [← he]
            exact List.mem_cons_self b B')
          have hbB' : b ∉ B' :=
            (List.nodup_cons.mp
              (List.nodup_cons.mp (List.Nodup.of_append_right hnd)).2).1
          have hbA : b ∉ A := by
            intro hm
            exact List.disjoint_of_nodup_append hnd hm
              (List.mem_cons_of_mem k (List.mem_cons_self b B'))
          have hdisjL := List.disjoint_of_nodup_append hnd
          cases hAc : A with
          | nil =>
            subst hAc
            have hpnone : ek.prev = none := by
              rw [hpk0, hpA]
              rfl
            have hins : BranchCspr.remove_from_sorted_list s k
                = { s with sorted_vaults := (alSet (alSet s.sorted_vaults b ({ eb with prev := none })) k ⟨k, 0, none, none⟩), sorted_head := some b } := by
              unfold BranchCspr.remove_from_sorted_list
              rw [hek]
              dsimp only
              rw [hpnone]
              dsimp only
              rw [hcB]
              dsimp only
              rw [heb]
            rw [hins]
            refine ⟨?_, ?_⟩
            · show walk _ none (some b) ([] ++ b :: B')
                = some (s.sorted_tail, none)
              rw [List.nil_append, walk_cons, if_pos rfl, alGet_alSet,
                if_neg (Ne.symm hbk), alGet_alSet_self]
              dsimp only
              rw [if_pos rfl]
              refine (walk_congr B' (some b) eb.next ?_).trans hcw
              intro i hi
              have hik : i ≠ k := fun he => hkB (by
                rw [← he]
                exact List.mem_cons_of_mem b hi)
              have hib : i ≠ b := fun he => hbB' (he ▸ hi)
              rw [alGet_alSet, if_neg (Ne.symm hik), alGet_alSet,
                if_neg (Ne.symm hib)]
            · intro i hi
              unfold rateOf
              by_cases hib : i = b
              · subst hib
                rw [alGet_alSet, if_neg (Ne.symm hi), alGet_alSet_self,
                  heb]
              · rw [alGet_alSet, if_neg (Ne.symm hi), alGet_alSet,
                  if_neg (Ne.symm hib)]
          | cons a A1 =>
            cases hgl : (a :: A1).getLast? with
            | none => simp at hgl
            | some pk =>
              obtain ⟨A0, hA0⟩ := List.getLast?_eq_some_iff.mp hgl
              have hpsome : ek.prev = some pk := by
                rw [hpk0, hpA, hAc]
                unfold prevOf
                rw [hgl]
              rw [hAc] at hwA hkA hbA
              rw [hA0] at hwA
              have hpkA : pk ∈ a :: A1 := by
                rw [hA0]
                exact List.mem_append_right _ (List.mem_cons_self pk [])
              have hpkk : pk ≠ k := fun he => hkA (he ▸ hpkA)
              have hpkb : pk ≠ b := fun he => hbA (he ▸ hpkA)
              have hpkA0 : pk ∉ A0 := by
                have hndA : (a :: A1).Nodup := by
                  rw [← hAc]
                  exact List.Nodup.of_append_left hnd
                rw [hA0] at hndA
                intro hm
                exact List.disjoint_of_nodup_append hndA hm
                  (List.mem_cons_self pk [])
              rw [walk_append] at hwA
              cases hw00 : walk s.sorted_vaults none s.sorted_head A0
                with
              | none => rw [hw00] at hwA; cases hwA
              | some pc0 =>
                obtain ⟨p00, c00⟩ := pc0
                rw [hw00] at hwA
                dsimp only at hwA
                have hc00 := walk_head hwA
                subst hc00
                rw [walk_cons, if_pos rfl] at hwA
                cases hpe : alGet s.sorted_vaults pk with
                | none => rw [hpe] at hwA; cases hwA
                | some pe =>
                  rw [hpe] at hwA
                  dsimp only at hwA
                  by_cases hppk : pe.prev = p00
                  case neg => rw [if_neg hppk] at hwA; cases hwA
                  case pos =>
                  rw [if_pos hppk] at hwA
                  have h6 : some ((some pk : Option VaultKey), pe.next)
                      = some (pA, some k) := hwA
                  injection h6 with h7
                  injection h7 with h8 h9
                  have hins : BranchCspr.remove_from_sorted_list s k
                      = { s with sorted_vaults := (alSet (alSet (alSet s.sorted_vaults pk ({ pe with next := some b })) b ({ eb with prev := some pk })) k ⟨k, 0, none, none⟩) } := by
                    unfold BranchCspr.remove_from_sorted_list
                    rw [hek]
                    dsimp only
                    rw [hpsome]
                    dsimp only
                    rw [hpe]
                    dsimp only
                    rw [hcB]
                    dsimp only
                    rw [show alGet (alSet s.sorted_vaults pk
                      ({ pe with next := some b })) b = some eb from by
                        rw [alGet_alSet, if_neg hpkb]
                        exact heb]
                  rw [hins, hA0]
                  refine ⟨?_, ?_⟩
                  · show walk _ none s.sorted_head
                      ((A0 ++ [pk]) ++ b :: B')
                      = some (s.sorted_tail, none)
                    rw [List.append_assoc, walk_append]
                    have hw00' : walk (alSet (alSet (alSet
                        s.sorted_vaults pk ({ pe with next := some b }))
                        b ({ eb with prev := some pk })) k
                        ⟨k, 0, none, none⟩) none s.sorted_head A0
                        = some (p00, some pk) := by
                      refine (walk_congr A0 none s.sorted_head ?_).trans
                        hw00
                      intro i hi
                      have hiA : i ∈ a :: A1 := by
                        rw [hA0]
                        exact List.mem_append_left _ hi
                      have hik : i ≠ k := fun he => hkA (he ▸ hiA)
                      have hib : i ≠ b := fun he => hbA (he ▸ hiA)
                      have hipk : i ≠ pk := fun he => hpkA0 (he ▸ hi)
                      rw [alGet_alSet, if_neg (Ne.symm hik),
                        alGet_alSet, if_neg (Ne.symm hib), alGet_alSet,
                        if_neg (Ne.symm hipk)]
                    rw [hw00']
                    dsimp only
                    rw [show (([pk] ++ b :: B') : List VaultKey)
                      = pk :: b :: B' from rfl]
                    rw [walk_cons, if_pos rfl, alGet_alSet,
                      if_neg (Ne.symm hpkk), alGet_alSet,
                      if_neg (Ne.symm hpkb), alGet_alSet_self]
                    dsimp only
                    rw [if_pos hppk]
                    rw [walk_cons, if_pos rfl, alGet_alSet,
                      if_neg (Ne.symm hbk), alGet_alSet_self]
                    dsimp only
                    rw [if_pos rfl]
                    refine (walk_congr B' (some b) eb.next ?_).trans hcw
                    intro i hi
                    have hik : i ≠ k := fun he => hkB (by
                      rw [← he]
                      exact List.mem_cons_of_mem b hi)
                    have hib : i ≠ b := fun he => hbB' (he ▸ hi)
                    have hipk : i ≠ pk := by
                      intro he
                      apply hdisjL (show pk ∈ A by
                        rw [hAc]
                        exact hpkA)
                      rw [← he]
                      exact List.mem_cons_of_mem k
                        (List.mem_cons_of_mem b hi)
                    rw [alGet_alSet, if_neg (Ne.symm hik), alGet_alSet,
                      if_neg (Ne.symm hib), alGet_alSet,
                      if_neg (Ne.symm hipk)]
                  · intro i hi
                    unfold rateOf
                    by_cases hib : i = b
                    · subst hib
                      rw [alGet_alSet, if_neg (Ne.symm hi),
                        alGet_alSet_self, heb]
                    · by_cases hipk : i = pk
                      · subst hipk
                        rw [alGet_alSet, if_neg (Ne.symm hi),
                          alGet_alSet, if_neg (Ne.symm hib),
                          alGet_alSet_self, hpe]
                      · rw [alGet_alSet, if_neg (Ne.symm hi),
                          alGet_alSet, if_neg (Ne.symm hib),
                          alGet_alSet, if_neg (Ne.symm hipk)]

/-- Inserting a fresh key keeps the chain well formed, duplicate free
and ascending, and only grows its membership by the new key. -/
theorem insert_sortedInv (s : BranchState) (x : VaultKey) (r : Nat)
    (L : List VaultKey) (hc : chainList s L) (hnd : L.Nodup)
    (hx : x ∉ L)
    (hasc : List.Chain' (fun a b => a ≤ b)
      (L.map (rateOf s.sorted_vaults))) :
    ∃ L', chainList (BranchCspr.insert_into_sorted_list s x r) L' ∧
      L'.Nodup ∧
      List.Chain' (fun a b => a ≤ b)
        (L'.map (rateOf
          (BranchCspr.insert_into_sorted_list s x r).sorted_vaults)) ∧
      (∀ k, k ∈ L → k ∈ L') ∧ x ∈ L' ∧
      (∀ k, k ∈ L' → k = x ∨ k ∈ L) := by
  obtain ⟨hcL', hrx, hro⟩ := insert_spec s x r L hc hnd hx
  have hsplit := List.takeWhile_append_dropWhile
    (fun j => decide (rateOf s.sorted_vaults j < r)) L
  refine ⟨L.takeWhile (fun j => decide (rateOf s.sorted_vaults j < r))
      ++ x ::
      L.dropWhile (fun j => decide (rateOf s.sorted_vaults j < r)),
    hcL', ?_, ?_, ?_, ?_, ?_⟩
  · rw [List.Perm.nodup_iff List.perm_middle, List.nodup_cons, hsplit]
    exact ⟨hx, hnd⟩
  · have hmA : ∀ a, a ∈ L.takeWhile
        (fun j => decide (rateOf s.sorted_vaults j < r)) → a ≠ x := by
      intro a ha he
      apply hx
      rw [← hsplit, ← he]
      exact List.mem_append_left _ ha
    have hmD : ∀ a, a ∈ L.dropWhile
        (fun j => decide (rateOf s.sorted_vaults j < r)) → a ≠ x := by
      intro a ha he
      apply hx
      rw [← hsplit, ← he]
      exact List.mem_append_right _ ha
    rw [List.map_append, List.map_cons, hrx,
      List.map_congr_left (fun a ha => hro a (hmA a ha)),
      List.map_congr_left (fun a ha => hro a (hmD a ha))]
    rw [← hsplit, List.map_append] at hasc
    obtain ⟨hascA, hascD, hjoin⟩ := List.chain'_append.mp hasc
    refine List.chain'_append.mpr ⟨hascA, ?_, ?_⟩
    · refine List.chain'_cons'.mpr ⟨?_, hascD⟩
      intro y hy
      cases hD : L.dropWhile
          (fun j => decide (rateOf s.sorted_vaults j < r)) with
      | nil => rw [hD] at hy; cases hy
      | cons j D0 =>
        rw [hD] at hy
        rw [List.map_cons, List.head?_cons] at hy
        obtain rfl := Option.some.inj hy
        have hh := List.head?_dropWhile_not
          (fun j => decide (rateOf s.sorted_vaults j < r)) L
        rw [hD] at hh
        simp only [List.head?_cons] at hh
        have := of_decide_eq_false hh
        omega
    · intro a ha y hy
      rw [List.head?_cons] at hy
      obtain rfl := Option.some.inj hy
      rw [List.getLast?_map] at ha
      cases hgl : (L.takeWhile
          (fun j => decide (rateOf s.sorted_vaults j < r))).getLast?
        with
      | none => rw [hgl] at ha; cases ha
      | some i =>
        rw [hgl] at ha
        obtain rfl := Option.some.inj ha
        have hi := mem_takeWhile_rate s.sorted_vaults r L i
          (List.mem_of_getLast?_eq_some hgl)
        omega
  · intro k hk
    rw [List.Perm.mem_iff List.perm_middle, List.mem_cons, hsplit]
    exact Or.inr hk
  · rw [List.Perm.mem_iff List.perm_middle]
    exact List.mem_cons_self x _
  · intro k hk
    rw [List.Perm.mem_iff List.perm_middle, List.mem_cons, hsplit] at hk
    exact hk

/-- Removing a chained key keeps the chain well formed, duplicate free
and ascending, and only shrinks its membership by the removed key. -/
theorem remove_sortedInv (s : BranchState) (k : VaultKey)
    (A B : List VaultKey)
    (hc : chainList s (A ++ k :: B)) (hnd : (A ++ k :: B).Nodup)
    (hasc : List.Chain' (fun a b => a ≤ b)
      ((A ++ k :: B).map (rateOf s.sorted_vaults))) :
    chainList (BranchCspr.remove_from_sorted_list s k) (A ++ B) ∧
    (A ++ B).Nodup ∧
    List.Chain' (fun a b => a ≤ b)
      ((A ++ B).map (rateOf
        (BranchCspr.remove_from_sorted_list s k).sorted_vaults)) ∧
    (∀ i, i ∈ A ++ B → i ∈ A ++ k :: B) ∧
    (∀ i, i ∈ A ++ k :: B → i ≠ k → i ∈ A ++ B) := by
  obtain ⟨hcL', hro⟩ := remove_spec s k A B hc hnd
  have hknA : k ∉ A := by
    intro hm
    exact List.disjoint_of_nodup_append hnd hm (List.mem_cons_self k B)
  have hknB : k ∉ B :=
    (List.nodup_cons.mp (List.Nodup.of_append_right hnd)).1
  have hsub : List.Sublist (A ++ B) (A ++ k :: B) :=
    List.Sublist.append_left (List.sublist_cons_self k B) A
  refine ⟨hcL', ?_, ?_, ?_, ?_⟩
  · have := (List.Perm.nodup_iff List.perm_middle).mp hnd
    exact (List.nodup_cons.mp this).2
  · have hmap : (A ++ B).map (rateOf
        (BranchCspr.remove_from_sorted_list s k).sorted_vaults)
        = (A ++ B).map (rateOf s.sorted_vaults) := by
      refine List.map_congr_left ?_
      intro a ha
      refine hro a ?_
      intro he
      subst he
      rcases List.mem_append.mp ha with h1 | h1
      · exact hknA h1
      · exact hknB h1
    rw [hmap]
    exact List.Chain'.sublist hasc (List.Sublist.map _ hsub)
  · intro i hi
    exact hsub.mem hi
  · intro i hi hik
    rcases List.mem_append.mp hi with h1 | h1
    · exact List.mem_append_left _ h1
    · rcases List.mem_cons.mp h1 with rfl | h2
      · exact absurd rfl hik
      · exact List.mem_append_right _ h2

theorem alSet_isSome {κ α : Type} [DecidableEq κ]
    (m : List (κ × α)) (k' k : κ) (v : α) (h : (alGet m k).isSome) :
    (alGet (alSet m k' v) k).isSome := by
  rw [alGet_alSet]
  split
  · rfl
  · exact h

/-- The sorted-list fields of a successful `close_vault_internal` are
those of the `remove_from_sorted_list` call it makes. -/
theorem close_vault_internal_sorted_ok {s : BranchState} {k : VaultKey}
    {v : VaultData} {s' : BranchState}
    (h : BranchCspr.close_vault_internal s k v = .ok s') :
    s'.sorted_vaults = (BranchCspr.remove_from_sorted_list
      { s with total_collateral := s.total_collateral - v.collateral,
               total_debt := s.total_debt - v.debt,
               vault_count := s.vault_count - 1 } k).sorted_vaults ∧
    s'.sorted_head = (BranchCspr.remove_from_sorted_list
      { s with total_collateral := s.total_collateral - v.collateral,
               total_debt := s.total_debt - v.debt,
               vault_count := s.vault_count - 1 } k).sorted_head ∧
    s'.sorted_tail = (BranchCspr.remove_from_sorted_list
      { s with total_collateral := s.total_collateral - v.collateral,
               total_debt := s.total_debt - v.debt,
               vault_count := s.vault_count - 1 } k).sorted_tail := by
  unfold BranchCspr.close_vault_internal at h
  obtain ⟨tc, htc, h⟩ := except_bind_ok h
  obtain ⟨td, htd, h⟩ := except_bind_ok h
  obtain ⟨htc1, htc2⟩ := usub_ok htc
  obtain ⟨htd1, htd2⟩ := usub_ok htd
  subst htc1
  subst htd1
  have hs' := (Except.ok.inj h).symm
  subst hs'
  refine ⟨?_, ?_, ?_⟩ <;> simp only [owner_list_frame]

/-- `close_vault_internal` preserves the sorted-list invariant. -/
theorem close_vault_internal_sorted {s : BranchState} {k : VaultKey}
    {v : VaultData} {s' : BranchState}
    (h : BranchCspr.close_vault_internal s k v = .ok s')
    (hS : SortedInv s) (hact : activeAt s k = true) :
    SortedInv s' := by
  obtain ⟨L, hcL, hnd, hasc, hmem, hex⟩ := hS
  obtain ⟨A, B, hAB⟩ := List.append_of_mem (hmem k hact)
  subst hAB
  obtain ⟨hsv, hsh, hst⟩ := close_vault_internal_sorted_ok h
  obtain ⟨hc1, hd1, hv, htcf, htdf, hcnt, hnx⟩ := close_vault_internal_ok h
  have hres := remove_sortedInv
    { s with total_collateral := s.total_collateral - v.collateral,
             total_debt := s.total_debt - v.debt,
             vault_count := s.vault_count - 1 } k A B hcL hnd hasc
  obtain ⟨hcL', hnd', hasc', hsub', hrem'⟩ := hres
  refine ⟨A ++ B, ?_, hnd', ?_, ?_, ?_⟩
  · show walk s'.sorted_vaults none s'.sorted_head (A ++ B)
      = some (s'.sorted_tail, none)
    rw [hsv, hsh, hst]
    exact hcL'
  · rw [show rateOf s'.sorted_vaults = rateOf
      (BranchCspr.remove_from_sorted_list
        { s with total_collateral := s.total_collateral - v.collateral,
                 total_debt := s.total_debt - v.debt,
                 vault_count := s.vault_count - 1 } k).sorted_vaults
      from by rw [hsv]]
    exact hasc'
  · intro q hq
    unfold activeAt at hq
    rw [hv, alGet_alSet] at hq
    by_cases hqk : k = q
    · rw [if_pos hqk] at hq
      dsimp only at hq
      rw [vault_active_zero] at hq
      cases hq
    · rw [if_neg hqk] at hq
      refine hrem' q (hmem q ?_) (fun he => hqk he.symm)
      unfold activeAt
      exact hq
  · intro q hq
    have hqL := hsub' q hq
    have := hex q hqL
    rw [hv]
    exact alSet_isSome _ _ _ _ this

/-- `close_vault` preserves the sorted-list invariant. -/
theorem close_vault_sorted {s s' : BranchState} {o i : Nat}
    (hS : SortedInv s) (h : BranchCspr.close_vault s o i = .ok s') :
    SortedInv s' := by
  unfold BranchCspr.close_vault at h
  dsimp only at h
  cases hget : alGet s.vaults ⟨o, i⟩ with
  | none => rw [hget] at h; cases h
  | some vault =>
    rw [hget] at h
    dsimp only at h
    by_cases hact : vault.collateral = 0 ∧ vault.debt = 0
    · rw [if_pos hact] at h; cases h
    · rw [if_neg hact] at h
      refine close_vault_internal_sorted h hS ?_
      unfold activeAt
      rw [hget]
      simp [vault_active]
      omega

/-- `close_vault_for_liquidation` preserves the sorted-list invariant. -/
theorem close_liq_sorted {s s' : BranchState} {o i : Nat}
    (hS : SortedInv s)
    (h : BranchCspr.close_vault_for_liquidation s o i = .ok s') :
    SortedInv s' := by
  unfold BranchCspr.close_vault_for_liquidation at h
  dsimp only at h
  cases hget : alGet s.vaults ⟨o, i⟩ with
  | none => rw [hget] at h; cases h
  | some vault =>
    rw [hget] at h
    dsimp only at h
    by_cases hact : vault.collateral = 0 ∧ vault.debt = 0
    · rw [if_pos hact] at h; cases h
    · rw [if_neg hact] at h
      refine close_vault_internal_sorted h hS ?_
      unfold activeAt
      rw [hget]
      simp [vault_active]
      omega

/-- `seize_collateral` preserves the sorted-list invariant. -/
theorem seize_sorted {s s' : BranchState} {o i a : Nat}
    (hS : SortedInv s) (h : BranchCspr.seize_collateral s o i a = .ok s') :
    SortedInv s' := by
  unfold BranchCspr.seize_collateral at h
  dsimp only at h
  cases hget : alGet s.vaults ⟨o, i⟩ with
  | none => rw [hget] at h; cases h
  | some vault =>
    rw [hget] at h
    dsimp only at h
    by_cases hact : vault.collateral = 0 ∧ vault.debt = 0
    · rw [if_pos hact] at h; cases h
    · rw [if_neg hact] at h
      by_cases hlt : vault.collateral < a
      · rw [if_pos hlt] at h; cases h
      · rw [if_neg hlt] at h
        obtain ⟨tc, htc, h⟩ := except_bind_ok h
        have hs' := (Except.ok.inj h).symm
        subst hs'
        obtain ⟨L, hcL, hnd, hasc, hmem, hex⟩ := hS
        have hkL : ⟨o, i⟩ ∈ L := by
          refine hmem _ ?_
          unfold activeAt
          rw [hget]
          simp [vault_active]
          omega
        refine ⟨L, hcL, hnd, hasc, ?_, ?_⟩
        · intro q hq
          unfold activeAt at hq
          dsimp only at hq
          rw [alGet_alSet] at hq
          by_cases hqk : (⟨o, i⟩ : VaultKey) = q
          · rw [← hqk]
            exact hkL
          · rw [if_neg hqk] at hq
            refine hmem q ?_
            unfold activeAt
            exact hq
        · intro q hq
          exact alSet_isSome _ _ _ _ (hex q hq)

/-- `reduce_debt` preserves the sorted-list invariant. -/
theorem reduce_debt_sorted {s s' : BranchState} {o i a : Nat}
    (hS : SortedInv s) (h : BranchCspr.reduce_debt s o i a = .ok s') :
    SortedInv s' := by
  unfold BranchCspr.reduce_debt at h
  dsimp only at h
  cases hget : alGet s.vaults ⟨o, i⟩ with
  | none => rw [hget] at h; cases h
  | some vault =>
    rw [hget] at h
    dsimp only at h
    by_cases hact : vault.collateral = 0 ∧ vault.debt = 0
    · rw [if_pos hact] at h; cases h
    · rw [if_neg hact] at h
      by_cases hlt : vault.debt < a
      · rw [if_pos hlt] at h; cases h
      · rw [if_neg hlt] at h
        obtain ⟨td, htd, h⟩ := except_bind_ok h
        have hs' := (Except.ok.inj h).symm
        subst hs'
        obtain ⟨L, hcL, hnd, hasc, hmem, hex⟩ := hS
        have hkL : ⟨o, i⟩ ∈ L := by
          refine hmem _ ?_
          unfold activeAt
          rw [hget]
          simp [vault_active]
          omega
        refine ⟨L, hcL, hnd, hasc, ?_, ?_⟩
        · intro q hq
          unfold activeAt at hq
          dsimp only at hq
          rw [alGet_alSet] at hq
          by_cases hqk : (⟨o, i⟩ : VaultKey) = q
          · rw [← hqk]
            exact hkL
          · rw [if_neg hqk] at hq
            refine hmem q ?_
            unfold activeAt
            exact hq
        · intro q hq
          exact alSet_isSome _ _ _ _ (hex q hq)

/-- `open_vault` preserves the sorted-list invariant. -/
theorem open_vault_sorted {s : BranchState} {o c d r t : Nat}
    {p : BranchState × Nat}
    (hI : TotInv s) (hS : SortedInv s)
    (h : BranchCspr.open_vault s o c d r t = .ok p) :
    SortedInv p.1 := by
  unfold BranchCspr.open_vault at h
  by_cases h1 : MAX_INTEREST_RATE_BPS < r
  · rw [if_pos h1] at h; cases h
  rw [if_neg h1] at h
  by_cases h2 : d < MIN_DEBT_WHOLE * PRICE_SCALE
  · rw [if_pos h2] at h; cases h
  rw [if_neg h2] at h
  obtain ⟨cv, hcv, h⟩ := except_bind_ok h
  obtain ⟨u, hu, h⟩ := except_bind_ok h
  dsimp only at h
  obtain ⟨tc, htc, h⟩ := except_bind_ok h
  obtain ⟨td, htd, h⟩ := except_bind_ok h
  have hp := (Except.ok.inj h).symm
  subst hp
  have hnone : alGet s.vaults ⟨o, (alGet s.next_vault_id o).getD 1⟩
      = none := by
    cases hg : alGet s.vaults ⟨o, (alGet s.next_vault_id o).getD 1⟩ with
    | none => rfl
    | some w => exact absurd (hI.fresh o _ w hg) (lt_irrefl _)
  obtain ⟨L, hcL, hnd, hasc, hmem, hex⟩ := hS
  have hxL : (⟨o, (alGet s.next_vault_id o).getD 1⟩ : VaultKey) ∉ L := by
    intro hm
    have := hex _ hm
    rw [hnone] at this
    cases this
  have hres := insert_sortedInv
    { s with next_vault_id := (alSet s.next_vault_id o ((alGet s.next_vault_id o).getD 1 + 1)), vaults := (alSet s.vaults ⟨o, (alGet s.next_vault_id o).getD 1⟩ ⟨o, c, d, r, t⟩) }
    ⟨o, (alGet s.next_vault_id o).getD 1⟩ r L hcL hnd hxL hasc
  obtain ⟨L', hcIns, hnd', hasc', hsubL, hxL', honly⟩ := hres
  refine ⟨L', hcIns, hnd', hasc', ?_, ?_⟩
  · intro q hq
    unfold activeAt at hq
    dsimp only at hq
    rw [(insert_frame _ _ _).1] at hq
    dsimp only at hq
    rw [alGet_alSet] at hq
    by_cases hqk : (⟨o, (alGet s.next_vault_id o).getD 1⟩ : VaultKey) = q
    · rw [← hqk]
      exact hxL'
    · rw [if_neg hqk] at hq
      refine hsubL q (hmem q ?_)
      unfold activeAt
      exact hq
  · intro q hq
    show (alGet _ q).isSome = true
    dsimp only
    rw [(insert_frame _ _ _).1]
    dsimp only
    rcases honly q hq with rfl | hqL
    · rw [alGet_alSet_self]
      rfl
    · exact alSet_isSome _ _ _ _ (hex q hqL)

/-- `adjust_vault` preserves the sorted-list invariant. -/
theorem adjust_vault_sorted {s s' : BranchState} {o i cd : Nat}
    {cw : Bool} {dd : Nat} {dr : Bool} {t : Nat}
    (hS : SortedInv s)
    (h : BranchCspr.adjust_vault s o i cd cw dd dr t = .ok s') :
    SortedInv s' := by
  unfold BranchCspr.adjust_vault at h
  try dsimp only at h
  cases hget : alGet s.vaults ⟨o, i⟩ with
  | none => rw [hget] at h; cases h
  | some vault0 =>
    rw [hget] at h
    dsimp only at h
    by_cases hact : vault0.collateral = 0 ∧ vault0.debt = 0
    · rw [if_pos hact] at h; cases h
    rw [if_neg hact] at h
    have hactA : activeAt s ⟨o, i⟩ = true := by
      unfold activeAt
      rw [hget]
      simp [vault_active]
      omega
    obtain ⟨acc, hacc, h⟩ := except_bind_ok h
    try dsimp only at h
    obtain ⟨td0, htd0, h⟩ := except_bind_ok h
    obtain ⟨nc, hnc, h⟩ := except_bind_ok h
    obtain ⟨nd, hnd2, h⟩ := except_bind_ok h
    try dsimp only at h
    obtain ⟨L, hcL, hnd, hasc, hmem, hex⟩ := hS
    by_cases hclose : nc = 0 ∧ nd = 0
    · rw [if_pos hclose] at h
      exact close_vault_internal_sorted h ⟨L, hcL, hnd, hasc, hmem, hex⟩
        hactA
    · rw [if_neg hclose] at h
      obtain ⟨u1, hu1, h⟩ := except_bind_ok h
      obtain ⟨cv, hcv, h⟩ := except_bind_ok h
      obtain ⟨u2, hu2, h⟩ := except_bind_ok h
      obtain ⟨cdiff, hcd, h⟩ := except_bind_ok h
      obtain ⟨ddiff, hdd, h⟩ := except_bind_ok h
      have hs' := (Except.ok.inj h).symm
      subst hs'
      refine ⟨L, hcL, hnd, hasc, ?_, ?_⟩
      · intro q hq
        unfold activeAt at hq
        dsimp only at hq
        rw [alGet_alSet] at hq
        by_cases hqk : (⟨o, i⟩ : VaultKey) = q
        · rw [← hqk]
          exact hmem _ hactA
        · rw [if_neg hqk] at hq
          refine hmem q ?_
          unfold activeAt
          exact hq
      · intro q hq
        exact alSet_isSome _ _ _ _ (hex q hq)

/-- `adjust_interest_rate` preserves the sorted-list invariant. -/
theorem adjust_rate_sorted {s s' : BranchState} {o i r t : Nat}
    (hS : SortedInv s)
    (h : BranchCspr.adjust_interest_rate s o i r t = .ok s') :
    SortedInv s' := by
  unfold BranchCspr.adjust_interest_rate at h
  by_cases h1 : MAX_INTEREST_RATE_BPS < r
  · rw [if_pos h1] at h; cases h
  rw [if_neg h1] at h
  try dsimp only at h
  cases hget : alGet s.vaults ⟨o, i⟩ with
  | none => rw [hget] at h; cases h
  | some vault0 =>
    rw [hget] at h
    try dsimp only at h
    by_cases hact : vault0.collateral = 0 ∧ vault0.debt = 0
    · rw [if_pos hact] at h; cases h
    rw [if_neg hact] at h
    have hactA : activeAt s ⟨o, i⟩ = true := by
      unfold activeAt
      rw [hget]
      simp [vault_active]
      omega
    obtain ⟨acc, hacc, h⟩ := except_bind_ok h
    try dsimp only at h
    obtain ⟨td0, htd0, h⟩ := except_bind_ok h
    try dsimp only at h
    obtain ⟨L, hcL, hnd, hasc, hmem, hex⟩ := hS
    by_cases hne : vault0.interest_rate_bps ≠ r
    · rw [if_pos hne] at h
      have hs' := (Except.ok.inj h).symm
      subst hs'
      obtain ⟨A, B, hAB⟩ := List.append_of_mem (hmem _ hactA)
      subst hAB
      have hkA : (⟨o, i⟩ : VaultKey) ∉ A := by
        intro hm
        exact List.disjoint_of_nodup_append hnd hm
          (List.mem_cons_self _ B)
      have hkB : (⟨o, i⟩ : VaultKey) ∉ B :=
        (List.nodup_cons.mp (List.Nodup.of_append_right hnd)).1
      have hrem := remove_sortedInv
        { s with total_debt := td0 } ⟨o, i⟩ A B hcL hnd hasc
      obtain ⟨hcL', hnd', hasc', hsub', hrem'⟩ := hrem
      have hxAB : (⟨o, i⟩ : VaultKey) ∉ A ++ B := by
        intro hm
        rcases List.mem_append.mp hm with hm1 | hm1
        · exact hkA hm1
        · exact hkB hm1
      have hins := insert_sortedInv
        (BranchCspr.remove_from_sorted_list
          { s with total_debt := td0 } ⟨o, i⟩) ⟨o, i⟩ r (A ++ B)
        hcL' hnd' hxAB hasc'
      obtain ⟨L'', hcIns, hnd'', hasc'', hsubL, hxL', honly⟩ := hins
      refine ⟨L'', hcIns, hnd'', hasc'', ?_, ?_⟩
      · intro q hq
        unfold activeAt at hq
        dsimp only at hq
        rw [(insert_frame _ _ _).1, (remove_frame _ _).1] at hq
        dsimp only at hq
        rw [alGet_alSet] at hq
        by_cases hqk : (⟨o, i⟩ : VaultKey) = q
        · rw [← hqk]
          exact hxL'
        · rw [if_neg hqk] at hq
          refine hsubL q (hrem' q (hmem q ?_)
            (fun he => hqk he.symm))
          unfold activeAt
          exact hq
      · intro q hq
        show (alGet _ q).isSome = true
        dsimp only
        rw [(insert_frame _ _ _).1, (remove_frame _ _).1]
        dsimp only
        rcases honly q hq with rfl | hqL
        · rw [alGet_alSet_self]
          rfl
        · exact alSet_isSome _ _ _ _ (hex q (hsub' q hqL))
    · rw [if_neg hne] at h
      have hs' := (Except.ok.inj h).symm
      subst hs'
      refine ⟨L, hcL, hnd, hasc, ?_, ?_⟩
      · intro q hq
        unfold activeAt at hq
        dsimp only at hq
        rw [alGet_alSet] at hq
        by_cases hqk : (⟨o, i⟩ : VaultKey) = q
        · rw [← hqk]
          exact hmem _ hactA
        · rw [if_neg hqk] at hq
          refine hmem q ?_
          unfold activeAt
          exact hq
      · intro q hq
        exact alSet_isSome _ _ _ _ (hex q hq)

/-- `reduce_collateral_for_redemption` preserves the sorted-list
invariant. -/
theorem reduce_redemption_sorted {s s' : BranchState} {o i ca da : Nat}
    (hS : SortedInv s)
    (h : BranchCspr.reduce_collateral_for_redemption s o i ca da
      = .ok s') :
    SortedInv s' := by
  unfold BranchCspr.reduce_collateral_for_redemption at h
  try dsimp only at h
  cases hget : alGet s.vaults ⟨o, i⟩ with
  | none => rw [hget] at h; cases h
  | some vault0 =>
    rw [hget] at h
    try dsimp only at h
    by_cases hact : vault0.collateral = 0 ∧ vault0.debt = 0
    · rw [if_pos hact] at h; cases h
    rw [if_neg hact] at h
    by_cases hlt1 : vault0.collateral < ca
    · rw [if_pos hlt1] at h; cases h
    rw [if_neg hlt1] at h
    by_cases hlt2 : vault0.debt < da
    · rw [if_pos hlt2] at h; cases h
    rw [if_neg hlt2] at h
    have hactA : activeAt s ⟨o, i⟩ = true := by
      unfold activeAt
      rw [hget]
      simp [vault_active]
      omega
    obtain ⟨tc, htc, h⟩ := except_bind_ok h
    obtain ⟨td, htd, h⟩ := except_bind_ok h
    try dsimp only at h
    have hs' := (Except.ok.inj h).symm
    obtain ⟨L, hcL, hnd, hasc, hmem, hex⟩ := hS
    by_cases hz : vault0.collateral - ca = 0 ∧ vault0.debt - da = 0
    · rw [if_pos hz] at hs'
      subst hs'
      obtain ⟨A, B, hAB⟩ := List.append_of_mem (hmem _ hactA)
      subst hAB
      have hrem := remove_sortedInv
        { s with total_collateral := tc, total_debt := td } ⟨o, i⟩ A B
        hcL hnd hasc
      obtain ⟨hcL', hnd', hasc', hsub', hrem'⟩ := hrem
      refine ⟨A ++ B, ?_, hnd', ?_, ?_, ?_⟩
      · show walk _ none _ (A ++ B) = some (_, none)
        dsimp only
        simp only [owner_list_frame]
        exact hcL'
      · show List.Chain' _ ((A ++ B).map (rateOf _))
        dsimp only
        simp only [owner_list_frame]
        exact hasc'
      · intro q hq
        unfold activeAt at hq
        dsimp only at hq
        simp only [owner_list_frame] at hq
        rw [(remove_frame _ _).1] at hq
        dsimp only at hq
        rw [alGet_alSet] at hq
        by_cases hqk : (⟨o, i⟩ : VaultKey) = q
        · rw [if_pos hqk] at hq
          dsimp only at hq
          rw [show vault_active ⟨vault0.owner,
              vault0.collateral - ca, vault0.debt - da,
              vault0.interest_rate_bps,
              vault0.last_accrual_timestamp⟩ = false from by
            simp [vault_active]
            omega] at hq
          cases hq
        · rw [if_neg hqk] at hq
          refine hrem' q (hmem q ?_) (fun he => hqk he.symm)
          unfold activeAt
          exact hq
      · intro q hq
        show (alGet _ q).isSome = true
        dsimp only
        simp only [owner_list_frame]
        rw [(remove_frame _ _).1]
        dsimp only
        exact alSet_isSome _ _ _ _ (hex q (hsub' q hq))
    · rw [if_neg hz] at hs'
      subst hs'
      refine ⟨L, hcL, hnd, hasc, ?_, ?_⟩
      · intro q hq
        unfold activeAt at hq
        dsimp only at hq
        rw [alGet_alSet] at hq
        by_cases hqk : (⟨o, i⟩ : VaultKey) = q
        · rw [← hqk]
          exact hmem _ hactA
        · rw [if_neg hqk] at hq
          refine hmem q ?_
          unfold activeAt
          exact hq
      · intro q hq
        exact alSet_isSome _ _ _ _ (hex q hq)

/-- The freshly initialised branch satisfies the sorted-list invariant,
with the empty key sequence. -/
theorem sortedInv_init : SortedInv BranchCspr.initBranch := by
  refine ⟨[], rfl, List.nodup_nil, List.chain'_nil, ?_, ?_⟩
  · intro k hk
    unfold activeAt at hk
    simp [BranchCspr.initBranch, alGet] at hk
  · intro k hk
    cases hk

/-- Any single entry-point call (completing or reverting) preserves the
sorted-list invariant. -/
theorem step_sortedInv (s : BranchState) (op : Op) (hI : TotInv s)
    (hS : SortedInv s) : SortedInv (step s op) := by
  unfold step
  cases hap : applyOp s op with
  | error e => exact hS
  | ok s2 =>
    cases op with
    | openVaultOp o c d r t =>
      dsimp only [applyOp] at hap
      cases hov : BranchCspr.open_vault s o c d r t with
      | error e => rw [hov] at hap; cases hap
      | ok p =>
        rw [hov] at hap
        have h2 : Except.ok (ε := CdpError) p.1 = .ok s2 := hap
        obtain rfl := Except.ok.inj h2
        exact open_vault_sorted hI hS hov
    | adjustVaultOp o i cd cw dd dr t => exact adjust_vault_sorted hS hap
    | adjustRateOp o i r t => exact adjust_rate_sorted hS hap
    | closeVaultOp o i => exact close_vault_sorted hS hap
    | seizeCollateralOp o i a => exact seize_sorted hS hap
    | reduceDebtOp o i a => exact reduce_debt_sorted hS hap
    | reduceForRedemptionOp o i c d =>
      exact reduce_redemption_sorted hS hap
    | closeForLiquidationOp o i => exact close_liq_sorted hS hap

theorem run_sortedInv (ops : List Op) (s : BranchState) (hI : TotInv s)
    (hS : SortedInv s) : SortedInv (run s ops) := by
  induction ops generalizing s with
  | nil => exact hS
  | cons op ops ih =>
    exact ih _ (step_totInv s op hI) (step_sortedInv s op hI hS)

/-- C7 counterexample: two vaults opened at the SAME interest rate
(500 bps).  The claim says ties preserve arrival order, so the
first-opened vault `⟨1, 1⟩` should stay ahead of the later `⟨2, 1⟩`.
Instead the sorted head is the LATER vault `⟨2, 1⟩`, whose `next` link
points at the earlier `⟨1, 1⟩`: inserting before the first node with
`rate ≤ current.rate` places a new entry before existing equal-rate
entries, reversing arrival order among ties. -/
theorem C7_counterexample :
    (run BranchCspr.initBranch
      [.openVaultOp 1 (2 * 10 ^ 9) PRICE_SCALE 500 0,
       .openVaultOp 2 (2 * 10 ^ 9) PRICE_SCALE 500 0]).sorted_head
      = some ⟨2, 1⟩ ∧
    (alGet (run BranchCspr.initBranch
      [.openVaultOp 1 (2 * 10 ^ 9) PRICE_SCALE 500 0,
       .openVaultOp 2 (2 * 10 ^ 9) PRICE_SCALE 500 0]).sorted_vaults
        ⟨2, 1⟩).map (fun e => e.next) = some (some ⟨1, 1⟩) ∧
    (⟨2, 1⟩ : VaultKey) ≠ ⟨1, 1⟩ := by
  refine ⟨by decide, by decide, by decide⟩

/-- C7 (amended): for any state whose sorted links trace a duplicate-free
key sequence `L`, inserting a fresh key `x` at rate `r` produces the
sequence `takeWhile (rate < r) L ++ x :: dropWhile (rate < r) L`: the
scan from the head skips exactly the strict prefix of nodes with
`rate < r` and places `x` immediately before the first node with
`r ≤ rate` — hence BEFORE existing equal-rate entries, reversing arrival
order among ties (the original claim's "preserving arrival order" is
refuted by `C7_counterexample`).  When no node satisfies `r ≤ rate` the
`dropWhile` part is empty and `x` is appended at the tail; when `L = []`
the new sequence is `[x]`, so `x` becomes both head and tail.  The new
entry stores rate `r` and every other entry's stored rate is
unchanged. -/
theorem C7_theorem (s : BranchState) (x : VaultKey) (r : Nat)
    (L : List VaultKey) (hc : chainList s L) (hnd : L.Nodup)
    (hx : x ∉ L) :
    chainList (BranchCspr.insert_into_sorted_list s x r)
      (L.takeWhile (fun j => decide (rateOf s.sorted_vaults j < r))
        ++ x ::
       L.dropWhile (fun j => decide (rateOf s.sorted_vaults j < r))) ∧
    (∀ j, j ∈ L.takeWhile
        (fun j => decide (rateOf s.sorted_vaults j < r)) →
      rateOf s.sorted_vaults j < r) ∧
    (∀ j, (L.dropWhile
        (fun j => decide (rateOf s.sorted_vaults j < r))).head?
          = some j →
      r ≤ rateOf s.sorted_vaults j) ∧
    rateOf (BranchCspr.insert_into_sorted_list s x r).sorted_vaults x
      = r ∧
    (∀ k, k ≠ x →
      rateOf (BranchCspr.insert_into_sorted_list s x r).sorted_vaults k
        = rateOf s.sorted_vaults k) := by
  obtain ⟨h1, h2, h3⟩ := insert_spec s x r L hc hnd hx
  refine ⟨h1, mem_takeWhile_rate s.sorted_vaults r L, ?_, h2, h3⟩
  intro j hj
  have hh := List.head?_dropWhile_not
    (fun j => decide (rateOf s.sorted_vaults j < r)) L
  rw [hj] at hh
  simp only at hh
  have := of_decide_eq_false hh
  omega

/-- Closed instance of `C7_theorem`: inserting into the empty fresh
branch makes the single-element chain. -/
theorem C7_witness :
    chainList (BranchCspr.insert_into_sorted_list
      BranchCspr.initBranch ⟨1, 1⟩ 500) [(⟨1, 1⟩ : VaultKey)] ∧
    (∀ j, j ∈ (([] : List VaultKey).takeWhile
        (fun j => decide
          (rateOf BranchCspr.initBranch.sorted_vaults j < 500))) →
      rateOf BranchCspr.initBranch.sorted_vaults j < 500) ∧
    (∀ j, ((([] : List VaultKey).dropWhile
        (fun j => decide
          (rateOf BranchCspr.initBranch.sorted_vaults j < 500))).head?
          = some j) →
      500 ≤ rateOf BranchCspr.initBranch.sorted_vaults j) ∧
    rateOf (BranchCspr.insert_into_sorted_list
      BranchCspr.initBranch ⟨1, 1⟩ 500).sorted_vaults ⟨1, 1⟩ = 500 ∧
    (∀ k, k ≠ (⟨1, 1⟩ : VaultKey) →
      rateOf (BranchCspr.insert_into_sorted_list
        BranchCspr.initBranch ⟨1, 1⟩ 500).sorted_vaults k
        = rateOf BranchCspr.initBranch.sorted_vaults k) :=
  C7_theorem BranchCspr.initBranch ⟨1, 1⟩ 500 [] rfl List.nodup_nil
    (by simp)

/-- C6: after any sequence of entry-point calls on a fresh branch, the
sorted list is well-formed: some duplicate-free key sequence `L` traces
the links from `sorted_head` to `sorted_tail` (so the head has no
predecessor, the tail has no successor, and `next`/`prev` of adjacent
entries are mutually consistent — this is what `chainList`, i.e.
`walk ... none sorted_head L = some (sorted_tail, none)`, asserts), the
stored interest rates along `L` are ascending (non-decreasing), every
active vault appears in `L` (exactly once, by `Nodup`), and every key of
`L` has a vault record. -/
theorem C6_theorem (ops : List Op) :
    SortedInv (run BranchCspr.initBranch ops) :=
  run_sortedInv ops BranchCspr.initBranch totInv_init sortedInv_init

end Gaspar
